import Mathlib

/-!
# DX12Lib: verification development

Shallow embedding of the resource allocators of DX12Lib, of its command queue and
dynamic descriptor heap, of the thread-safe queue of GameFramework and of the key
handlers of the Models sample, and proofs of their specified properties.

## UploadBuffer (src/DX12Lib/src/UploadBuffer.cpp, src/DX12Lib/inc/dx12lib/UploadBuffer.h)

* `size_t` and `D3D12_GPU_VIRTUAL_ADDRESS` are 64-bit unsigned integers: they are
  natural numbers here and every arithmetic operation of the source is reduced
  modulo `2^64` explicitly.
* `std::shared_ptr<Page>` is an index into `UploadBuffer.heap`, the list of the
  `Page` objects that were constructed so far; two containers that hold the same
  index share the page, as the shared pointers of the source do.
* A C++ exception is an `Except.error`; `UploadBuffer::Allocate` also returns the
  state the buffer is left in, because an exception thrown by `Page::Allocate`
  does not undo the preceding `RequestPage`.
-/

namespace DX12_Library

/-- Number of values of a 64-bit machine word (`size_t`, `D3D12_GPU_VIRTUAL_ADDRESS`). -/
def WORD : Nat := 2 ^ 64

/-- Machine subtraction `x - b` of two 64-bit words: the difference modulo `2^64`. -/
def wsub (x b : Nat) : Nat :=
  if b % WORD ≤ x % WORD then x % WORD - b % WORD else x % WORD + (WORD - b % WORD)

namespace Math

/-- Modelled from the spec: `Math::AlignUp` of dx12lib/Helpers.h, which is not under src/.
`AlignUp(value, alignment)` is `(value + mask) & ~mask` with `mask = alignment - 1`,
all in `size_t` arithmetic. -/
def AlignUp (value alignment : Nat) : Nat :=
  let mask := wsub alignment 1
  ((value + mask) % WORD) &&& (WORD - 1 - mask)

end Math

/-- Exceptions thrown by the upload buffer. -/
inductive Error where
  /-- Exception `std::bad_alloc`. -/
  | bad_alloc
  /-- Exception thrown by `ThrowIfFailed` when the device cannot create the page resource. -/
  | device_error
  /-- Dereference of a page pointer that designates no page (cannot happen in C++). -/
  | invalid_pointer
  deriving DecidableEq, Repr

/-- The part of `Device` that `Page::Page` uses: asked for the resource of the
`n`-th page, the device either fails or gives the mapped CPU pointer and the GPU
virtual address of the new resource. -/
structure Device where
  /-- Result of `CreateCommittedResource`, `Map` and `GetGPUVirtualAddress` for page number `n`:
  `(m_CPUPtr, m_GPUPtr)`. -/
  CreateCommittedResource : Nat → Option (Nat × Nat)

/-- The struct `UploadBuffer::Allocation`. -/
structure UploadBuffer.Allocation where
  CPU : Nat
  GPU : Nat
  deriving DecidableEq, Repr

/-- The struct `UploadBuffer::Page` (the device reference and the resource are left out). -/
structure UploadBuffer.Page where
  m_CPUPtr : Nat
  m_GPUPtr : Nat
  m_PageSize : Nat
  m_Offset : Nat
  deriving DecidableEq, Repr

/-- The class `UploadBuffer`. -/
structure UploadBuffer where
  /-- The `Page` objects constructed so far; a `shared_ptr<Page>` is an index into this list. -/
  heap : List UploadBuffer.Page
  m_PagePool : List Nat
  m_AvailablePages : List Nat
  m_CurrentPage : Option Nat
  m_PageSize : Nat
  deriving DecidableEq, Repr

namespace UploadBuffer

/-- Constructor `UploadBuffer::UploadBuffer(device, pageSize)`. -/
def new (pageSize : Nat) : UploadBuffer :=
  { heap := [], m_PagePool := [], m_AvailablePages := [], m_CurrentPage := none,
    m_PageSize := pageSize }

/-- Constructor `Page::Page(device, sizeInBytes)` for the `n`-th page of the buffer. -/
def Page.new (dev : Device) (n sizeInBytes : Nat) : Except Error Page :=
  match dev.CreateCommittedResource n with
  | none => .error .device_error
  | some (cpu, gpu) =>
    .ok { m_CPUPtr := cpu, m_GPUPtr := gpu, m_PageSize := sizeInBytes, m_Offset := 0 }

/-- Method `Page::HasSpace`. -/
def Page.HasSpace (p : Page) (sizeInBytes alignment : Nat) : Bool :=
  let alignedSize := Math.AlignUp sizeInBytes alignment
  let alignedOffset := Math.AlignUp p.m_Offset alignment
  decide ((alignedOffset + alignedSize) % WORD ≤ p.m_PageSize)

/-- Method `Page::Allocate`: the allocation and the page after the call, or `std::bad_alloc`
(the page is then unchanged). -/
def Page.Allocate (p : Page) (sizeInBytes alignment : Nat) : Except Error (Allocation × Page) :=
  if !p.HasSpace sizeInBytes alignment then
    .error .bad_alloc
  else
    let alignedSize := Math.AlignUp sizeInBytes alignment
    let m_Offset := Math.AlignUp p.m_Offset alignment
    let allocation : Allocation :=
      { CPU := (p.m_CPUPtr + m_Offset) % WORD, GPU := (p.m_GPUPtr + m_Offset) % WORD }
    .ok (allocation, { p with m_Offset := (m_Offset + alignedSize) % WORD })

/-- Method `Page::Reset`. -/
def Page.Reset (p : Page) : Page :=
  { p with m_Offset := 0 }

/-- Method `UploadBuffer::RequestPage`: the page handed out and the buffer after the call. -/
def RequestPage (dev : Device) (ub : UploadBuffer) : Except Error (Nat × UploadBuffer) :=
  match ub.m_AvailablePages with
  | page :: rest => .ok (page, { ub with m_AvailablePages := rest })
  | [] =>
    match Page.new dev ub.heap.length ub.m_PageSize with
    | .error e => .error e
    | .ok pg =>
      .ok (ub.heap.length,
        { ub with heap := ub.heap ++ [pg], m_PagePool := ub.m_PagePool ++ [ub.heap.length] })

/-- The test `m_CurrentPage && m_CurrentPage->HasSpace(sizeInBytes, alignment)`. -/
def currentHasSpace (ub : UploadBuffer) (sizeInBytes alignment : Nat) : Bool :=
  match ub.m_CurrentPage with
  | none => false
  | some page =>
    match ub.heap[page]? with
    | none => false
    | some pg => pg.HasSpace sizeInBytes alignment

/-- The statement `return m_CurrentPage->Allocate(sizeInBytes, alignment)`. -/
def allocateFromCurrent (ub : UploadBuffer) (sizeInBytes alignment : Nat) :
    Except Error Allocation × UploadBuffer :=
  match ub.m_CurrentPage with
  | none => (.error .invalid_pointer, ub)
  | some page =>
    match ub.heap[page]? with
    | none => (.error .invalid_pointer, ub)
    | some pg =>
      match pg.Allocate sizeInBytes alignment with
      | .error e => (.error e, ub)
      | .ok (allocation, pg') => (.ok allocation, { ub with heap := ub.heap.set page pg' })

/-- Method `UploadBuffer::Allocate`: the result (an allocation or the exception thrown)
and the buffer after the call. -/
def Allocate (dev : Device) (ub : UploadBuffer) (sizeInBytes alignment : Nat) :
    Except Error Allocation × UploadBuffer :=
  if sizeInBytes > ub.m_PageSize then
    (.error .bad_alloc, ub)
  else if !ub.currentHasSpace sizeInBytes alignment then
    match ub.RequestPage dev with
    | .error e => (.error e, ub)
    | .ok (page, ub1) =>
      allocateFromCurrent { ub1 with m_CurrentPage := some page } sizeInBytes alignment
  else
    allocateFromCurrent ub sizeInBytes alignment

/-- Method `UploadBuffer::Reset`. -/
def Reset (ub : UploadBuffer) : UploadBuffer :=
  let ub1 := { ub with m_CurrentPage := none, m_AvailablePages := ub.m_PagePool }
  { ub1 with heap := ub1.m_AvailablePages.foldl (fun h page => h.modify Page.Reset page) ub1.heap }

/-- Offset of the page `page` of the buffer (`0` when there is no such page). -/
def offsetOf (ub : UploadBuffer) (page : Nat) : Nat :=
  match ub.heap[page]? with
  | none => 0
  | some pg => pg.m_Offset

/-- Buffer after a run of `Allocate` calls (returning or throwing) with no `Reset` between
them; the calls are given by their arguments `(sizeInBytes, alignment)`. -/
def AllocateMany (dev : Device) (ub : UploadBuffer) : List (Nat × Nat) → UploadBuffer
  | [] => ub
  | (sizeInBytes, alignment) :: calls =>
    AllocateMany dev (ub.Allocate dev sizeInBytes alignment).2 calls

/-- Invariant of the upload buffer: every page has the page size of the buffer and an offset
within it, the pool holds every page once in the order of construction, the available pages
are distinct untouched pages of the pool, and the current page is a page that is not available. -/
structure WellFormed (pageSize : Nat) (ub : UploadBuffer) : Prop where
  pageSize_eq : ub.m_PageSize = pageSize
  pageSize_lt : pageSize < WORD
  page_ok : ∀ pg ∈ ub.heap, pg.m_PageSize = pageSize ∧ pg.m_Offset ≤ pageSize
  pool_eq : ub.m_PagePool = List.range ub.heap.length
  avail_nodup : ub.m_AvailablePages.Nodup
  avail_lt : ∀ page ∈ ub.m_AvailablePages, page < ub.heap.length
  avail_zero : ∀ page ∈ ub.m_AvailablePages, ub.offsetOf page = 0
  current_ok : ∀ page, ub.m_CurrentPage = some page →
    page < ub.heap.length ∧ page ∉ ub.m_AvailablePages

/-- The states an upload buffer of page size `pageSize` reaches from its construction by calls
of `Allocate` (returning or throwing) and `Reset`, with word-sized arguments. -/
inductive Reachable (dev : Device) (pageSize : Nat) : UploadBuffer → Prop where
  | init : pageSize < WORD → Reachable dev pageSize (UploadBuffer.new pageSize)
  | allocate {ub : UploadBuffer} (sizeInBytes alignment : Nat) :
      Reachable dev pageSize ub → sizeInBytes < WORD → alignment < WORD →
      Reachable dev pageSize (ub.Allocate dev sizeInBytes alignment).2
  | reset {ub : UploadBuffer} :
      Reachable dev pageSize ub → Reachable dev pageSize ub.Reset

end UploadBuffer

/-- A device whose `n`-th page is mapped at CPU address `4096 * (n + 1)` and at GPU
address `65536 * (n + 1)`. -/
def exampleDevice : Device :=
  { CreateCommittedResource := fun n => some (4096 * (n + 1), 65536 * (n + 1)) }

/-! ## DescriptorAllocation and DescriptorAllocator

Sources: src/DX12Lib/src/DescriptorAllocation.cpp, src/DX12Lib/src/DescriptorAllocator.cpp and
their headers. The class `DescriptorAllocatorPage` is used by both but is not among the
sources; it is modelled from the specification.

* `uint32_t` values are natural numbers, reduced modulo `2^32` where the source computes
  with them; `D3D12_CPU_DESCRIPTOR_HANDLE::ptr` is a 64-bit word.
* `std::shared_ptr<DescriptorAllocatorPage>` is the index of the page in `m_HeapPool` of
  its allocator (the pool only grows), `none` is the null pointer.
-/

/-- Number of values of a 32-bit machine word (`uint32_t`). -/
def WORD32 : Nat := 2 ^ 32

/-- The class `DescriptorAllocation`; `m_Descriptor` is `m_Descriptor.ptr`. -/
structure DescriptorAllocation where
  m_Descriptor : Nat
  m_NumHandles : Nat
  m_DescriptorSize : Nat
  m_Page : Option Nat
  deriving DecidableEq, Repr

namespace DescriptorAllocation

/-- Default constructor `DescriptorAllocation()`: the null descriptor. -/
def null : DescriptorAllocation :=
  { m_Descriptor := 0, m_NumHandles := 0, m_DescriptorSize := 0, m_Page := none }

/-- Method `DescriptorAllocation::IsNull`. -/
def IsNull (a : DescriptorAllocation) : Bool := a.m_Descriptor == 0

/-- Method `DescriptorAllocation::IsValid`. -/
def IsValid (a : DescriptorAllocation) : Bool := !a.IsNull

/-- Method `DescriptorAllocation::GetNumHandles`. -/
def GetNumHandles (a : DescriptorAllocation) : Nat := a.m_NumHandles

/-- Method `DescriptorAllocation::GetDescriptorHandle`: `none` when the assertion
`offset < m_NumHandles` fails. The product of the two `uint32_t` values is a `uint32_t`,
the sum with `m_Descriptor.ptr` is a 64-bit word. -/
def GetDescriptorHandle (a : DescriptorAllocation) (offset : Nat) : Option Nat :=
  if offset < a.m_NumHandles then
    some ((a.m_Descriptor + (a.m_DescriptorSize * offset) % WORD32) % WORD)
  else
    none

/-- Move constructor `DescriptorAllocation(DescriptorAllocation&& allocation)`: the new
object and `allocation` after the call. -/
def moveConstruct (allocation : DescriptorAllocation) :
    DescriptorAllocation × DescriptorAllocation :=
  ({ m_Descriptor := allocation.m_Descriptor, m_NumHandles := allocation.m_NumHandles,
     m_DescriptorSize := allocation.m_DescriptorSize, m_Page := allocation.m_Page },
   { m_Descriptor := 0, m_NumHandles := 0, m_DescriptorSize := 0, m_Page := none })

/-- Method `DescriptorAllocation::Free`. The state `s` holds the pages and
`pageFree page a s` is the state after the call `m_Page->Free(std::move(*this))` for
`m_Page = page` and `*this = a`. The result is the handle and the state after the call. -/
def Free {σ : Type} (pageFree : Nat → DescriptorAllocation → σ → σ)
    (a : DescriptorAllocation) (s : σ) : DescriptorAllocation × σ :=
  if !a.IsNull then
    match a.m_Page with
    | some page =>
      ({ m_Descriptor := 0, m_NumHandles := 0, m_DescriptorSize := 0, m_Page := none },
        pageFree page a s)
    | none => (a, s)
  else
    (a, s)

/-- Move assignment `this = std::move(other)` for two different objects: `this`, `other` and
the state of the pages after the call. -/
def moveAssign {σ : Type} (pageFree : Nat → DescriptorAllocation → σ → σ)
    (this other : DescriptorAllocation) (s : σ) :
    DescriptorAllocation × DescriptorAllocation × σ :=
  let s1 := (this.Free pageFree s).2
  ({ m_Descriptor := other.m_Descriptor, m_NumHandles := other.m_NumHandles,
     m_DescriptorSize := other.m_DescriptorSize, m_Page := other.m_Page },
   { m_Descriptor := 0, m_NumHandles := 0, m_DescriptorSize := 0, m_Page := none }, s1)

/-- Move assignment of an object to itself, `this = std::move(this)`: after `Free()` the
members are assigned to themselves (a self move of a shared pointer leaves it as it is) and
the descriptor, the count and the size are then set to 0. -/
def moveAssignSelf {σ : Type} (pageFree : Nat → DescriptorAllocation → σ → σ)
    (this : DescriptorAllocation) (s : σ) : DescriptorAllocation × σ :=
  let r := this.Free pageFree s
  ({ m_Descriptor := 0, m_NumHandles := 0, m_DescriptorSize := 0, m_Page := r.1.m_Page }, r.2)

end DescriptorAllocation

/-- The `DescriptorAllocation` objects of a program, `none` for a destroyed object, and the
log of the calls `page->Free(allocation)` made so far (the allocation as it was passed). -/
structure HandleWorld where
  objects : List (Option DescriptorAllocation)
  freed : List DescriptorAllocation
  deriving DecidableEq, Repr

/-- The operations the language applies to `DescriptorAllocation` objects. -/
inductive HandleOp where
  /-- Construct a new object by move from the live object `src`. -/
  | moveConstruct (src : Nat)
  /-- Assign the live object `src` by move to the live object `dst`. -/
  | moveAssign (dst src : Nat)
  /-- Destroy the live object `i`. -/
  | destroy (i : Nat)
  deriving DecidableEq, Repr

namespace HandleWorld

/-- The call `page->Free(allocation)` seen from the handles: it is recorded in the log. -/
def logFree (_page : Nat) (a : DescriptorAllocation) (log : List DescriptorAllocation) :
    List DescriptorAllocation :=
  log ++ [a]

/-- One operation on the objects; an operation on an object that does not exist or was
destroyed is not a step of a program and leaves the world as it is. -/
def step (w : HandleWorld) : HandleOp → HandleWorld
  | .moveConstruct src =>
    match w.objects[src]? with
    | some (some a) =>
      { objects := w.objects.set src (some a.moveConstruct.2) ++ [some a.moveConstruct.1],
        freed := w.freed }
    | _ => w
  | .moveAssign dst src =>
    match w.objects[dst]?, w.objects[src]? with
    | some (some this), some (some other) =>
      if dst = src then
        { objects := w.objects.set dst
            (some (this.moveAssignSelf logFree w.freed).1),
          freed := (this.moveAssignSelf logFree w.freed).2 }
      else
        { objects := (w.objects.set dst (some (this.moveAssign logFree other w.freed).1)).set src
            (some (this.moveAssign logFree other w.freed).2.1),
          freed := (this.moveAssign logFree other w.freed).2.2 }
    | _, _ => w
  | .destroy i =>
    match w.objects[i]? with
    | some (some a) =>
      { objects := w.objects.set i none, freed := (a.Free logFree w.freed).2 }
    | _ => w

/-- A sequence of operations. -/
def run (w : HandleWorld) : List HandleOp → HandleWorld
  | [] => w
  | op :: ops => run (w.step op) ops

/-- The object `o` holds the allocated range `v`: it is live, equal to `v`, not null and has a
page (1 if so, 0 if not). -/
def holds (v : DescriptorAllocation) (o : Option DescriptorAllocation) : Nat :=
  match o with
  | some h => if h = v ∧ h.IsNull = false ∧ h.m_Page.isSome = true then 1 else 0
  | none => 0

/-- Number of live objects that hold the allocated range `v`. -/
def heldCount (v : DescriptorAllocation) (objects : List (Option DescriptorAllocation)) : Nat :=
  (objects.map (holds v)).sum

end HandleWorld

/-- The part of `Device` that a descriptor page uses. Creating a descriptor heap is taken to
succeed. -/
structure DescriptorDevice where
  /-- Value of `GetCPUDescriptorHandleForHeapStart().ptr` of the heap of page number `n`. -/
  GetCPUDescriptorHandleForHeapStart : Nat → Nat
  /-- Value of `GetDescriptorHandleIncrementSize` for the heap type of the allocator. -/
  GetDescriptorHandleIncrementSize : Nat

/-- Modelled from the spec: the class `DescriptorAllocatorPage`, whose header and
implementation are not under src/. A page is a heap range of `m_NumDescriptorsInHeap`
descriptors, a free list of `(offset, size)` blocks ordered by offset and a pending-release
queue of `(fenceValue, offset, size)` entries. -/
structure DescriptorAllocatorPage where
  m_BaseDescriptor : Nat
  m_DescriptorHandleIncrementSize : Nat
  m_NumDescriptorsInHeap : Nat
  m_FreeList : List (Nat × Nat)
  m_StaleDescriptors : List (Nat × Nat × Nat)
  deriving DecidableEq, Repr

namespace DescriptorAllocatorPage

/-- Modelled from the spec: the constructor of `DescriptorAllocatorPage`, not under src/. A new
page of `numDescriptors` descriptors has one free block, its whole heap range (no block when
the range is empty), and nothing pending. -/
def new (dev : DescriptorDevice) (n numDescriptors : Nat) : DescriptorAllocatorPage :=
  { m_BaseDescriptor := dev.GetCPUDescriptorHandleForHeapStart n,
    m_DescriptorHandleIncrementSize := dev.GetDescriptorHandleIncrementSize,
    m_NumDescriptorsInHeap := numDescriptors,
    m_FreeList := if numDescriptors = 0 then [] else [(0, numDescriptors)],
    m_StaleDescriptors := [] }

/-- Modelled from the spec: the search of `DescriptorAllocatorPage::Allocate`, not under src/:
"scans for a free block ≥ count; on success, splits the block (returning the front subrange,
keeping any remainder as a smaller free block) or removes it if exactly consumed". The result
is the offset of the range and the new free list. -/
def takeBlock (count : Nat) : List (Nat × Nat) → Option (Nat × List (Nat × Nat))
  | [] => none
  | (offset, size) :: rest =>
    if count ≤ size then
      some (offset, if size = count then rest else (offset + count, size - count) :: rest)
    else
      match takeBlock count rest with
      | none => none
      | some (o, freeList) => some (o, (offset, size) :: freeList)

/-- Modelled from the spec: `DescriptorAllocatorPage::NumFreeHandles`, not under src/: the free
capacity of the page, the number of descriptors in its free blocks. -/
def NumFreeHandles (page : DescriptorAllocatorPage) : Nat :=
  (page.m_FreeList.map (fun b => b.2)).sum

/-- Modelled from the spec: `DescriptorAllocatorPage::Allocate`, not under src/. The handle of
a served request has the descriptor of the range start, the count, the stride and the page
`self` it comes from; a request that no free block satisfies gives the null handle and leaves
the page as it is. -/
def Allocate (page : DescriptorAllocatorPage) (self numDescriptors : Nat) :
    DescriptorAllocation × DescriptorAllocatorPage :=
  match takeBlock numDescriptors page.m_FreeList with
  | none => (DescriptorAllocation.null, page)
  | some (offset, freeList) =>
    ({ m_Descriptor := page.m_BaseDescriptor + offset * page.m_DescriptorHandleIncrementSize,
       m_NumHandles := numDescriptors,
       m_DescriptorSize := page.m_DescriptorHandleIncrementSize,
       m_Page := some self },
     { page with m_FreeList := freeList })

/-- Modelled from the spec: the offset in the page of the descriptor at address `ptr`
(`DescriptorAllocatorPage::ComputeOffset`, not under src/). -/
def ComputeOffset (page : DescriptorAllocatorPage) (ptr : Nat) : Nat :=
  (ptr - page.m_BaseDescriptor) / page.m_DescriptorHandleIncrementSize

/-- Modelled from the spec: `DescriptorAllocatorPage::Free`, not under src/: the range "is
appended to the page's pending-release queue tagged with the fence value"; the free list is
not touched. The source passes the handle only, the fence value `fenceValue` is what the page
reads from its environment. -/
def Free (page : DescriptorAllocatorPage) (fenceValue : Nat) (a : DescriptorAllocation) :
    DescriptorAllocatorPage :=
  { page with m_StaleDescriptors :=
      page.m_StaleDescriptors ++ [(fenceValue, page.ComputeOffset a.m_Descriptor, a.m_NumHandles)] }

/-- Modelled from the spec: the return of a released range to the free list
(`DescriptorAllocatorPage::FreeBlock`, not under src/): the range is put at its place in
offset order, "merging with adjacent free neighbors when contiguous". An empty range adds no
block. -/
def freeBlockAux (offset size : Nat) : List (Nat × Nat) → List (Nat × Nat)
  | [] => [(offset, size)]
  | (o, s) :: rest =>
    if o + s < offset then (o, s) :: freeBlockAux offset size rest
    else if o + s = offset then freeBlockAux o (s + size) rest
    else if offset + size = o then (offset, size + s) :: rest
    else (offset, size) :: (o, s) :: rest

/-- Modelled from the spec: `DescriptorAllocatorPage::FreeBlock`, see `freeBlockAux`. -/
def FreeBlock (offset size : Nat) (freeList : List (Nat × Nat)) : List (Nat × Nat) :=
  if size = 0 then freeList else freeBlockAux offset size freeList

/-- Modelled from the spec: `DescriptorAllocatorPage::ReleaseStaleDescriptors`, not under src/:
"pops pending-release entries whose tagged fence value is ≤ completedFence, merges each
released range back into the free-list". The other entries stay in the queue. The source
passes no argument, the completed fence value is what the page reads from its environment. -/
def ReleaseStaleDescriptors (page : DescriptorAllocatorPage) (completedFence : Nat) :
    DescriptorAllocatorPage :=
  { page with
    m_FreeList :=
      (page.m_StaleDescriptors.filter (fun e => decide (e.1 ≤ completedFence))).foldl
        (fun freeList e => FreeBlock e.2.1 e.2.2 freeList) page.m_FreeList,
    m_StaleDescriptors :=
      page.m_StaleDescriptors.filter (fun e => !decide (e.1 ≤ completedFence)) }

end DescriptorAllocatorPage

/-- The class `DescriptorAllocator` (the device, the heap type and the mutex are left out);
`m_AvailableHeaps` is the `std::set<size_t>` as the list of its elements in increasing
order. -/
structure DescriptorAllocator where
  m_NumDescriptorsPerHeap : Nat
  m_HeapPool : List DescriptorAllocatorPage
  m_AvailableHeaps : List Nat
  deriving DecidableEq, Repr

namespace DescriptorAllocator

/-- Constructor `DescriptorAllocator(device, type, numDescriptorsPerHeap)`. -/
def new (numDescriptorsPerHeap : Nat) : DescriptorAllocator :=
  { m_NumDescriptorsPerHeap := numDescriptorsPerHeap, m_HeapPool := [], m_AvailableHeaps := [] }

/-- The call `std::set<size_t>::insert(i)` on the increasing list of the elements. -/
def setInsert (i : Nat) : List Nat → List Nat
  | [] => [i]
  | j :: rest =>
    if i < j then i :: j :: rest
    else if i = j then j :: rest
    else j :: setInsert i rest

/-- The `while` loop of `DescriptorAllocator::Allocate` over the available pages that remain
to be visited: the last `allocation`, the indices that stay in the set and the pool. An
index without a page is passed over. -/
def Allocate.scan (numDescriptors : Nat) :
    List Nat → List DescriptorAllocatorPage →
      DescriptorAllocation × List Nat × List DescriptorAllocatorPage
  | [], pool => (DescriptorAllocation.null, [], pool)
  | i :: rest, pool =>
    match pool[i]? with
    | none =>
      let r := Allocate.scan numDescriptors rest pool
      (r.1, i :: r.2.1, r.2.2)
    | some allocatorPage =>
      let allocation := (allocatorPage.Allocate i numDescriptors).1
      let pool1 := pool.set i (allocatorPage.Allocate i numDescriptors).2
      if (allocatorPage.Allocate i numDescriptors).2.NumFreeHandles = 0 then
        if !allocation.IsNull then (allocation, rest, pool1)
        else Allocate.scan numDescriptors rest pool1
      else
        if !allocation.IsNull then (allocation, i :: rest, pool1)
        else
          let r := Allocate.scan numDescriptors rest pool1
          (r.1, i :: r.2.1, r.2.2)

/-- Method `DescriptorAllocator::Allocate` (with `CreateAllocatorPage` in its place): the
allocation returned and the allocator after the call. -/
def Allocate (dev : DescriptorDevice) (da : DescriptorAllocator) (numDescriptors : Nat) :
    DescriptorAllocation × DescriptorAllocator :=
  let r := Allocate.scan numDescriptors da.m_AvailableHeaps da.m_HeapPool
  if r.1.IsNull then
    let numDescriptorsPerHeap := max da.m_NumDescriptorsPerHeap numDescriptors
    let index := r.2.2.length
    let newPage := DescriptorAllocatorPage.new dev index numDescriptorsPerHeap
    ((newPage.Allocate index numDescriptors).1,
      { m_NumDescriptorsPerHeap := numDescriptorsPerHeap,
        m_HeapPool := r.2.2 ++ [(newPage.Allocate index numDescriptors).2],
        m_AvailableHeaps := setInsert index r.2.1 })
  else
    (r.1, { da with m_HeapPool := r.2.2, m_AvailableHeaps := r.2.1 })

/-- The `for` loop of `DescriptorAllocator::ReleaseStaleDescriptors` from index `i` on, over
the pages that remain: the pages after the loop and the available set. -/
def ReleaseStaleDescriptors.loop (completedFence : Nat) :
    Nat → List DescriptorAllocatorPage → List Nat → List DescriptorAllocatorPage × List Nat
  | _, [], available => ([], available)
  | i, page :: rest, available =>
    let page1 := page.ReleaseStaleDescriptors completedFence
    let available1 := if page1.NumFreeHandles > 0 then setInsert i available else available
    let r := ReleaseStaleDescriptors.loop completedFence (i + 1) rest available1
    (page1 :: r.1, r.2)

/-- Method `DescriptorAllocator::ReleaseStaleDescriptors`. The source has no parameter;
`completedFence` is the completed fence value that the pages compare the tags of their
pending entries with. -/
def ReleaseStaleDescriptors (da : DescriptorAllocator) (completedFence : Nat) :
    DescriptorAllocator :=
  let r := ReleaseStaleDescriptors.loop completedFence 0 da.m_HeapPool da.m_AvailableHeaps
  { da with m_HeapPool := r.1, m_AvailableHeaps := r.2 }

end DescriptorAllocator

/-- A descriptor allocator together with the handles that its callers own. -/
structure DescriptorSystem where
  allocator : DescriptorAllocator
  handles : List DescriptorAllocation
  deriving DecidableEq, Repr

/-- The calls that reach a descriptor allocator. -/
inductive DescriptorEvent where
  /-- A call `Allocate(numDescriptors)`; the caller keeps the handle. -/
  | allocate (numDescriptors : Nat)
  /-- The owner of handle number `i` relinquishes it (its destructor runs); `fenceValue` is
  the fence value the page tags the release with. -/
  | release (i fenceValue : Nat)
  /-- A call `ReleaseStaleDescriptors` when the fence value `completedFence` is completed. -/
  | releaseStale (completedFence : Nat)
  deriving DecidableEq, Repr

namespace DescriptorSystem

/-- The call `page->Free(allocation)` on the pool of the allocator. -/
def pageFree (fenceValue : Nat) (page : Nat) (a : DescriptorAllocation)
    (pool : List DescriptorAllocatorPage) : List DescriptorAllocatorPage :=
  pool.modify (fun pg => pg.Free fenceValue a) page

/-- A fresh allocator with `numDescriptorsPerHeap` descriptors per heap and no handle. -/
def init (numDescriptorsPerHeap : Nat) : DescriptorSystem :=
  { allocator := DescriptorAllocator.new numDescriptorsPerHeap, handles := [] }

/-- One call. -/
def step (dev : DescriptorDevice) (s : DescriptorSystem) : DescriptorEvent → DescriptorSystem
  | .allocate numDescriptors =>
    { allocator := (s.allocator.Allocate dev numDescriptors).2,
      handles := s.handles ++ [(s.allocator.Allocate dev numDescriptors).1] }
  | .release i fenceValue =>
    match s.handles[i]? with
    | none => s
    | some h =>
      { allocator :=
          { s.allocator with
            m_HeapPool := (h.Free (pageFree fenceValue) s.allocator.m_HeapPool).2 },
        handles := s.handles.eraseIdx i }
  | .releaseStale completedFence =>
    { s with allocator := s.allocator.ReleaseStaleDescriptors completedFence }

/-- A sequence of calls. -/
def run (dev : DescriptorDevice) (s : DescriptorSystem) : List DescriptorEvent → DescriptorSystem
  | [] => s
  | e :: es => run dev (s.step dev e) es

/-- The states a fresh allocator reaches. -/
def Reachable (dev : DescriptorDevice) (numDescriptorsPerHeap : Nat) (s : DescriptorSystem) :
    Prop :=
  ∃ es, s = run dev (init numDescriptorsPerHeap) es

/-- The descriptor range `[offset, offset + count)` of a page contains the index `x`. -/
def covers (r : Nat × Nat) (x : Nat) : Bool :=
  decide (r.1 ≤ x) && decide (x < r.1 + r.2)

/-- The descriptor range of the handle `h` in the page `pg`. -/
def rangeOf (pg : DescriptorAllocatorPage) (h : DescriptorAllocation) : Nat × Nat :=
  (pg.ComputeOffset h.m_Descriptor, h.m_NumHandles)

/-- The handle `h` is valid, belongs to page number `page` (which is `pg`) and its range
contains the index `x`. -/
def owns (page : Nat) (pg : DescriptorAllocatorPage) (x : Nat) (h : DescriptorAllocation) :
    Bool :=
  !h.IsNull && (h.m_Page == some page) && covers (rangeOf pg h) x

/-- Whether the range `r` contains the index `x`, as a number: 1 if so, 0 if not. -/
def ind (r : Nat × Nat) (x : Nat) : Nat := if covers r x then 1 else 0

/-- Number of ranges of the list that contain the index `x`. -/
def coverCount (rs : List (Nat × Nat)) (x : Nat) : Nat :=
  (rs.map (fun r => ind r x)).sum

/-- The ranges in the pending-release queue of a page. -/
def staleRanges (pg : DescriptorAllocatorPage) : List (Nat × Nat) :=
  pg.m_StaleDescriptors.map (fun e => e.2)

/-- Number of handles of the list that own the index `x` of page number `page`. -/
def ownerCount (page : Nat) (pg : DescriptorAllocatorPage) (x : Nat)
    (handles : List DescriptorAllocation) : Nat :=
  (handles.map (fun h => if owns page pg x h then 1 else 0)).sum

/-- What is taken for granted of the device: a descriptor heap does not start at address 0
(the null descriptor) and descriptors are at least one byte apart. -/
def WellBehaved (dev : DescriptorDevice) : Prop :=
  0 < dev.GetDescriptorHandleIncrementSize ∧ ∀ n, 0 < dev.GetCPUDescriptorHandleForHeapStart n

/-- Normal form of a free list whose blocks start at `lo` or later: the blocks are in
increasing order of offset, none is empty, and between two consecutive blocks there is at
least one descriptor that is not free (they neither overlap nor touch). -/
def NormalFrom : Nat → List (Nat × Nat) → Prop
  | _, [] => True
  | lo, (o, s) :: rest => lo ≤ o ∧ 0 < s ∧ NormalFrom (o + s + 1) rest

/-- Invariant of the reachable states: every page has the heap start and the stride the
device gave it, its free list is in normal form, and every descriptor of the page is in
exactly one free block, pending range or valid handle (and no index beyond the page is in
any); every handle that has a page has a page of the pool. -/
structure Inv (dev : DescriptorDevice) (s : DescriptorSystem) : Prop where
  page_ok : ∀ (p : Nat) (pg : DescriptorAllocatorPage), s.allocator.m_HeapPool[p]? = some pg →
    pg.m_BaseDescriptor = dev.GetCPUDescriptorHandleForHeapStart p ∧
    pg.m_DescriptorHandleIncrementSize = dev.GetDescriptorHandleIncrementSize ∧
    NormalFrom 0 pg.m_FreeList ∧
    ∀ x, coverCount pg.m_FreeList x + coverCount (staleRanges pg) x +
      ownerCount p pg x s.handles = if x < pg.m_NumDescriptorsInHeap then 1 else 0
  handle_ok : ∀ h ∈ s.handles, ∀ p, h.m_Page = some p → p < s.allocator.m_HeapPool.length

end DescriptorSystem

/-- A device whose heaps start at `4096 * (n + 1)` and whose descriptors are 32 bytes apart. -/
def exampleDescriptorDevice : DescriptorDevice :=
  { GetCPUDescriptorHandleForHeapStart := fun n => 4096 * (n + 1),
    GetDescriptorHandleIncrementSize := 32 }

/-! ## CommandQueue (src/DX12Lib/inc/dx12lib/CommandQueue.h)

Only the header of the class is among the sources; its methods are modelled from the
specification (§3 FenceValue, §4.1). A command list is a number. The hardware queue is the
list of the fence values it was told to signal and has not reached yet, oldest first; the
fence object is its completed value.
-/

/-- Modelled from the spec: the state of the class `CommandQueue`, whose implementation
(CommandQueue.cpp) is not under src/. The members are those of the header: `m_FenceValue` (a
`std::atomic_uint64_t`), the in-flight queue of `(fence value, command list)` entries; the
`ID3D12CommandQueue` and the `ID3D12Fence` are the pending signals and the completed value. -/
structure CommandQueue where
  m_FenceValue : Nat
  /-- Fence values the hardware queue has still to signal, oldest first. -/
  pendingSignals : List Nat
  /-- Value of `m_d3d12Fence->GetCompletedValue()`. -/
  completedValue : Nat
  m_InFlightCommandLists : List (Nat × Nat)
  deriving DecidableEq, Repr

namespace CommandQueue

/-- Modelled from the spec: the constructor of `CommandQueue`, not under src/: the fence
value and the completed value of the new fence are 0 and nothing was submitted. -/
def new : CommandQueue :=
  { m_FenceValue := 0, pendingSignals := [], completedValue := 0, m_InFlightCommandLists := [] }

/-- Modelled from the spec: `CommandQueue::Signal`, not under src/: "inserts a synchronization
point without submitting work" and returns the fence value, the counter advanced by one (a
64-bit value). The result is the fence value returned and the queue after the call. -/
def Signal (q : CommandQueue) : Nat × CommandQueue :=
  let fenceValue := (q.m_FenceValue + 1) % WORD
  (fenceValue,
    { q with m_FenceValue := fenceValue, pendingSignals := q.pendingSignals ++ [fenceValue] })

/-- Modelled from the spec: `CommandQueue::ExecuteCommandLists`, not under src/: "appends the
contexts' recorded work to the hardware queue, advances and returns the new fence value;
enqueues each context with that fence value onto an in-flight tracking queue". -/
def ExecuteCommandLists (q : CommandQueue) (commandLists : List Nat) : Nat × CommandQueue :=
  let r := q.Signal
  (r.1,
    { r.2 with m_InFlightCommandLists :=
        (r.2.m_InFlightCommandLists ++ commandLists.map (fun commandList => (r.1, commandList))) })

/-- Modelled from the spec: `CommandQueue::ExecuteCommandList`, not under src/: the
submission of one command list. -/
def ExecuteCommandList (q : CommandQueue) (commandList : Nat) : Nat × CommandQueue :=
  q.ExecuteCommandLists [commandList]

/-- Modelled from the spec: `CommandQueue::IsFenceComplete`, not under src/: "non-blocking
check against the queue's last-observed completed value". -/
def IsFenceComplete (q : CommandQueue) (fenceValue : Nat) : Bool :=
  decide (fenceValue ≤ q.completedValue)

/-- Modelled from the spec: one step of the hardware queue, which signals the fence "upon
completing submitted work": the oldest pending signal becomes the completed value. -/
def hardwareStep (q : CommandQueue) : CommandQueue :=
  match q.pendingSignals with
  | [] => q
  | fenceValue :: rest => { q with pendingSignals := rest, completedValue := fenceValue }

/-- What happens on a command queue: a call of its interface or a step of the hardware. -/
inductive Call where
  | ExecuteCommandList (commandList : Nat)
  | ExecuteCommandLists (commandLists : List Nat)
  | Signal
  | hardwareStep
  deriving DecidableEq, Repr

/-- The call returns a fence value. -/
def Call.returnsFenceValue : Call → Bool
  | .hardwareStep => false
  | _ => true

/-- One call: the fence value it returns, if it returns one, and the queue after it. -/
def step (q : CommandQueue) : Call → Option Nat × CommandQueue
  | .ExecuteCommandList commandList =>
    (some (q.ExecuteCommandList commandList).1, (q.ExecuteCommandList commandList).2)
  | .ExecuteCommandLists commandLists =>
    (some (q.ExecuteCommandLists commandLists).1, (q.ExecuteCommandLists commandLists).2)
  | .Signal => (some q.Signal.1, q.Signal.2)
  | .hardwareStep => (none, q.hardwareStep)

/-- A sequence of calls: the fence values returned, in the order of the calls, and the queue
after the calls. -/
def run (q : CommandQueue) : List Call → List Nat × CommandQueue
  | [] => ([], q)
  | c :: cs => ((q.step c).1.toList ++ (run (q.step c).2 cs).1, (run (q.step c).2 cs).2)

/-- Number of calls of the sequence that return a fence value. -/
def fenceValuesReturned (cs : List Call) : Nat :=
  (cs.filter Call.returnsFenceValue).length

/-- Invariant of the queue: the completed value is at most the fence value, and the pending
signals are increasing, above the completed value and at most the fence value. -/
def Ordered (q : CommandQueue) : Prop :=
  q.completedValue ≤ q.m_FenceValue ∧
  q.pendingSignals.Pairwise (fun a b => a < b) ∧
  ∀ v ∈ q.pendingSignals, q.completedValue < v ∧ v ≤ q.m_FenceValue

end CommandQueue

/-! ## DynamicDescriptorHeap (src/DX12Lib/inc/dx12lib/DynamicDescriptorHeap.h)

Only the header of the class is among the sources; its methods are modelled from the
specification (§4.3). A CPU descriptor handle is a number, a GPU-visible heap is its number,
and a commit gives the list of the copies it makes (each followed by the bind command of its
table). The inline descriptors (`StageInlineCBV` and the like) have stale masks of their own
and are left out.
-/

/-- The struct `DynamicDescriptorHeap::DescriptorTableCache` of the header; `BaseDescriptor`
is an index into the descriptor handle cache, `none` for `nullptr`. -/
structure DynamicDescriptorHeap.DescriptorTableCache where
  NumDescriptors : Nat
  BaseDescriptor : Option Nat
  deriving DecidableEq, Repr

/-- One copy of the staged descriptors of a table into the GPU-visible heap `heap` at the
offset `offset` (in descriptors), with the bind command for the root parameter. -/
structure DynamicDescriptorHeap.DescriptorCopy where
  rootParameterIndex : Nat
  descriptors : List Nat
  heap : Nat
  offset : Nat
  deriving DecidableEq, Repr

/-- Modelled from the spec: the state of the class `DynamicDescriptorHeap`, whose
implementation (DynamicDescriptorHeap.cpp) is not under src/; the members are those of the
header. `m_DescriptorHeapPool` holds the numbers of the heaps created so far and
`m_CurrentOffset` is the position of `m_CurrentCPUDescriptorHandle` in the current heap. -/
structure DynamicDescriptorHeap where
  m_NumDescriptorsPerHeap : Nat
  m_DescriptorHandleIncrementSize : Nat
  m_DescriptorHandleCache : List Nat
  m_DescriptorTableCache : List DynamicDescriptorHeap.DescriptorTableCache
  m_DescriptorTableBitMask : Nat
  m_StaleDescriptorTableBitMask : Nat
  m_DescriptorHeapPool : List Nat
  m_AvailableDescriptorHeaps : List Nat
  m_CurrentDescriptorHeap : Option Nat
  m_CurrentOffset : Nat
  m_NumFreeHandles : Nat
  deriving DecidableEq, Repr

namespace DynamicDescriptorHeap

/-- The constant `MaxDescriptorTables` of the header. -/
def MaxDescriptorTables : Nat := 32

/-- The descriptor handles staged for the table of the root parameter `rootParameterIndex`:
the `NumDescriptors` entries of the handle cache from `BaseDescriptor` on. -/
def stagedDescriptors (s : DynamicDescriptorHeap) (rootParameterIndex : Nat) : List Nat :=
  match s.m_DescriptorTableCache[rootParameterIndex]? with
  | some ⟨numDescriptors, some baseDescriptor⟩ =>
    (s.m_DescriptorHandleCache.drop baseDescriptor).take numDescriptors
  | _ => []

/-- Number of descriptors of the table of the root parameter `rootParameterIndex`. -/
def numDescriptorsOf (s : DynamicDescriptorHeap) (rootParameterIndex : Nat) : Nat :=
  match s.m_DescriptorTableCache[rootParameterIndex]? with
  | some table => table.NumDescriptors
  | none => 0

/-- Modelled from the spec: `DynamicDescriptorHeap::RequestDescriptorHeap`, not under src/:
"requesting a new heap from a pool, or creating one". The result is the heap and the state
after the call. -/
def RequestDescriptorHeap (s : DynamicDescriptorHeap) : Nat × DynamicDescriptorHeap :=
  match s.m_AvailableDescriptorHeaps with
  | heap :: rest => (heap, { s with m_AvailableDescriptorHeaps := rest })
  | [] =>
    (s.m_DescriptorHeapPool.length,
      { s with m_DescriptorHeapPool := s.m_DescriptorHeapPool ++ [s.m_DescriptorHeapPool.length] })

/-- Modelled from the spec: the state with a GPU-visible heap that has room for
`numDescriptors` descriptors: the current heap, or a requested one "if the current heap is
exhausted". -/
def ensureHeap (s : DynamicDescriptorHeap) (numDescriptors : Nat) : DynamicDescriptorHeap :=
  if s.m_CurrentDescriptorHeap.isNone || decide (s.m_NumFreeHandles < numDescriptors) then
    { s.RequestDescriptorHeap.2 with
      m_CurrentDescriptorHeap := some s.RequestDescriptorHeap.1,
      m_CurrentOffset := 0,
      m_NumFreeHandles := s.m_NumDescriptorsPerHeap }
  else s

/-- Modelled from the spec: the body of the commit for one slot, not under src/: "for every
slot whose stale bit is set, copies its staged descriptor range into a bump-allocated segment
of the current GPU-visible heap [...], then issues the appropriate bind command. Clears the
committed slots' stale bits. Slots not marked stale are not recopied". The result is the
copies made and the state after them. -/
def commitTable (s : DynamicDescriptorHeap) (rootIndex : Nat) :
    List DescriptorCopy × DynamicDescriptorHeap :=
  if s.m_StaleDescriptorTableBitMask.testBit rootIndex then
    let numSrcDescriptors := s.numDescriptorsOf rootIndex
    let s1 := s.ensureHeap numSrcDescriptors
    ([{ rootParameterIndex := rootIndex, descriptors := s.stagedDescriptors rootIndex,
        heap := s1.m_CurrentDescriptorHeap.getD 0, offset := s1.m_CurrentOffset }],
      { s1 with
        m_CurrentOffset := s1.m_CurrentOffset + numSrcDescriptors,
        m_NumFreeHandles := s1.m_NumFreeHandles - numSrcDescriptors,
        m_StaleDescriptorTableBitMask := s1.m_StaleDescriptorTableBitMask ^^^ (1 <<< rootIndex) })
  else
    ([], s)

/-- The commit for the slots of a list, one after the other. -/
def commitTables : List Nat → DynamicDescriptorHeap →
    List DescriptorCopy × DynamicDescriptorHeap
  | [], s => ([], s)
  | rootIndex :: rest, s =>
    ((s.commitTable rootIndex).1 ++ (commitTables rest (s.commitTable rootIndex).2).1,
      (commitTables rest (s.commitTable rootIndex).2).2)

/-- Modelled from the spec: `DynamicDescriptorHeap::CommitStagedDescriptorsForDraw`, not under
src/: the commit for every slot, from slot 0 to slot `MaxDescriptorTables - 1`; the bind
command is the table bind of the graphics pipeline. -/
def CommitStagedDescriptorsForDraw (s : DynamicDescriptorHeap) :
    List DescriptorCopy × DynamicDescriptorHeap :=
  commitTables (List.range MaxDescriptorTables) s

/-- The handles `srcDescriptor + k * m_DescriptorHandleIncrementSize` for `k < numDescriptors`
written into the handle cache from the index `first` on. -/
def writeHandles (cache : List Nat) (first srcDescriptor increment : Nat) : Nat → List Nat
  | 0 => cache
  | k + 1 =>
    (writeHandles cache first srcDescriptor increment k).set (first + k)
      (srcDescriptor + k * increment)

/-- Modelled from the spec: `DynamicDescriptorHeap::StageDescriptors`, not under src/: "copies
only descriptor references (not contents) into a CPU-side cache for the given binding-layout
slot at the given offset; marks that slot's table as stale". A root parameter index that is
not below `MaxDescriptorTables`, or that has no table in the cache, has nothing to stage
into: `none`. -/
def StageDescriptors (s : DynamicDescriptorHeap)
    (rootParameterIndex offset numDescriptors srcDescriptors : Nat) :
    Option DynamicDescriptorHeap :=
  if rootParameterIndex < MaxDescriptorTables then
    match s.m_DescriptorTableCache[rootParameterIndex]? with
    | some ⟨_, some baseDescriptor⟩ =>
      some { s with
        m_DescriptorHandleCache := writeHandles s.m_DescriptorHandleCache
          (baseDescriptor + offset) srcDescriptors s.m_DescriptorHandleIncrementSize
          numDescriptors,
        m_StaleDescriptorTableBitMask :=
          s.m_StaleDescriptorTableBitMask ||| (1 <<< rootParameterIndex) }
    | _ => none
  else none

/-- The arguments of a call of `StageDescriptors`. -/
structure StageCall where
  rootParameterIndex : Nat
  offset : Nat
  numDescriptors : Nat
  srcDescriptors : Nat
  deriving DecidableEq, Repr

/-- Successive calls of `StageDescriptors`; `none` when one of them has nothing to stage
into. -/
def stageAll (s : DynamicDescriptorHeap) : List StageCall → Option DynamicDescriptorHeap
  | [] => some s
  | c :: cs =>
    match s.StageDescriptors c.rootParameterIndex c.offset c.numDescriptors c.srcDescriptors with
    | none => none
    | some s1 => stageAll s1 cs

/-- A heap with the tables of root parameters 0 (2 descriptors) and 3 (1 descriptor), the
first of them stale. -/
def exampleHeap : DynamicDescriptorHeap :=
  { m_NumDescriptorsPerHeap := 8, m_DescriptorHandleIncrementSize := 32,
    m_DescriptorHandleCache := [4096, 4128, 8192, 0, 0, 0, 0, 0],
    m_DescriptorTableCache := [⟨2, some 0⟩, ⟨0, none⟩, ⟨0, none⟩, ⟨1, some 2⟩],
    m_DescriptorTableBitMask := 9, m_StaleDescriptorTableBitMask := 1,
    m_DescriptorHeapPool := [], m_AvailableDescriptorHeaps := [],
    m_CurrentDescriptorHeap := none, m_CurrentOffset := 0, m_NumFreeHandles := 0 }

end DynamicDescriptorHeap

end DX12_Library

/-! ## CThreadSafeQueue (src/GameFramework/inc/GameFramework/CThreadSafeQueue.h)

The queue is the `std::list<C>` it derives from. The handle `m_hSemaphore` is either `NULL`
(`CreateSemaphore` failed) or a Win32 semaphore, which is its current count and its maximum
count. One thread is modelled: the calls run one after the other, as the mutex `m_Crit` makes
them do for the list. A call that does not return has the result `none`.
-/

/-- A Win32 semaphore object: its current count and its maximum count. -/
structure Semaphore where
  count : Nat
  max : Nat
  deriving DecidableEq, Repr

/-- The values of `::GetLastError()` after a failed `::ReleaseSemaphore`. -/
inductive Win32Error where
  | ERROR_TOO_MANY_POSTS
  | ERROR_INVALID_HANDLE
  deriving DecidableEq, Repr

/-- The class `CThreadSafeQueue<C>`. -/
structure CThreadSafeQueue (C : Type) where
  /-- The base class `std::list<C>`. -/
  list : List C
  /-- The handle `m_hSemaphore`, `none` for `NULL`. -/
  m_hSemaphore : Option Semaphore
  m_bOverflow : Bool
  deriving DecidableEq, Repr

namespace CThreadSafeQueue

variable {C : Type}

/-- The call `::CreateSemaphore(NULL, 0, nMaxCount, NULL)`: the maximum count must be greater
than zero, or the call fails and returns `NULL`. -/
def CreateSemaphore (nMaxCount : Int) : Option Semaphore :=
  if nMaxCount ≤ 0 then none else some { count := 0, max := nMaxCount.toNat }

/-- Constructor `CThreadSafeQueue(nMaxCount)`; the result of `CreateSemaphore` is stored
unchecked. -/
def new (nMaxCount : Int) : CThreadSafeQueue C :=
  { list := [], m_hSemaphore := CreateSemaphore nMaxCount, m_bOverflow := false }

/-- The call `::ReleaseSemaphore(m_hSemaphore, 1, NULL)`: on a `NULL` handle it fails with
`ERROR_INVALID_HANDLE`; it fails with `ERROR_TOO_MANY_POSTS` when the count would exceed the
maximum; else it adds 1 to the count. -/
def ReleaseSemaphore : Option Semaphore → Except Win32Error Semaphore
  | none => .error .ERROR_INVALID_HANDLE
  | some semaphore =>
    if semaphore.count + 1 ≤ semaphore.max then
      .ok { semaphore with count := semaphore.count + 1 }
    else .error .ERROR_TOO_MANY_POSTS

/-- The loop `do {} while (::WaitForSingleObject(m_hSemaphore, 0) != WAIT_TIMEOUT)` on a
semaphore: each wait that succeeds takes 1 from the count, the wait at count 0 times out. The
result is the count after the loop. -/
def drainSemaphore : Nat → Nat
  | 0 => 0
  | count + 1 => drainSemaphore count

/-- Method `push`. -/
def push (q : CThreadSafeQueue C) (c : C) : CThreadSafeQueue C :=
  let list1 := q.list ++ [c]
  match ReleaseSemaphore q.m_hSemaphore with
  | .ok semaphore => { q with list := list1, m_hSemaphore := some semaphore }
  | .error e =>
    { q with list := list1.dropLast,
             m_bOverflow := if e = .ERROR_TOO_MANY_POSTS then true else q.m_bOverflow }

/-- Method `pop`: the value returned, the output argument `c` after the call and the queue
after the call. On an empty list with a `NULL` handle every `WaitForSingleObject` returns
`WAIT_FAILED`, which is not `WAIT_TIMEOUT`, so the loop does not end and the call does not
return: `none`. -/
def pop (q : CThreadSafeQueue C) (c : C) : Option (Bool × C × CThreadSafeQueue C) :=
  match q.list with
  | [] =>
    match q.m_hSemaphore with
    | none => none
    | some semaphore =>
      some (false, c,
        { q with m_hSemaphore := some { semaphore with count := drainSemaphore semaphore.count } })
  | front :: rest => some (true, front, { q with list := rest })

/-- Successive `push` calls, one for each item. -/
def pushAll (q : CThreadSafeQueue C) : List C → CThreadSafeQueue C
  | [] => q
  | c :: cs => pushAll (q.push c) cs

/-- The next `push` finds the semaphore full: its `ReleaseSemaphore` fails with
`ERROR_TOO_MANY_POSTS`. -/
def findsFull (q : CThreadSafeQueue C) : Bool :=
  match ReleaseSemaphore q.m_hSemaphore with
  | .error .ERROR_TOO_MANY_POSTS => true
  | _ => false

/-- No `push` of the successive calls finds the semaphore full. -/
def noneFindsFull (q : CThreadSafeQueue C) : List C → Bool
  | [] => true
  | c :: cs => !q.findsFull && noneFindsFull (q.push c) cs

/-- The number `n` of successive `pop` calls on the output argument `c`: the value and the
output argument of each call, and the queue after the calls; `none` when one of the calls does
not return. -/
def popMany (q : CThreadSafeQueue C) (c : C) :
    Nat → Option (List (Bool × C) × CThreadSafeQueue C)
  | 0 => some ([], q)
  | n + 1 =>
    match q.pop c with
    | none => none
    | some r =>
      match popMany r.2.2 r.2.1 n with
      | none => none
      | some rs => some ((r.1, r.2.1) :: rs.1, rs.2)

end CThreadSafeQueue

/-! ## The Models sample (src/samples/DirectX12EngineModels/src/DirectX12Engine.cpp)

The key handlers of the class `DirectX12Engine`. The matrices of DirectXMath are kept as
symbolic products; the angles are in degrees, the argument of `XMConvertToRadians` (the
`float` values of the source, `amount * 45.0f` for `amount = ±1.0f`, are integers and exact).
A `std::shared_ptr<Scene>` is an index into the list of the scenes. Calls that leave the class
(`GameFramework::Stop`, `SwapChain::ToggleVSync`, `CameraController::ResetView`, `OpenFile`)
are recorded in the order they are made.
-/

/-- The key codes that the handlers of the sample distinguish; `Other` is every other key. -/
inductive KeyCode where
  | Escape | Space | Enter | F11 | V | R | O
  | NumPad1 | NumPad2 | NumPad3 | NumPad4 | NumPad5 | NumPad6 | NumPad7 | NumPad8 | NumPad9
  | LButton | C | Delete | Other
  deriving DecidableEq, Repr

/-- The members of `KeyEventArgs` that the handlers read. -/
structure KeyEventArgs where
  Key : KeyCode
  Alt : Bool
  Control : Bool
  deriving DecidableEq, Repr

/-- A `float` scale factor `mantissa * 2 ^ exponent` (`2.0f` and `0.5f` in the source). -/
structure ScaleFactor where
  mantissa : Int
  exponent : Int
  deriving DecidableEq, Repr

/-- A matrix `XMMATRIX` as a symbolic expression. -/
inductive XMMATRIX where
  /-- A matrix that comes from outside the handlers (a transform as it was loaded). -/
  | given (name : Nat)
  /-- The matrix `XMMatrixRotationX(XMConvertToRadians(degrees))`. -/
  | XMMatrixRotationX (degrees : Int)
  /-- The matrix `XMMatrixRotationY(XMConvertToRadians(degrees))`. -/
  | XMMatrixRotationY (degrees : Int)
  /-- The matrix `XMMatrixRotationZ(XMConvertToRadians(degrees))`. -/
  | XMMatrixRotationZ (degrees : Int)
  /-- The matrix `XMMatrixScaling(x, y, z)`. -/
  | XMMatrixScaling (x y z : ScaleFactor)
  /-- The product `a * b`. -/
  | mul (a b : XMMATRIX)
  deriving DecidableEq, Repr

/-- The root node of a `Scene`: its local transform and its default transform. -/
structure Scene where
  m_LocalTransform : XMMATRIX
  m_DefaultTransform : XMMATRIX
  deriving DecidableEq, Repr

/-- A call that leaves the class. -/
inductive ExternalCall where
  | Stop | ToggleVSync | ResetView | OpenFile
  deriving DecidableEq, Repr

/-- The members of `DirectX12Engine` that the key handlers read or write. -/
structure DirectX12Engine where
  /-- The `Scene` objects; a `std::shared_ptr<Scene>` is an index into this list. -/
  scenes : List Scene
  m_AssetsList : List Nat
  /-- The selected model, `none` for `nullptr`. -/
  m_Scene : Option Nat
  m_AnimateLights : Bool
  m_Fullscreen : Bool
  m_AllowFullscreenToggle : Bool
  m_ModelSelected : Bool
  m_ModelInteracted : Bool
  calls : List ExternalCall
  deriving DecidableEq, Repr

namespace DirectX12Engine

/-- The statement `if (m_Scene != nullptr) m_Scene->GetRootNode()->SetLocalTransform(
m_Scene->GetRootNode()->GetLocalTransform() * matrix)`. -/
def multiplyLocalTransform (s : DirectX12Engine) (matrix : XMMATRIX) : DirectX12Engine :=
  match s.m_Scene with
  | none => s
  | some scene =>
    { s with scenes := (s.scenes.modify
        (fun sc => { sc with m_LocalTransform := .mul sc.m_LocalTransform matrix }) scene) }

/-- Method `OnRotateY`. -/
def OnRotateY (s : DirectX12Engine) (amount : Int) : DirectX12Engine :=
  let amount := amount * 45
  let rotationMatrix := XMMATRIX.XMMatrixRotationY amount
  s.multiplyLocalTransform rotationMatrix

/-- Method `OnRotateX`. -/
def OnRotateX (s : DirectX12Engine) (amount : Int) : DirectX12Engine :=
  let amount := amount * 45
  let rotationMatrix := XMMATRIX.XMMatrixRotationX amount
  s.multiplyLocalTransform rotationMatrix

/-- Method `OnRotateZ`. -/
def OnRotateZ (s : DirectX12Engine) (amount : Int) : DirectX12Engine :=
  let amount := amount * 45
  let rotationMatrix := XMMATRIX.XMMatrixRotationX amount
  s.multiplyLocalTransform rotationMatrix

/-- Method `OnResetRotation`. -/
def OnResetRotation (s : DirectX12Engine) : DirectX12Engine :=
  match s.m_Scene with
  | none => s
  | some scene =>
    { s with scenes := (s.scenes.modify
        (fun sc => { sc with m_LocalTransform := sc.m_DefaultTransform }) scene) }

/-- Method `OnScaleUp`. -/
def OnScaleUp (s : DirectX12Engine) : DirectX12Engine :=
  s.multiplyLocalTransform (.XMMatrixScaling ⟨1, 1⟩ ⟨1, 1⟩ ⟨1, 1⟩)

/-- Method `OnScaleDown`. -/
def OnScaleDown (s : DirectX12Engine) : DirectX12Engine :=
  s.multiplyLocalTransform (.XMMatrixScaling ⟨1, -1⟩ ⟨1, -1⟩ ⟨1, -1⟩)

/-- Method `DeleteEntity`. -/
def DeleteEntity (s : DirectX12Engine) : DirectX12Engine :=
  match s.m_Scene with
  | none => s
  | some scene => { s with m_AssetsList := s.m_AssetsList.erase scene }

/-- The statements of `case KeyCode::F11:` in `OnKeyPressed`. -/
def toggleFullscreen (s : DirectX12Engine) : DirectX12Engine :=
  if s.m_AllowFullscreenToggle then
    { s with m_Fullscreen := !s.m_Fullscreen, m_AllowFullscreenToggle := false }
  else s

/-- Method `OnKeyPressed`; `WantCaptureKeyboard` is `ImGui::GetIO().WantCaptureKeyboard`.
The `case` labels that have no `break` before the next label run on into it: `Enter` without
`Alt` into `case KeyCode::V`, and `NumPad6` into `case KeyCode::NumPad7`. -/
def OnKeyPressed (s : DirectX12Engine) (e : KeyEventArgs) (WantCaptureKeyboard : Bool) :
    DirectX12Engine :=
  if !WantCaptureKeyboard then
    match e.Key with
    | .Escape => { s with calls := s.calls ++ [.Stop] }
    | .Space => { s with m_AnimateLights := !s.m_AnimateLights }
    | .Enter =>
      if e.Alt then s.toggleFullscreen
      else { s with calls := s.calls ++ [.ToggleVSync] }
    | .F11 => s.toggleFullscreen
    | .V => { s with calls := s.calls ++ [.ToggleVSync] }
    | .R => { s with calls := s.calls ++ [.ResetView] }
    | .O => if e.Control then { s with calls := s.calls ++ [.OpenFile] } else s
    | .NumPad4 => s.OnRotateY (-1)
    | .NumPad6 => (s.OnRotateY 1).OnRotateX (-1)
    | .NumPad7 => s.OnRotateX (-1)
    | .NumPad9 => s.OnRotateX 1
    | .NumPad8 => s.OnRotateZ (-1)
    | .NumPad2 => s.OnRotateZ 1
    | .NumPad5 => s.OnResetRotation
    | .NumPad1 => s.OnScaleDown
    | .NumPad3 => s.OnScaleUp
    | .LButton => { s with m_ModelSelected := true }
    | .C => { s with m_ModelInteracted := false, m_ModelSelected := false, m_Scene := none }
    | .Delete => { s.DeleteEntity with m_ModelInteracted := false, m_ModelSelected := false }
    | .Other => s
  else s

/-- Method `OnKeyReleased`. -/
def OnKeyReleased (s : DirectX12Engine) (e : KeyEventArgs) (WantCaptureKeyboard : Bool) :
    DirectX12Engine :=
  if !WantCaptureKeyboard then
    match e.Key with
    | .Enter => if e.Alt then { s with m_AllowFullscreenToggle := true } else s
    | .F11 => { s with m_AllowFullscreenToggle := true }
    | .LButton => { s with m_ModelSelected := false, m_Scene := none }
    | _ => s
  else s

/-- A key event as the window delivers it to the sample. -/
inductive KeyEvent where
  | pressed (e : KeyEventArgs) (WantCaptureKeyboard : Bool)
  | released (e : KeyEventArgs) (WantCaptureKeyboard : Bool)
  deriving DecidableEq, Repr

/-- The handler of one key event. -/
def handle (s : DirectX12Engine) : KeyEvent → DirectX12Engine
  | .pressed e w => s.OnKeyPressed e w
  | .released e w => s.OnKeyReleased e w

/-- The handlers of a sequence of key events. -/
def handleAll (s : DirectX12Engine) : List KeyEvent → DirectX12Engine
  | [] => s
  | ev :: evs => handleAll (s.handle ev) evs

/-- Number of events of the sequence whose handler changes `m_Fullscreen`. -/
def fullscreenChanges (s : DirectX12Engine) : List KeyEvent → Nat
  | [] => 0
  | ev :: evs =>
    (if (s.handle ev).m_Fullscreen = s.m_Fullscreen then 0 else 1) +
      fullscreenChanges (s.handle ev) evs

/-- The key of the event is F11, or Enter with Alt held. -/
def isFullscreenKey (e : KeyEventArgs) : Bool :=
  e.Key == .F11 || (e.Key == .Enter && e.Alt)

/-- The event is a key-released event for F11 or Alt+Enter. -/
def isFullscreenKeyReleased : KeyEvent → Bool
  | .pressed _ _ => false
  | .released e _ => isFullscreenKey e

/-- The local transform of the selected model, `none` when no model is selected. -/
def selectedLocalTransform (s : DirectX12Engine) : Option XMMATRIX :=
  match s.m_Scene with
  | none => none
  | some scene => (s.scenes[scene]?).map (fun sc => sc.m_LocalTransform)

/-- An engine with one model, which is selected; its local transform is the matrix
`given 0`. -/
def exampleEngine : DirectX12Engine :=
  { scenes := [⟨.given 0, .given 1⟩], m_AssetsList := [0], m_Scene := some 0,
    m_AnimateLights := false, m_Fullscreen := false, m_AllowFullscreenToggle := true,
    m_ModelSelected := false, m_ModelInteracted := false, calls := [] }

end DirectX12Engine

/-! ## Theorems -/

namespace DX12_Library

/-! ### Bitwise arithmetic on machine words -/

theorem add_eq_or_of_and_eq_zero_nat {a b n : Nat} (ha : a < 2 ^ n) (hb : b < 2 ^ n)
    (h : a &&& b = 0) : a + b = a ||| b := by
  have hz : BitVec.ofNat n a &&& BitVec.ofNat n b = 0#n := by
    apply BitVec.eq_of_toNat_eq
    simp [BitVec.toNat_and, Nat.mod_eq_of_lt ha, Nat.mod_eq_of_lt hb, h]
  have h1 := BitVec.toNat_add_of_and_eq_zero hz
  have h2 := BitVec.add_eq_or_of_and_eq_zero _ _ hz
  rw [h2] at h1
  simp [BitVec.toNat_or, Nat.mod_eq_of_lt ha, Nat.mod_eq_of_lt hb] at h1
  exact h1.symm

theorem and_compl_eq_zero {m n : Nat} (hm : m < 2 ^ n) : m &&& (2 ^ n - 1 - m) = 0 := by
  have hc : 2 ^ n - 1 - m = 2 ^ n - (m + 1) := by omega
  apply Nat.eq_of_testBit_eq
  intro i
  rw [hc, Nat.testBit_and, Nat.testBit_two_pow_sub_succ hm]
  cases h : m.testBit i <;> simp

theorem and_add_and_compl {y m n : Nat} (hy : y < 2 ^ n) (hm : m < 2 ^ n) :
    (y &&& m) + (y &&& (2 ^ n - 1 - m)) = y := by
  have hc : 2 ^ n - 1 - m = 2 ^ n - (m + 1) := by omega
  have hdisj : (y &&& m) &&& (y &&& (2 ^ n - 1 - m)) = 0 := by
    apply Nat.eq_of_testBit_eq
    intro i
    rw [hc]
    simp only [Nat.testBit_and, Nat.testBit_two_pow_sub_succ hm, Nat.zero_testBit]
    cases m.testBit i <;> simp
  have hor : (y &&& m) ||| (y &&& (2 ^ n - 1 - m)) = y := by
    apply Nat.eq_of_testBit_eq
    intro i
    rw [hc]
    simp only [Nat.testBit_and, Nat.testBit_or, Nat.testBit_two_pow_sub_succ hm]
    by_cases hi : i < n
    · cases m.testBit i <;> simp [hi]
    · have : y.testBit i = false :=
        Nat.testBit_lt_two_pow
          (lt_of_lt_of_le hy (Nat.pow_le_pow_right (by norm_num) (not_lt.mp hi)))
      simp [this]
  rw [add_eq_or_of_and_eq_zero_nat (Nat.lt_of_le_of_lt Nat.and_le_left hy)
    (Nat.lt_of_le_of_lt Nat.and_le_left hy) hdisj, hor]

theorem two_pow_dvd_and_compl (y k n : Nat) (hk : k ≤ n) :
    2 ^ k ∣ y &&& (2 ^ n - 1 - (2 ^ k - 1)) := by
  have hlt : 2 ^ k - 1 < 2 ^ n :=
    lt_of_lt_of_le (Nat.sub_lt (Nat.two_pow_pos k) Nat.one_pos)
      (Nat.pow_le_pow_right (by norm_num) hk)
  apply Nat.dvd_of_mod_eq_zero
  rw [← Nat.and_pow_two_sub_one_eq_mod, Nat.and_assoc, Nat.and_comm (2 ^ n - 1 - (2 ^ k - 1)),
    and_compl_eq_zero hlt, Nat.and_zero]

theorem WORD_eq : WORD = 2 ^ 64 := rfl

theorem WORD_pos : 0 < WORD := by decide

theorem wsub_lt (x b : Nat) : wsub x b < WORD := by
  unfold wsub WORD
  split <;> omega

theorem wsub_add_mod (b o : Nat) : wsub ((b + o) % WORD) b = o % WORD := by
  unfold wsub WORD
  split <;> omega

/-! ### Math::AlignUp -/

theorem Math.AlignUp_lt (v a : Nat) : Math.AlignUp v a < WORD :=
  Nat.lt_of_le_of_lt Nat.and_le_left (Nat.mod_lt _ WORD_pos)

theorem Math.mask_eq {a : Nat} (h1 : 1 ≤ a) (ha : a ≤ WORD) : wsub a 1 = a - 1 := by
  unfold wsub WORD at *
  split <;> omega

theorem Math.AlignUp_zero (a : Nat) : Math.AlignUp 0 a = 0 := by
  unfold Math.AlignUp
  have hm : wsub a 1 < 2 ^ 64 := wsub_lt a 1
  simp only [Nat.zero_add, Nat.mod_eq_of_lt (WORD_eq ▸ hm)]
  exact and_compl_eq_zero hm

theorem Math.le_AlignUp {v a : Nat} (h1 : 1 ≤ a) (h : v + a ≤ WORD) : v ≤ Math.AlignUp v a := by
  unfold Math.AlignUp
  simp only [Math.mask_eq h1 (by omega : a ≤ WORD)]
  have hy : v + (a - 1) < 2 ^ 64 := by rw [← WORD_eq]; omega
  have hm : a - 1 < 2 ^ 64 := by rw [← WORD_eq]; omega
  rw [WORD_eq, Nat.mod_eq_of_lt hy]
  have hdec := and_add_and_compl hy hm
  have hle : (v + (a - 1)) &&& (a - 1) ≤ a - 1 := Nat.and_le_right
  omega

theorem Math.AlignUp_le {v a : Nat} (h1 : 1 ≤ a) (h : v + a ≤ WORD) :
    Math.AlignUp v a ≤ v + (a - 1) := by
  unfold Math.AlignUp
  simp only [Math.mask_eq h1 (by omega : a ≤ WORD)]
  rw [Nat.mod_eq_of_lt (by omega)]
  exact Nat.and_le_left

theorem Math.two_pow_dvd_AlignUp (v k : Nat) (hk : k < 64) : 2 ^ k ∣ Math.AlignUp v (2 ^ k) := by
  unfold Math.AlignUp
  have hle : 2 ^ k ≤ WORD := Nat.pow_le_pow_right (by norm_num) (by omega)
  simp only [Math.mask_eq (Nat.two_pow_pos k) hle]
  exact two_pow_dvd_and_compl _ k 64 (by omega)

/-! ### UploadBuffer: the operations case by case -/

namespace UploadBuffer

theorem Page.HasSpace_iff (pg : Page) (s a : Nat) :
    pg.HasSpace s a = true ↔
      (Math.AlignUp pg.m_Offset a + Math.AlignUp s a) % WORD ≤ pg.m_PageSize := by
  simp [Page.HasSpace]

theorem Page.Allocate_returns {pg pg' : Page} {s a : Nat} {al : Allocation}
    (h : pg.Allocate s a = .ok (al, pg')) :
    pg.HasSpace s a = true ∧
      al = ⟨(pg.m_CPUPtr + Math.AlignUp pg.m_Offset a) % WORD,
        (pg.m_GPUPtr + Math.AlignUp pg.m_Offset a) % WORD⟩ ∧
      pg' = { pg with m_Offset := (Math.AlignUp pg.m_Offset a + Math.AlignUp s a) % WORD } := by
  unfold Page.Allocate at h
  by_cases hs : pg.HasSpace s a = true
  · simp only [hs, Bool.not_true, Bool.false_eq_true, if_false, Except.ok.injEq,
      Prod.mk.injEq] at h
    exact ⟨hs, h.1.symm, h.2.symm⟩
  · simp [hs] at h

theorem Page.Allocate_of_HasSpace {pg : Page} {s a : Nat} (h : pg.HasSpace s a = true) :
    pg.Allocate s a =
      .ok (⟨(pg.m_CPUPtr + Math.AlignUp pg.m_Offset a) % WORD,
          (pg.m_GPUPtr + Math.AlignUp pg.m_Offset a) % WORD⟩,
        { pg with m_Offset := (Math.AlignUp pg.m_Offset a + Math.AlignUp s a) % WORD }) := by
  simp [Page.Allocate, h]

theorem Page.Allocate_of_not_HasSpace {pg : Page} {s a : Nat} (h : pg.HasSpace s a = false) :
    pg.Allocate s a = .error .bad_alloc := by
  simp [Page.Allocate, h]

theorem allocateFromCurrent_cases (ub : UploadBuffer) (s a : Nat) :
    (∃ e, allocateFromCurrent ub s a = (.error e, ub)) ∨
    (∃ page pg al pg', ub.m_CurrentPage = some page ∧ ub.heap[page]? = some pg ∧
      pg.Allocate s a = .ok (al, pg') ∧
      allocateFromCurrent ub s a = (.ok al, { ub with heap := ub.heap.set page pg' })) := by
  unfold allocateFromCurrent
  split
  · exact Or.inl ⟨_, rfl⟩
  · rename_i page hc
    split
    · exact Or.inl ⟨_, rfl⟩
    · rename_i pg hp
      split
      · exact Or.inl ⟨_, rfl⟩
      · rename_i al pg' ha
        exact Or.inr ⟨page, pg, al, pg', hc, hp, ha, rfl⟩

theorem RequestPage_eq_ok {dev : Device} {ub ub1 : UploadBuffer} {page : Nat}
    (h : ub.RequestPage dev = .ok (page, ub1)) :
    (∃ rest, ub.m_AvailablePages = page :: rest ∧ ub1 = { ub with m_AvailablePages := rest }) ∨
    (ub.m_AvailablePages = [] ∧ page = ub.heap.length ∧
      ∃ cpu gpu, dev.CreateCommittedResource ub.heap.length = some (cpu, gpu) ∧
        ub1 = { ub with heap := ub.heap ++ [⟨cpu, gpu, ub.m_PageSize, 0⟩],
                        m_PagePool := ub.m_PagePool ++ [ub.heap.length] }) := by
  unfold RequestPage at h
  cases hav : ub.m_AvailablePages with
  | cons p rest =>
    simp only [hav, Except.ok.injEq, Prod.mk.injEq] at h
    exact Or.inl ⟨rest, by rw [h.1], h.2.symm⟩
  | nil =>
    simp only [hav, Page.new] at h
    cases hd : dev.CreateCommittedResource ub.heap.length with
    | none => simp [hd] at h
    | some r =>
      obtain ⟨cpu, gpu⟩ := r
      simp only [hd, Except.ok.injEq, Prod.mk.injEq] at h
      exact Or.inr ⟨rfl, h.1.symm, cpu, gpu, rfl, h.2.symm⟩

theorem Allocate_cases (dev : Device) (ub : UploadBuffer) (s a : Nat) :
    (ub.m_PageSize < s ∧ ub.Allocate dev s a = (.error .bad_alloc, ub)) ∨
    (s ≤ ub.m_PageSize ∧ ub.currentHasSpace s a = true ∧
      ub.Allocate dev s a = allocateFromCurrent ub s a) ∨
    (s ≤ ub.m_PageSize ∧ ub.currentHasSpace s a = false ∧
      ∃ e, ub.RequestPage dev = .error e ∧ ub.Allocate dev s a = (.error e, ub)) ∨
    (s ≤ ub.m_PageSize ∧ ub.currentHasSpace s a = false ∧
      ∃ page ub1, ub.RequestPage dev = .ok (page, ub1) ∧
        ub.Allocate dev s a =
          allocateFromCurrent { ub1 with m_CurrentPage := some page } s a) := by
  unfold Allocate
  by_cases hs : ub.m_PageSize < s
  · exact Or.inl ⟨hs, by simp [hs]⟩
  · have hle : s ≤ ub.m_PageSize := not_lt.mp hs
    cases hc : ub.currentHasSpace s a with
    | true => exact Or.inr (Or.inl ⟨hle, rfl, by simp [hs]⟩)
    | false =>
      cases hr : ub.RequestPage dev with
      | error e => exact Or.inr (Or.inr (Or.inl ⟨hle, rfl, e, rfl, by simp [hs]⟩))
      | ok r =>
        obtain ⟨page, ub1⟩ := r
        exact Or.inr (Or.inr (Or.inr ⟨hle, rfl, page, ub1, rfl, by simp [hs]⟩))

/-! ### UploadBuffer: the invariant of the reachable states -/

theorem offsetOf_set (ub : UploadBuffer) (page q : Nat) (pg' : Page) (hq : q ≠ page) :
    offsetOf { ub with heap := ub.heap.set page pg' } q = offsetOf ub q := by
  simp [offsetOf, List.getElem?_set_ne (Ne.symm hq)]

theorem WellFormed.new {pageSize : Nat} (h : pageSize < WORD) :
    WellFormed pageSize (UploadBuffer.new pageSize) where
  pageSize_eq := rfl
  pageSize_lt := h
  page_ok := by simp [UploadBuffer.new]
  pool_eq := by simp [UploadBuffer.new]
  avail_nodup := by simp [UploadBuffer.new]
  avail_lt := by simp [UploadBuffer.new]
  avail_zero := by simp [UploadBuffer.new]
  current_ok := by simp [UploadBuffer.new]

theorem WellFormed.allocateFromCurrent {pageSize : Nat} {ub : UploadBuffer}
    (wf : WellFormed pageSize ub) (s a : Nat) :
    WellFormed pageSize (allocateFromCurrent ub s a).2 := by
  rcases allocateFromCurrent_cases ub s a with ⟨e, he⟩ | ⟨page, pg, al, pg', hc, hp, ha, he⟩
  · rw [he]; exact wf
  · rw [he]
    obtain ⟨hs, -, hpg'⟩ := Page.Allocate_returns ha
    have hmem : pg ∈ ub.heap := List.getElem?_mem hp
    have hpg := wf.page_ok pg hmem
    have hcur := wf.current_ok page hc
    refine ⟨wf.pageSize_eq, wf.pageSize_lt, ?_, ?_, wf.avail_nodup, ?_, ?_, ?_⟩
    · intro x hx
      rcases List.mem_or_eq_of_mem_set hx with hx | hx
      · exact wf.page_ok x hx
      · subst hx
        rw [Page.HasSpace_iff] at hs
        rw [hpg']
        exact ⟨hpg.1, hpg.1 ▸ hs⟩
    · simpa using wf.pool_eq
    · simpa using wf.avail_lt
    · intro q hq
      have hne : q ≠ page := fun h => hcur.2 (h ▸ hq)
      rw [offsetOf_set ub page q pg' hne]
      exact wf.avail_zero q hq
    · intro q hq
      simpa using wf.current_ok q hq

theorem WellFormed.requestPage {pageSize : Nat} {dev : Device} {ub ub1 : UploadBuffer}
    {page : Nat} (wf : WellFormed pageSize ub) (h : ub.RequestPage dev = .ok (page, ub1)) :
    WellFormed pageSize { ub1 with m_CurrentPage := some page } := by
  rcases RequestPage_eq_ok h with ⟨rest, hav, rfl⟩ | ⟨hav, rfl, cpu, gpu, -, rfl⟩
  · have hnd := wf.avail_nodup
    rw [hav] at hnd
    have hlt := wf.avail_lt
    have hz := wf.avail_zero
    rw [hav] at hlt hz
    refine ⟨wf.pageSize_eq, wf.pageSize_lt, wf.page_ok, wf.pool_eq, (List.nodup_cons.mp hnd).2,
      fun q hq => hlt q (List.mem_cons_of_mem _ hq), fun q hq => hz q (List.mem_cons_of_mem _ hq),
      ?_⟩
    intro q hq
    simp only [Option.some.injEq] at hq
    subst hq
    exact ⟨hlt _ (List.mem_cons_self _ _), (List.nodup_cons.mp hnd).1⟩
  · refine ⟨wf.pageSize_eq, wf.pageSize_lt, ?_, ?_, by simp [hav], by simp [hav],
      by simp [hav], ?_⟩
    · intro x hx
      rcases List.mem_append.mp hx with hx | hx
      · exact wf.page_ok x hx
      · simp only [List.mem_singleton] at hx
        subst hx
        exact ⟨wf.pageSize_eq, Nat.zero_le _⟩
    · simp [List.range_succ, wf.pool_eq]
    · intro q hq
      simp only [Option.some.injEq] at hq
      subst hq
      simp [hav]

theorem WellFormed.allocate {pageSize : Nat} {ub : UploadBuffer} (wf : WellFormed pageSize ub)
    (dev : Device) (s a : Nat) : WellFormed pageSize (ub.Allocate dev s a).2 := by
  rcases Allocate_cases dev ub s a with ⟨-, h⟩ | ⟨-, -, h⟩ | ⟨-, -, e, -, h⟩ | ⟨-, -, page, ub1, hr, h⟩
  · rw [h]; exact wf
  · rw [h]; exact wf.allocateFromCurrent s a
  · rw [h]; exact wf
  · rw [h]; exact (wf.requestPage hr).allocateFromCurrent s a

theorem getElem?_foldl_modify (f : Page → Page) (l : List Nat) (h : List Page) (i : Nat)
    (hf : ∀ x, f (f x) = f x) :
    (l.foldl (fun h page => h.modify f page) h)[i]? =
      (h[i]?).map (fun pg => if i ∈ l then f pg else pg) := by
  induction l generalizing h with
  | nil => simp
  | cons p l ih =>
    rw [List.foldl_cons, ih, List.getElem?_modify]
    cases h[i]? with
    | none => simp
    | some pg =>
      by_cases hpi : p = i
      · subst hpi
        by_cases hl : p ∈ l <;> simp [hl, hf]
      · have : i ≠ p := fun h => hpi h.symm
        by_cases hl : i ∈ l <;> simp [hl, hpi, this]

theorem length_foldl_modify (f : Page → Page) (l : List Nat) (h : List Page) :
    (l.foldl (fun h page => h.modify f page) h).length = h.length := by
  induction l generalizing h with
  | nil => rfl
  | cons p l ih => rw [List.foldl_cons, ih, List.length_modify]

theorem getElem?_heap_Reset (ub : UploadBuffer) (i : Nat) :
    ub.Reset.heap[i]? =
      (ub.heap[i]?).map (fun pg => if i ∈ ub.m_PagePool then pg.Reset else pg) :=
  getElem?_foldl_modify Page.Reset ub.m_PagePool ub.heap i (fun _ => rfl)

theorem WellFormed.reset {pageSize : Nat} {ub : UploadBuffer} (wf : WellFormed pageSize ub) :
    WellFormed pageSize ub.Reset := by
  have hlen : ub.Reset.heap.length = ub.heap.length :=
    length_foldl_modify Page.Reset ub.m_PagePool ub.heap
  refine ⟨wf.pageSize_eq, wf.pageSize_lt, ?_, ?_, ?_, ?_, ?_, ?_⟩
  · intro x hx
    obtain ⟨i, hi⟩ := List.getElem?_of_mem hx
    rw [getElem?_heap_Reset] at hi
    cases hg : ub.heap[i]? with
    | none => simp [hg] at hi
    | some pg =>
      have hpg := wf.page_ok pg (List.getElem?_mem hg)
      simp only [hg, Option.map_some', Option.some.injEq] at hi
      subst hi
      split
      · exact ⟨hpg.1, Nat.zero_le _⟩
      · exact hpg
  · show ub.m_PagePool = _
    rw [hlen]; exact wf.pool_eq
  · show ub.m_PagePool.Nodup
    rw [wf.pool_eq]; exact List.nodup_range _
  · intro q hq
    have hq' : q ∈ ub.m_PagePool := hq
    rw [hlen]
    rw [wf.pool_eq] at hq'
    exact List.mem_range.mp hq'
  · intro q hq
    have hq' : q ∈ ub.m_PagePool := hq
    unfold offsetOf
    rw [getElem?_heap_Reset]
    cases ub.heap[q]? with
    | none => rfl
    | some pg => simp [hq', Page.Reset]
  · intro q hq
    simp [Reset] at hq

theorem Reachable.wellFormed {dev : Device} {pageSize : Nat} {ub : UploadBuffer}
    (h : Reachable dev pageSize ub) : WellFormed pageSize ub := by
  induction h with
  | init hp => exact WellFormed.new hp
  | allocate s a _ _ _ ih => exact ih.allocate dev s a
  | reset _ ih => exact ih.reset

/-! ### UploadBuffer: what a returning Allocate did -/

theorem Allocate_eq_ok {dev : Device} {ub ub' : UploadBuffer} {s a : Nat} {al : Allocation}
    (h : ub.Allocate dev s a = (.ok al, ub')) :
    ∃ ub1 page pg,
      ((ub.currentHasSpace s a = true ∧ ub1 = ub) ∨
        (ub.currentHasSpace s a = false ∧
          ∃ ub0, ub.RequestPage dev = .ok (page, ub0) ∧
            ub1 = { ub0 with m_CurrentPage := some page })) ∧
      s ≤ ub.m_PageSize ∧
      ub1.m_CurrentPage = some page ∧ ub1.heap[page]? = some pg ∧ pg.HasSpace s a = true ∧
      al = ⟨(pg.m_CPUPtr + Math.AlignUp pg.m_Offset a) % WORD,
        (pg.m_GPUPtr + Math.AlignUp pg.m_Offset a) % WORD⟩ ∧
      ub' = { ub1 with heap := (ub1.heap.set page
        { pg with m_Offset := (Math.AlignUp pg.m_Offset a + Math.AlignUp s a) % WORD }) } := by
  have key : ∀ ub1 : UploadBuffer, allocateFromCurrent ub1 s a = (.ok al, ub') →
      ∃ page pg, ub1.m_CurrentPage = some page ∧ ub1.heap[page]? = some pg ∧
        pg.HasSpace s a = true ∧
        al = ⟨(pg.m_CPUPtr + Math.AlignUp pg.m_Offset a) % WORD,
          (pg.m_GPUPtr + Math.AlignUp pg.m_Offset a) % WORD⟩ ∧
        ub' = { ub1 with heap := (ub1.heap.set page
          { pg with m_Offset := (Math.AlignUp pg.m_Offset a + Math.AlignUp s a) % WORD }) } := by
    intro ub1 h1
    rcases allocateFromCurrent_cases ub1 s a with ⟨e, he⟩ | ⟨page, pg, al0, pg', hc, hp, ha, he⟩
    · rw [he] at h1; simp at h1
    · rw [he] at h1
      simp only [Prod.mk.injEq, Except.ok.injEq] at h1
      obtain ⟨hs, hal, hpg'⟩ := Page.Allocate_returns ha
      exact ⟨page, pg, hc, hp, hs, h1.1 ▸ hal, by rw [← h1.2, hpg']⟩
  rcases Allocate_cases dev ub s a with ⟨-, h0⟩ | ⟨hle, hc, h0⟩ | ⟨-, -, e, -, h0⟩ |
    ⟨hle, hc, page, ub0, hr, h0⟩
  · rw [h0] at h; simp at h
  · rw [h0] at h
    obtain ⟨page, pg, h1, h2, h3, h4, h5⟩ := key ub h
    exact ⟨ub, page, pg, Or.inl ⟨hc, rfl⟩, hle, h1, h2, h3, h4, h5⟩
  · rw [h0] at h; simp at h
  · rw [h0] at h
    obtain ⟨page', pg, h1, h2, h3, h4, h5⟩ := key _ h
    have hpp : page = page' := by simpa using h1
    subst hpp
    exact ⟨_, page, pg, Or.inr ⟨hc, ub0, hr, rfl⟩, hle, h1, h2, h3, h4, h5⟩

theorem getElem?_set_self_of_getElem? {l : List Page} {i : Nat} {x y : Page}
    (h : l[i]? = some x) : (l.set i y)[i]? = some y := by
  have hi : i < l.length := by
    by_contra hn
    rw [List.getElem?_eq_none (not_lt.mp hn)] at h
    simp at h
  simp [List.getElem?_set, hi]

/-! ### Claims C2, C4, C6 and C10 -/

/-- C2: for every upload buffer, every alignment and every `sizeInBytes` greater than the page
size, `UploadBuffer::Allocate` throws `std::bad_alloc` and the buffer after the call is the
buffer before it: no page is created, and the page pool, the available pages, the current page
and the offset of every page are the same. -/
theorem Allocate_of_pageSize_lt (dev : Device) (ub : UploadBuffer) (sizeInBytes alignment : Nat)
    (h : ub.m_PageSize < sizeInBytes) :
    ub.Allocate dev sizeInBytes alignment = (.error .bad_alloc, ub) := by
  simp [Allocate, h]

theorem Allocate_of_pageSize_lt_witness :
    (UploadBuffer.new 2097152).Allocate exampleDevice 3145728 256 =
      (.error .bad_alloc, UploadBuffer.new 2097152) :=
  Allocate_of_pageSize_lt exampleDevice (UploadBuffer.new 2097152) 3145728 256 (by decide)

/-- C4: when the current page `pg` has offset `o`, `sizeInBytes` is at most the page size and
`AlignUp(o, alignment) + AlignUp(sizeInBytes, alignment)` is at most the page size, `Allocate`
returns the allocation at offset `AlignUp(o, alignment)` of the current page, the offset of that
page becomes `AlignUp(o, alignment) + AlignUp(sizeInBytes, alignment)`, and the current page,
the page pool, the available pages and all other pages are unchanged. -/
theorem Allocate_of_current_has_space (dev : Device) (ub : UploadBuffer) (page : Nat) (pg : Page)
    (sizeInBytes alignment : Nat)
    (hcur : ub.m_CurrentPage = some page) (hpg : ub.heap[page]? = some pg)
    (hword : pg.m_PageSize < WORD)
    (hsize : sizeInBytes ≤ ub.m_PageSize)
    (hfit : Math.AlignUp pg.m_Offset alignment + Math.AlignUp sizeInBytes alignment
      ≤ pg.m_PageSize) :
    ub.Allocate dev sizeInBytes alignment =
      (.ok ⟨(pg.m_CPUPtr + Math.AlignUp pg.m_Offset alignment) % WORD,
            (pg.m_GPUPtr + Math.AlignUp pg.m_Offset alignment) % WORD⟩,
       { heap := (ub.heap.set page
           { pg with m_Offset :=
               Math.AlignUp pg.m_Offset alignment + Math.AlignUp sizeInBytes alignment }),
         m_PagePool := ub.m_PagePool,
         m_AvailablePages := ub.m_AvailablePages,
         m_CurrentPage := ub.m_CurrentPage,
         m_PageSize := ub.m_PageSize }) := by
  have hlt : Math.AlignUp pg.m_Offset alignment + Math.AlignUp sizeInBytes alignment < WORD :=
    Nat.lt_of_le_of_lt hfit hword
  have hs : pg.HasSpace sizeInBytes alignment = true := by
    rw [Page.HasSpace_iff, Nat.mod_eq_of_lt hlt]; exact hfit
  have hc : ub.currentHasSpace sizeInBytes alignment = true := by
    simp [currentHasSpace, hcur, hpg, hs]
  simp [Allocate, Nat.not_lt.mpr hsize, hc, allocateFromCurrent, hcur, hpg,
    Page.Allocate_of_HasSpace hs, Nat.mod_eq_of_lt hlt]

theorem Allocate_of_current_has_space_witness :
    Allocate exampleDevice ⟨[⟨4096, 65536, 2097152, 256⟩], [0], [], some 0, 2097152⟩ 64 256 =
      (.ok ⟨4096 + 256, 65536 + 256⟩,
        ⟨[⟨4096, 65536, 2097152, 512⟩], [0], [], some 0, 2097152⟩) :=
  Allocate_of_current_has_space exampleDevice
    ⟨[⟨4096, 65536, 2097152, 256⟩], [0], [], some 0, 2097152⟩ 0 ⟨4096, 65536, 2097152, 256⟩
    64 256 rfl rfl (by decide) (by decide) (by decide)

/-- C6: for every upload buffer, after `Reset` there is no current page, the available pages
are the pages of the pool in pool order, every page of the pool has offset 0, and the pool is
unchanged: the same pages in the same number, every page keeping its mapped pointer, its GPU
address and its size. -/
theorem Reset_spec (ub : UploadBuffer) :
    ub.Reset.m_CurrentPage = none ∧
    ub.Reset.m_AvailablePages = ub.m_PagePool ∧
    ub.Reset.m_PagePool = ub.m_PagePool ∧
    ub.Reset.heap.length = ub.heap.length ∧
    ub.Reset.m_PageSize = ub.m_PageSize ∧
    (∀ page ∈ ub.m_PagePool, ∀ pg, ub.heap[page]? = some pg →
      ub.Reset.heap[page]? = some { pg with m_Offset := 0 }) ∧
    (∀ (page : Nat) (pg : Page), ub.heap[page]? = some pg →
      ∃ pg' : Page, ub.Reset.heap[page]? = some pg' ∧
      pg'.m_CPUPtr = pg.m_CPUPtr ∧ pg'.m_GPUPtr = pg.m_GPUPtr ∧
      pg'.m_PageSize = pg.m_PageSize) := by
  refine ⟨rfl, rfl, rfl, length_foldl_modify Page.Reset ub.m_PagePool ub.heap, rfl, ?_, ?_⟩
  · intro page hpage pg hpg
    rw [getElem?_heap_Reset, hpg]
    simp [hpage, Page.Reset]
  · intro page pg hpg
    rw [getElem?_heap_Reset, hpg]
    by_cases hpage : page ∈ ub.m_PagePool <;> simp [hpage, Page.Reset]

/-- C10: for every allocation that `UploadBuffer::Allocate` returns, the page that served it is
the current page after the call, and the CPU pointer minus the mapped base pointer of that page
equals the GPU address minus the base GPU virtual address of that page. -/
theorem Allocate_CPU_GPU_same_location (dev : Device) (ub ub' : UploadBuffer)
    (sizeInBytes alignment : Nat) (al : Allocation)
    (h : ub.Allocate dev sizeInBytes alignment = (.ok al, ub')) :
    ∃ page pg, ub'.m_CurrentPage = some page ∧ ub'.heap[page]? = some pg ∧
      wsub al.CPU pg.m_CPUPtr = wsub al.GPU pg.m_GPUPtr := by
  obtain ⟨ub1, page, pg, -, -, hc, hp, -, hal, hub'⟩ := Allocate_eq_ok h
  refine ⟨page, _, by rw [hub']; exact hc, by rw [hub']; exact getElem?_set_self_of_getElem? hp, ?_⟩
  rw [hal]
  simp only [wsub_add_mod]

theorem Allocate_CPU_GPU_same_location_witness :
    ∃ page pg,
      (⟨[⟨4096, 65536, 2097152, 768⟩], [0], [], some 0, 2097152⟩ : UploadBuffer).m_CurrentPage
        = some page ∧
      (⟨[⟨4096, 65536, 2097152, 768⟩], [0], [], some 0, 2097152⟩ : UploadBuffer).heap[page]?
        = some pg ∧
      wsub (4096 + 512) pg.m_CPUPtr = wsub (65536 + 512) pg.m_GPUPtr :=
  Allocate_CPU_GPU_same_location exampleDevice
    ⟨[⟨4096, 65536, 2097152, 300⟩], [0], [], some 0, 2097152⟩
    ⟨[⟨4096, 65536, 2097152, 768⟩], [0], [], some 0, 2097152⟩ 200 256 ⟨4096 + 512, 65536 + 512⟩ rfl

/-! ### UploadBuffer: calls whose alignment does not wrap around -/

theorem Page.Allocate_bounds {pg pg' : Page} {s a P : Nat} {al : Allocation}
    (h : pg.Allocate s a = .ok (al, pg')) (hoff : pg.m_Offset ≤ P) (hs : s ≤ P)
    (h1 : 1 ≤ a) (h2 : P + a ≤ 2 ^ 63) :
    wsub al.GPU pg.m_GPUPtr = Math.AlignUp pg.m_Offset a ∧
    pg.m_Offset ≤ Math.AlignUp pg.m_Offset a ∧
    Math.AlignUp pg.m_Offset a + s ≤ pg'.m_Offset := by
  obtain ⟨-, hal, hpg'⟩ := Page.Allocate_returns h
  have hW := WORD_eq
  have ho1 := Math.le_AlignUp (v := pg.m_Offset) h1 (by omega)
  have ho2 := Math.AlignUp_le (v := pg.m_Offset) h1 (by omega)
  have hs1 := Math.le_AlignUp (v := s) h1 (by omega)
  have hs2 := Math.AlignUp_le (v := s) h1 (by omega)
  refine ⟨?_, ho1, ?_⟩
  · rw [hal]
    simp only [wsub_add_mod]
    exact Nat.mod_eq_of_lt (Math.AlignUp_lt _ _)
  · rw [hpg']
    simp only
    rw [Nat.mod_eq_of_lt (by omega)]
    omega

theorem offsetOf_requestPage {dev : Device} {ub ub0 : UploadBuffer} {page : Nat}
    (h : ub.RequestPage dev = .ok (page, ub0)) (q : Nat) :
    offsetOf { ub0 with m_CurrentPage := some page } q = offsetOf ub q := by
  rcases RequestPage_eq_ok h with ⟨rest, -, rfl⟩ | ⟨-, rfl, cpu, gpu, -, rfl⟩
  · rfl
  · unfold offsetOf
    simp only
    rcases Nat.lt_trichotomy q ub.heap.length with hq | hq | hq
    · rw [List.getElem?_append_left hq]
    · subst hq
      simp
    · rw [List.getElem?_eq_none (by simp; omega), List.getElem?_eq_none (by omega)]

theorem allocateFromCurrent_no_wrap {P : Nat} {ub : UploadBuffer} (wf : WellFormed P ub)
    (s a : Nat) (hs : s ≤ P) (h1 : 1 ≤ a) (h2 : P + a ≤ 2 ^ 63) :
    (∀ q, offsetOf ub q ≤ offsetOf (allocateFromCurrent ub s a).2 q) ∧
    (∀ al ub', allocateFromCurrent ub s a = (.ok al, ub') →
      ∃ page pg, ub'.m_CurrentPage = some page ∧ ub'.heap[page]? = some pg ∧
        offsetOf ub page ≤ wsub al.GPU pg.m_GPUPtr ∧
        wsub al.GPU pg.m_GPUPtr + s ≤ pg.m_Offset) := by
  rcases allocateFromCurrent_cases ub s a with ⟨e, he⟩ | ⟨page, pg, al0, pg', hc, hp, ha, he⟩
  · rw [he]
    exact ⟨fun q => Nat.le_refl _, fun al ub' h => by simp at h⟩
  · have hpg := wf.page_ok pg (List.getElem?_mem hp)
    obtain ⟨hw, hle, hend⟩ := Page.Allocate_bounds ha hpg.2 hs h1 h2
    have hbase : pg'.m_GPUPtr = pg.m_GPUPtr := by rw [(Page.Allocate_returns ha).2.2]
    have hoff : offsetOf ub page = pg.m_Offset := by simp [offsetOf, hp]
    rw [he]
    refine ⟨?_, ?_⟩
    · intro q
      by_cases hq : q = page
      · subst hq
        have : offsetOf { ub with heap := ub.heap.set q pg' } q = pg'.m_Offset := by
          simp [offsetOf, getElem?_set_self_of_getElem? hp]
        rw [this, hoff]
        omega
      · rw [offsetOf_set ub page q pg' hq]
    · intro al ub' h
      simp only [Prod.mk.injEq, Except.ok.injEq] at h
      obtain ⟨rfl, rfl⟩ := h
      refine ⟨page, pg', hc, getElem?_set_self_of_getElem? hp, ?_, ?_⟩
      · rw [hbase, hw, hoff]; exact hle
      · rw [hbase, hw]; exact hend

theorem Allocate_no_wrap {P : Nat} {ub : UploadBuffer} (wf : WellFormed P ub) (dev : Device)
    (s a : Nat) (h1 : 1 ≤ a) (h2 : P + a ≤ 2 ^ 63) :
    (∀ q, offsetOf ub q ≤ offsetOf (ub.Allocate dev s a).2 q) ∧
    (∀ al ub', ub.Allocate dev s a = (.ok al, ub') →
      ∃ page pg, ub'.m_CurrentPage = some page ∧ ub'.heap[page]? = some pg ∧
        offsetOf ub page ≤ wsub al.GPU pg.m_GPUPtr ∧
        wsub al.GPU pg.m_GPUPtr + s ≤ pg.m_Offset) := by
  rcases Allocate_cases dev ub s a with ⟨-, h⟩ | ⟨hle, -, h⟩ | ⟨-, -, e, -, h⟩ |
    ⟨hle, -, page, ub0, hr, h⟩
  · rw [h]
    exact ⟨fun q => Nat.le_refl _, fun al ub' h => by simp at h⟩
  · rw [h]
    exact allocateFromCurrent_no_wrap wf s a (wf.pageSize_eq ▸ hle) h1 h2
  · rw [h]
    exact ⟨fun q => Nat.le_refl _, fun al ub' h => by simp at h⟩
  · rw [h]
    have key := allocateFromCurrent_no_wrap (wf.requestPage hr) s a (wf.pageSize_eq ▸ hle) h1 h2
    simp only [offsetOf_requestPage hr] at key
    exact key

theorem AllocateMany_no_wrap {P : Nat} (dev : Device) (calls : List (Nat × Nat))
    (hcalls : ∀ c ∈ calls, 1 ≤ c.2 ∧ P + c.2 ≤ 2 ^ 63) :
    ∀ ub, WellFormed P ub →
      WellFormed P (AllocateMany dev ub calls) ∧
      ∀ q, offsetOf ub q ≤ offsetOf (AllocateMany dev ub calls) q := by
  induction calls with
  | nil => exact fun ub wf => ⟨wf, fun q => Nat.le_refl _⟩
  | cons c calls ih =>
    intro ub wf
    obtain ⟨s, a⟩ := c
    have hc := hcalls (s, a) (List.mem_cons_self _ _)
    have step := (Allocate_no_wrap wf dev s a hc.1 hc.2).1
    obtain ⟨wf', mono⟩ := ih (fun c hc => hcalls c (List.mem_cons_of_mem _ hc)) _
      (wf.allocate dev s a)
    exact ⟨wf', fun q => Nat.le_trans (step q) (mono q)⟩

/-! ### Claims C1, C3, C8 and C9 -/

/-- C1, as amended: take a reachable upload buffer, an `Allocate` call that returns, then any
run of `Allocate` calls with no `Reset`, then a second `Allocate` call that returns from the same
page as the first. When every alignment passed since the first call is at least 1 and
`pageSize + alignment ≤ 2^63` (so that neither `AlignUp` nor the sum in `HasSpace` wraps
around), the first allocation ends at or before the offset where the second starts, so the byte
ranges `[offset1, offset1 + size1)` and `[offset2, offset2 + size2)` of the page are disjoint. -/
theorem Allocate_ranges_disjoint (dev : Device) (pageSize : Nat) (ub0 ub1 ub3 : UploadBuffer)
    (size1 align1 size2 align2 : Nat) (calls : List (Nat × Nat)) (al1 al2 : Allocation)
    (page : Nat) (pg1 pg3 : Page)
    (hr : Reachable dev pageSize ub0)
    (hcall1 : ub0.Allocate dev size1 align1 = (.ok al1, ub1))
    (hcall2 : (AllocateMany dev ub1 calls).Allocate dev size2 align2 = (.ok al2, ub3))
    (hserved1 : ub1.m_CurrentPage = some page) (hpg1 : ub1.heap[page]? = some pg1)
    (hserved2 : ub3.m_CurrentPage = some page) (hpg3 : ub3.heap[page]? = some pg3)
    (ha1 : 1 ≤ align1 ∧ pageSize + align1 ≤ 2 ^ 63)
    (hcalls : ∀ c ∈ calls, 1 ≤ c.2 ∧ pageSize + c.2 ≤ 2 ^ 63)
    (ha2 : 1 ≤ align2 ∧ pageSize + align2 ≤ 2 ^ 63) :
    wsub al1.GPU pg1.m_GPUPtr + size1 ≤ wsub al2.GPU pg3.m_GPUPtr ∧
    ∀ b, ¬ (wsub al1.GPU pg1.m_GPUPtr ≤ b ∧ b < wsub al1.GPU pg1.m_GPUPtr + size1 ∧
      wsub al2.GPU pg3.m_GPUPtr ≤ b ∧ b < wsub al2.GPU pg3.m_GPUPtr + size2) := by
  have wf0 := hr.wellFormed
  have wf1 : WellFormed pageSize ub1 := by
    have := wf0.allocate dev size1 align1
    rwa [hcall1] at this
  obtain ⟨p1, g1, hc1, hg1, -, hend1⟩ :=
    (Allocate_no_wrap wf0 dev size1 align1 ha1.1 ha1.2).2 al1 ub1 hcall1
  have e1 : p1 = page := by rw [hserved1] at hc1; exact (Option.some.inj hc1).symm
  rw [e1] at hg1
  have e1' : g1 = pg1 := by rw [hpg1] at hg1; exact (Option.some.inj hg1).symm
  rw [e1'] at hend1
  obtain ⟨wf2, mono⟩ := AllocateMany_no_wrap dev calls hcalls ub1 wf1
  obtain ⟨p3, g3, hc3, hg3, hstart3, -⟩ :=
    (Allocate_no_wrap wf2 dev size2 align2 ha2.1 ha2.2).2 al2 ub3 hcall2
  have e3 : p3 = page := by rw [hserved2] at hc3; exact (Option.some.inj hc3).symm
  rw [e3] at hg3 hstart3
  have e3' : g3 = pg3 := by rw [hpg3] at hg3; exact (Option.some.inj hg3).symm
  rw [e3'] at hstart3
  have hoff1 : offsetOf ub1 page = pg1.m_Offset := by simp [offsetOf, hpg1]
  have hmono := mono page
  have hle : wsub al1.GPU pg1.m_GPUPtr + size1 ≤ wsub al2.GPU pg3.m_GPUPtr := by omega
  exact ⟨hle, fun b hb => by omega⟩

theorem Allocate_ranges_disjoint_witness :
    wsub 65536 65536 + 100 ≤ wsub (65536 + 112) 65536 ∧
    ∀ b, ¬ (wsub 65536 65536 ≤ b ∧ b < wsub 65536 65536 + 100 ∧
      wsub (65536 + 112) 65536 ≤ b ∧ b < wsub (65536 + 112) 65536 + 16) :=
  Allocate_ranges_disjoint exampleDevice 2097152 (UploadBuffer.new 2097152)
    ⟨[⟨4096, 65536, 2097152, 100⟩], [0], [], some 0, 2097152⟩
    ⟨[⟨4096, 65536, 2097152, 128⟩], [0], [], some 0, 2097152⟩
    100 1 16 16 [(7, 4)] ⟨4096, 65536⟩ ⟨4096 + 112, 65536 + 112⟩ 0
    ⟨4096, 65536, 2097152, 100⟩ ⟨4096, 65536, 2097152, 128⟩
    (Reachable.init (by decide)) rfl rfl rfl rfl rfl rfl (by decide) (by decide) (by decide)

/-- C1, counterexample: on a fresh buffer with 2 MiB pages `Allocate(100, 1)` returns offset 0
of page 0, and the next call `Allocate(100, 0)` returns offset 0 of page 0 again: byte 0 of the
page lies in both ranges. -/
theorem Allocate_ranges_overlap_alignment_zero :
    Reachable exampleDevice 2097152 (UploadBuffer.new 2097152) ∧
    (UploadBuffer.new 2097152).Allocate exampleDevice 100 1 =
      (.ok ⟨4096, 65536⟩, ⟨[⟨4096, 65536, 2097152, 100⟩], [0], [], some 0, 2097152⟩) ∧
    (AllocateMany exampleDevice ⟨[⟨4096, 65536, 2097152, 100⟩], [0], [], some 0, 2097152⟩
        []).Allocate exampleDevice 100 0 =
      (.ok ⟨4096, 65536⟩, ⟨[⟨4096, 65536, 2097152, 0⟩], [0], [], some 0, 2097152⟩) ∧
    ¬ (∀ b, ¬ (wsub 65536 65536 ≤ b ∧ b < wsub 65536 65536 + 100 ∧
      wsub 65536 65536 ≤ b ∧ b < wsub 65536 65536 + 100)) :=
  ⟨Reachable.init (by decide), rfl, rfl, fun h => h 0 (by decide)⟩

/-- C3, as amended: for every upload buffer and every returning
`Allocate(sizeInBytes, alignment)` whose alignment is a power of two `2^k` with `k < 64`, the
offset of the allocation from the start of the page that served it (GPU address minus the base
GPU address of the page) is a multiple of the alignment. -/
theorem Allocate_offset_aligned (dev : Device) (ub ub' : UploadBuffer) (sizeInBytes k : Nat)
    (al : Allocation) (hk : k < 64)
    (h : ub.Allocate dev sizeInBytes (2 ^ k) = (.ok al, ub')) :
    ∃ page pg, ub'.m_CurrentPage = some page ∧ ub'.heap[page]? = some pg ∧
      2 ^ k ∣ wsub al.GPU pg.m_GPUPtr := by
  obtain ⟨ub1, page, pg, -, -, hc, hp, -, hal, hub'⟩ := Allocate_eq_ok h
  refine ⟨page, _, by rw [hub']; exact hc, by rw [hub']; exact getElem?_set_self_of_getElem? hp, ?_⟩
  rw [hal]
  simp only [wsub_add_mod]
  rw [Nat.mod_eq_of_lt (Math.AlignUp_lt _ _)]
  exact Math.two_pow_dvd_AlignUp _ k hk

theorem Allocate_offset_aligned_witness :
    ∃ page pg,
      (⟨[⟨4096, 65536, 2097152, 768⟩], [0], [], some 0, 2097152⟩ : UploadBuffer).m_CurrentPage
        = some page ∧
      (⟨[⟨4096, 65536, 2097152, 768⟩], [0], [], some 0, 2097152⟩ : UploadBuffer).heap[page]?
        = some pg ∧
      2 ^ 8 ∣ wsub (65536 + 512) pg.m_GPUPtr :=
  Allocate_offset_aligned exampleDevice
    ⟨[⟨4096, 65536, 2097152, 300⟩], [0], [], some 0, 2097152⟩
    ⟨[⟨4096, 65536, 2097152, 768⟩], [0], [], some 0, 2097152⟩ 200 8 ⟨4096 + 512, 65536 + 512⟩
    (by decide) rfl

/-- C3, counterexample: after `Allocate(1, 3)` on a fresh buffer with 2 MiB pages, a second
`Allocate(1, 3)` returns GPU address `65537` in page 0, whose base GPU address is `65536`: the
offset of the allocation is 1, which is not a multiple of the alignment 3. -/
theorem Allocate_offset_unaligned_alignment_three :
    Reachable exampleDevice 2097152
      ((UploadBuffer.new 2097152).Allocate exampleDevice 1 3).2 ∧
    ((UploadBuffer.new 2097152).Allocate exampleDevice 1 3).2.Allocate exampleDevice 1 3 =
      (.ok ⟨4097, 65537⟩, ⟨[⟨4096, 65536, 2097152, 2⟩], [0], [], some 0, 2097152⟩) ∧
    wsub 65537 65536 = 1 ∧ ¬ (3 ∣ wsub 65537 65536) :=
  ⟨Reachable.allocate 1 3 (Reachable.init (by decide)) (by decide) (by decide), rfl,
    by decide, by decide⟩

/-- The part of C8 that holds: in every reachable state every page has the page size of the
buffer and an offset that is at most the page size. -/
theorem Reachable.offset_le_pageSize {dev : Device} {pageSize : Nat} {ub : UploadBuffer}
    (hr : Reachable dev pageSize ub) (page : Nat) (pg : Page) (hpg : ub.heap[page]? = some pg) :
    pg.m_PageSize = pageSize ∧ pg.m_Offset ≤ pageSize :=
  hr.wellFormed.page_ok pg (List.getElem?_mem hpg)

/-- The allocations that stay inside the page: in a reachable state, a returning
`Allocate(sizeInBytes, alignment)` with `1 ≤ alignment` and `pageSize + alignment ≤ 2^63`
serves a range that ends inside the page. -/
theorem Reachable.allocation_inside_page {dev : Device} {pageSize : Nat} {ub ub' : UploadBuffer}
    (hr : Reachable dev pageSize ub) (sizeInBytes alignment : Nat) (al : Allocation)
    (h1 : 1 ≤ alignment) (h2 : pageSize + alignment ≤ 2 ^ 63)
    (h : ub.Allocate dev sizeInBytes alignment = (.ok al, ub')) :
    ∃ page pg, ub'.m_CurrentPage = some page ∧ ub'.heap[page]? = some pg ∧
      wsub al.GPU pg.m_GPUPtr + sizeInBytes ≤ pg.m_PageSize := by
  have wf' : WellFormed pageSize ub' := by
    have := hr.wellFormed.allocate dev sizeInBytes alignment
    rwa [h] at this
  obtain ⟨page, pg, hc, hp, -, hend⟩ :=
    (Allocate_no_wrap hr.wellFormed dev sizeInBytes alignment h1 h2).2 al ub' h
  have hpg := wf'.page_ok pg (List.getElem?_mem hp)
  exact ⟨page, pg, hc, hp, by omega⟩

/-- C8, the code at the failing input: on a buffer with 2 MiB pages, after `Allocate(1, 1)` the
call `Allocate(1, 2^63)` returns (the sum `2^63 + 2^63` in `HasSpace` wraps around to 0) an
allocation at offset `2^63` of page 0, which ends far outside the page of `2097152` bytes. -/
theorem Allocate_alignment_wraps_outside_page :
    Reachable exampleDevice 2097152
      ((UploadBuffer.new 2097152).Allocate exampleDevice 1 1).2 ∧
    ((UploadBuffer.new 2097152).Allocate exampleDevice 1 1).2.Allocate exampleDevice 1 (2 ^ 63) =
      (.ok ⟨4096 + 2 ^ 63, 65536 + 2 ^ 63⟩,
        ⟨[⟨4096, 65536, 2097152, 0⟩], [0], [], some 0, 2097152⟩) ∧
    wsub (65536 + 2 ^ 63) 65536 = 2 ^ 63 ∧
    ¬ (wsub (65536 + 2 ^ 63) 65536 + 1 ≤ 2097152) :=
  ⟨Reachable.allocate 1 1 (Reachable.init (by decide)) (by decide) (by decide), rfl,
    by decide, by decide⟩

/-- C9, as amended: for every upload page and every returning
`Page::Allocate(sizeInBytes, alignment)` with `alignment ≥ 1` in which neither
`m_Offset + (alignment - 1)` nor `AlignUp(m_Offset) + AlignUp(sizeInBytes)` wraps around `2^64`,
the offset after the call is at least the offset before it (and at least the offset returned);
`Page::Reset` sets the offset to 0 and changes nothing else. -/
theorem Page.Allocate_offset_monotone (pg pg' : Page) (sizeInBytes alignment : Nat)
    (al : Allocation) (h : pg.Allocate sizeInBytes alignment = .ok (al, pg'))
    (h1 : 1 ≤ alignment) (h2 : pg.m_Offset + (alignment - 1) < WORD)
    (h3 : Math.AlignUp pg.m_Offset alignment + Math.AlignUp sizeInBytes alignment < WORD) :
    pg.m_Offset ≤ pg'.m_Offset ∧ Math.AlignUp pg.m_Offset alignment ≤ pg'.m_Offset ∧
    pg.Reset = { pg with m_Offset := 0 } := by
  obtain ⟨-, -, hpg'⟩ := Page.Allocate_returns h
  have ho := Math.le_AlignUp (v := pg.m_Offset) h1 (by omega)
  rw [hpg']
  simp only [Nat.mod_eq_of_lt h3]
  exact ⟨by omega, by omega, rfl⟩

theorem Page.Allocate_offset_monotone_witness :
    (300 : Nat) ≤ 768 ∧ Math.AlignUp 300 256 ≤ 768 ∧
    Page.Reset ⟨4096, 65536, 2097152, 300⟩ = ⟨4096, 65536, 2097152, 0⟩ :=
  Page.Allocate_offset_monotone ⟨4096, 65536, 2097152, 300⟩ ⟨4096, 65536, 2097152, 768⟩ 200 256
    ⟨4096 + 512, 65536 + 512⟩ rfl (by decide) (by decide) (by decide)

/-- C9, counterexample: a page of 2 MiB with offset 100 serves `Page::Allocate(100, 0)`, and
its offset after the call is 0, which is less than 100. -/
theorem Page.Allocate_offset_decreases_alignment_zero :
    Page.Allocate ⟨4096, 65536, 2097152, 100⟩ 100 0 =
      .ok (⟨4096, 65536⟩, ⟨4096, 65536, 2097152, 0⟩) ∧
    ¬ ((⟨4096, 65536, 2097152, 100⟩ : Page).m_Offset
        ≤ (⟨4096, 65536, 2097152, 0⟩ : Page).m_Offset) :=
  ⟨rfl, by decide⟩

/-! ### Claims C5 and C7 -/

theorem Allocate_requested {pageSize : Nat} {dev : Device} {ub ub' : UploadBuffer} {s a : Nat}
    {al : Allocation} (wf : WellFormed pageSize ub) (hno : ub.currentHasSpace s a = false)
    (h : ub.Allocate dev s a = (.ok al, ub')) :
    ∃ page pg, ub'.m_CurrentPage = some page ∧ ub'.heap[page]? = some pg ∧
      al = ⟨pg.m_CPUPtr % WORD, pg.m_GPUPtr % WORD⟩ ∧
      ((∃ rest pg0, ub.m_AvailablePages = page :: rest ∧ ub'.m_AvailablePages = rest ∧
          ub'.m_PagePool = ub.m_PagePool ∧ ub'.heap.length = ub.heap.length ∧
          ub.heap[page]? = some pg0 ∧ pg0.m_CPUPtr = pg.m_CPUPtr ∧
          pg0.m_GPUPtr = pg.m_GPUPtr) ∨
        (ub.m_AvailablePages = [] ∧ ub'.m_AvailablePages = [] ∧ page = ub.heap.length ∧
          page ∉ ub.m_PagePool ∧ ub'.m_PagePool = ub.m_PagePool ++ [page] ∧
          ub'.heap.length = ub.heap.length + 1)) := by
  obtain ⟨ub1, page, pg, hway, -, hc, hp, -, hal, hub'⟩ := Allocate_eq_ok h
  rcases hway with ⟨hyes, -⟩ | ⟨-, ub0, hr, hub1⟩
  · rw [hno] at hyes; cases hyes
  · subst hub1
    have hzero : pg.m_Offset = 0 := by
      rcases RequestPage_eq_ok hr with ⟨rest, hav, rfl⟩ | ⟨-, rfl, cpu, gpu, -, rfl⟩
      · have := wf.avail_zero page (by rw [hav]; exact List.mem_cons_self _ _)
        have hp' : ub.heap[page]? = some pg := hp
        simpa [offsetOf, hp'] using this
      · have hp' : (ub.heap ++ [(⟨cpu, gpu, ub.m_PageSize, 0⟩ : Page)])[ub.heap.length]?
            = some pg := hp
        simp at hp'
        rw [← hp']
    rw [hzero, Math.AlignUp_zero] at hal hub'
    refine ⟨page, _, by rw [hub'], by rw [hub']; exact getElem?_set_self_of_getElem? hp,
      by rw [hal]; rfl, ?_⟩
    rcases RequestPage_eq_ok hr with ⟨rest, hav, rfl⟩ | ⟨hav, rfl, cpu, gpu, -, rfl⟩
    · exact Or.inl ⟨rest, pg, hav, by rw [hub'], by rw [hub'], by rw [hub']; simp, hp, rfl, rfl⟩
    · refine Or.inr ⟨hav, by rw [hub']; exact hav, rfl, ?_, by rw [hub'], by rw [hub']; simp⟩
      rw [wf.pool_eq]
      simp

/-- C5: in a reachable state in which there is no current page or the current page lacks space
for the request (the test of `Allocate` before `RequestPage`), a returning `Allocate` takes the
front page of the available pages and removes it from them, or, when there is no available page,
appends one newly created page to the pool; that page is the current page after the call and the
allocation starts at offset 0 of it. Every available page of a reachable state has offset 0. -/
theorem Allocate_of_not_currentHasSpace (dev : Device) (pageSize : Nat) (ub ub' : UploadBuffer)
    (sizeInBytes alignment : Nat) (al : Allocation)
    (hr : Reachable dev pageSize ub)
    (hno : ub.currentHasSpace sizeInBytes alignment = false)
    (h : ub.Allocate dev sizeInBytes alignment = (.ok al, ub')) :
    (∃ page pg, ub'.m_CurrentPage = some page ∧ ub'.heap[page]? = some pg ∧
      wsub al.CPU pg.m_CPUPtr = 0 ∧ wsub al.GPU pg.m_GPUPtr = 0 ∧
      ((∃ rest, ub.m_AvailablePages = page :: rest ∧ ub'.m_AvailablePages = rest ∧
          ub'.m_PagePool = ub.m_PagePool ∧ ub'.heap.length = ub.heap.length) ∨
        (ub.m_AvailablePages = [] ∧ ub'.m_AvailablePages = [] ∧ page = ub.heap.length ∧
          page ∉ ub.m_PagePool ∧ ub'.m_PagePool = ub.m_PagePool ++ [page] ∧
          ub'.heap.length = ub.heap.length + 1))) ∧
    (∀ q ∈ ub.m_AvailablePages, ∃ pg, ub.heap[q]? = some pg ∧ pg.m_Offset = 0) := by
  have wf := hr.wellFormed
  constructor
  · obtain ⟨page, pg, hc, hp, hal, hway⟩ := Allocate_requested wf hno h
    have hz : ∀ b, wsub (b % WORD) b = 0 := fun b => by
      have := wsub_add_mod b 0
      simpa using this
    refine ⟨page, pg, hc, hp, by rw [hal]; exact hz _, by rw [hal]; exact hz _, ?_⟩
    rcases hway with ⟨rest, pg0, h1, h2, h3, h4, -⟩ | hnew
    · exact Or.inl ⟨rest, h1, h2, h3, h4⟩
    · exact Or.inr hnew
  · intro q hq
    have hlt := wf.avail_lt q hq
    have hz := wf.avail_zero q hq
    refine ⟨ub.heap[q], List.getElem?_eq_getElem hlt, ?_⟩
    simpa [offsetOf, List.getElem?_eq_getElem hlt] using hz

theorem Allocate_of_not_currentHasSpace_witness :
    (∃ page pg,
      (⟨[⟨4096, 65536, 1024, 1000⟩, ⟨8192, 131072, 1024, 512⟩], [0, 1], [], some 1, 1024⟩ :
        UploadBuffer).m_CurrentPage = some page ∧
      (⟨[⟨4096, 65536, 1024, 1000⟩, ⟨8192, 131072, 1024, 512⟩], [0, 1], [], some 1, 1024⟩ :
        UploadBuffer).heap[page]? = some pg ∧
      wsub 8192 pg.m_CPUPtr = 0 ∧ wsub 131072 pg.m_GPUPtr = 0 ∧
      ((∃ rest, ([] : List Nat) = page :: rest ∧ ([] : List Nat) = rest ∧
          [0, 1] = [0] ∧ 2 = 1) ∨
        (([] : List Nat) = [] ∧ ([] : List Nat) = [] ∧ page = 1 ∧
          page ∉ [0] ∧ [0, 1] = [0] ++ [page] ∧ 2 = 1 + 1))) ∧
    (∀ q ∈ ([] : List Nat), ∃ pg,
      [(⟨4096, 65536, 1024, 1000⟩ : Page)][q]? = some pg ∧ pg.m_Offset = 0) :=
  Allocate_of_not_currentHasSpace exampleDevice 1024
    ((UploadBuffer.new 1024).Allocate exampleDevice 1000 1).2
    ⟨[⟨4096, 65536, 1024, 1000⟩, ⟨8192, 131072, 1024, 512⟩], [0, 1], [], some 1, 1024⟩
    512 256 ⟨8192, 131072⟩
    (Reachable.allocate 1000 1 (Reachable.init (by decide)) (by decide) (by decide)) rfl rfl

theorem Allocate_pool_of_available (dev : Device) (ub : UploadBuffer) (s a : Nat)
    (hav : ub.m_AvailablePages ≠ []) :
    (ub.Allocate dev s a).2.m_PagePool = ub.m_PagePool ∧
    (ub.Allocate dev s a).2.heap.length = ub.heap.length := by
  have key : ∀ ub1 : UploadBuffer,
      (allocateFromCurrent ub1 s a).2.m_PagePool = ub1.m_PagePool ∧
      (allocateFromCurrent ub1 s a).2.heap.length = ub1.heap.length := by
    intro ub1
    rcases allocateFromCurrent_cases ub1 s a with ⟨e, he⟩ | ⟨page, pg, al0, pg', -, -, -, he⟩
    · rw [he]; exact ⟨rfl, rfl⟩
    · rw [he]; exact ⟨rfl, by simp⟩
  rcases Allocate_cases dev ub s a with ⟨-, h⟩ | ⟨-, -, h⟩ | ⟨-, -, e, -, h⟩ |
    ⟨-, -, page, ub0, hr, h⟩
  · rw [h]; exact ⟨rfl, rfl⟩
  · rw [h]; exact key ub
  · rw [h]; exact ⟨rfl, rfl⟩
  · rw [h]
    rcases RequestPage_eq_ok hr with ⟨rest, -, rfl⟩ | ⟨hnil, -⟩
    · exact key _
    · exact absurd hnil hav

/-- C7: for every reachable upload buffer whose page pool is not empty, `Reset()` followed by
`Allocate(sizeInBytes, alignment)` creates no page, whether the call returns or throws: the pool
and the number of pages are those before the `Reset`. When the call returns, the allocation is
the start of a page that was in the pool before the `Reset`, and that page is the current page.
The call does return when `sizeInBytes` and `AlignUp(sizeInBytes, alignment)` are at most the
page size. -/
theorem Reset_Allocate_reuses_page (dev : Device) (pageSize : Nat) (ub : UploadBuffer)
    (sizeInBytes alignment : Nat)
    (hr : Reachable dev pageSize ub) (hpool : ub.m_PagePool ≠ []) :
    (ub.Reset.Allocate dev sizeInBytes alignment).2.m_PagePool = ub.m_PagePool ∧
    (ub.Reset.Allocate dev sizeInBytes alignment).2.heap.length = ub.heap.length ∧
    (∀ al, (ub.Reset.Allocate dev sizeInBytes alignment).1 = .ok al →
      ∃ page pg, page ∈ ub.m_PagePool ∧ ub.heap[page]? = some pg ∧
        (ub.Reset.Allocate dev sizeInBytes alignment).2.m_CurrentPage = some page ∧
        al = ⟨pg.m_CPUPtr % WORD, pg.m_GPUPtr % WORD⟩) ∧
    (sizeInBytes ≤ pageSize → Math.AlignUp sizeInBytes alignment ≤ pageSize →
      ∃ al, (ub.Reset.Allocate dev sizeInBytes alignment).1 = .ok al) := by
  have wf := hr.wellFormed
  have wfR := wf.reset
  have hlen : ub.Reset.heap.length = ub.heap.length :=
    length_foldl_modify Page.Reset ub.m_PagePool ub.heap
  have havR : ub.Reset.m_AvailablePages = ub.m_PagePool := rfl
  have hnoR : ub.Reset.currentHasSpace sizeInBytes alignment = false := rfl
  obtain ⟨hp1, hp2⟩ := Allocate_pool_of_available dev ub.Reset sizeInBytes alignment
    (by rw [havR]; exact hpool)
  refine ⟨hp1, hp2.trans hlen, ?_, ?_⟩
  · intro al hal
    have h : ub.Reset.Allocate dev sizeInBytes alignment =
        (.ok al, (ub.Reset.Allocate dev sizeInBytes alignment).2) := by
      rw [← hal]
    obtain ⟨page, pg, hc, hp, halv, hway⟩ := Allocate_requested wfR hnoR h
    rcases hway with ⟨rest, pg0, h1, -, -, -, h5, h6, h7⟩ | ⟨hnil, -⟩
    · have hmem : page ∈ ub.m_PagePool := by
        rw [← havR, h1]; exact List.mem_cons_self _ _
      rw [getElem?_heap_Reset] at h5
      cases hg : ub.heap[page]? with
      | none => simp [hg] at h5
      | some pgu =>
        simp only [hg, hmem, if_true, Option.map_some', Option.some.injEq] at h5
        refine ⟨page, pgu, hmem, hg, hc, ?_⟩
        rw [halv, ← h6, ← h7, ← h5]
        rfl
    · rw [havR] at hnil; exact absurd hnil hpool
  · intro hs hal
    obtain ⟨p0, rest, hcons⟩ := List.exists_cons_of_ne_nil hpool
    have hmem : p0 ∈ ub.Reset.m_AvailablePages := by
      rw [havR, hcons]; exact List.mem_cons_self _ _
    have hlt := wfR.avail_lt p0 hmem
    have hz := wfR.avail_zero p0 hmem
    have hget : ub.Reset.heap[p0]? = some ub.Reset.heap[p0] := List.getElem?_eq_getElem hlt
    have hoff : (ub.Reset.heap[p0]).m_Offset = 0 := by
      simpa [offsetOf, hget] using hz
    have hsize := (wfR.page_ok _ (List.getElem_mem hlt)).1
    have hspace : (ub.Reset.heap[p0]).HasSpace sizeInBytes alignment = true := by
      rw [Page.HasSpace_iff, hoff, Math.AlignUp_zero, Nat.zero_add,
        Nat.mod_eq_of_lt (Math.AlignUp_lt _ _), hsize]
      exact hal
    have hle : ¬ sizeInBytes > ub.Reset.m_PageSize := by
      rw [wfR.pageSize_eq]; exact Nat.not_lt.mpr hs
    have hav' : ub.Reset.m_AvailablePages = p0 :: rest := havR.trans hcons
    refine ⟨⟨(ub.Reset.heap[p0].m_CPUPtr + Math.AlignUp ub.Reset.heap[p0].m_Offset alignment)
        % WORD,
      (ub.Reset.heap[p0].m_GPUPtr + Math.AlignUp ub.Reset.heap[p0].m_Offset alignment)
        % WORD⟩, ?_⟩
    simp [Allocate, hle, hnoR, RequestPage, hav', allocateFromCurrent, hget,
      Page.Allocate_of_HasSpace hspace]

theorem Reset_Allocate_reuses_page_witness :
    (Allocate exampleDevice (Reset ((UploadBuffer.new 1024).Allocate exampleDevice 1000 1).2)
      1000 1).2.m_PagePool = [0] ∧
    (Allocate exampleDevice (Reset ((UploadBuffer.new 1024).Allocate exampleDevice 1000 1).2)
      1000 1).2.heap.length = 1 ∧
    (∀ al, (Allocate exampleDevice
        (Reset ((UploadBuffer.new 1024).Allocate exampleDevice 1000 1).2) 1000 1).1 = .ok al →
      ∃ page pg, page ∈ [0] ∧ [(⟨4096, 65536, 1024, 1000⟩ : Page)][page]? = some pg ∧
        (Allocate exampleDevice (Reset ((UploadBuffer.new 1024).Allocate exampleDevice 1000 1).2)
          1000 1).2.m_CurrentPage = some page ∧
        al = ⟨pg.m_CPUPtr % WORD, pg.m_GPUPtr % WORD⟩) ∧
    (1000 ≤ 1024 → Math.AlignUp 1000 1 ≤ 1024 →
      ∃ al, (Allocate exampleDevice
        (Reset ((UploadBuffer.new 1024).Allocate exampleDevice 1000 1).2) 1000 1).1 = .ok al) :=
  Reset_Allocate_reuses_page exampleDevice 1024
    ((UploadBuffer.new 1024).Allocate exampleDevice 1000 1).2 1000 1
    (Reachable.allocate 1000 1 (Reachable.init (by decide)) (by decide) (by decide))
    (by decide)

end UploadBuffer

/-! ### DescriptorAllocation: claims C18, C19 and C20 -/

namespace DescriptorAllocation

theorem Free_of_isNull {σ : Type} (pageFree : Nat → DescriptorAllocation → σ → σ)
    (a : DescriptorAllocation) (s : σ) (h : a.IsNull = true) : a.Free pageFree s = (a, s) := by
  simp [Free, h]

theorem Free_of_page {σ : Type} (pageFree : Nat → DescriptorAllocation → σ → σ)
    (a : DescriptorAllocation) (s : σ) (page : Nat) (h : a.IsNull = false)
    (hp : a.m_Page = some page) :
    a.Free pageFree s = (⟨0, 0, 0, none⟩, pageFree page a s) := by
  simp [Free, h, hp]

theorem Free_of_no_page {σ : Type} (pageFree : Nat → DescriptorAllocation → σ → σ)
    (a : DescriptorAllocation) (s : σ) (hp : a.m_Page = none) : a.Free pageFree s = (a, s) := by
  unfold Free
  split
  · rw [hp]
  · rfl

theorem GetDescriptorHandle_exact (a : DescriptorAllocation) (offset : Nat)
    (h : offset < a.m_NumHandles) (h32 : a.m_DescriptorSize * offset < WORD32)
    (h64 : a.m_Descriptor + a.m_DescriptorSize * offset < WORD) :
    a.GetDescriptorHandle offset = some (a.m_Descriptor + a.m_DescriptorSize * offset) := by
  simp [GetDescriptorHandle, h, Nat.mod_eq_of_lt h32, Nat.mod_eq_of_lt h64]

theorem GetDescriptorHandle_of_le (a : DescriptorAllocation) (offset : Nat)
    (h : a.m_NumHandles ≤ offset) : a.GetDescriptorHandle offset = none := by
  simp [GetDescriptorHandle, Nat.not_lt.mpr h]

/-- C20, the code at the failing input: for the allocation with base address 4096, stride
65536 and 65537 handles, the product `65536 * 65536` of the two `uint32_t` values wraps around
to 0, so `GetDescriptorHandle(65536)` returns 4096, the address that `GetDescriptorHandle(0)`
returns, and not `4096 + 65536 * 65536`. -/
theorem GetDescriptorHandle_product_wraps :
    (⟨4096, 65537, 65536, some 0⟩ : DescriptorAllocation).GetDescriptorHandle 65536 = some 4096 ∧
    (⟨4096, 65537, 65536, some 0⟩ : DescriptorAllocation).GetDescriptorHandle 0 = some 4096 ∧
    4096 + 65536 * 65536 ≠ 4096 ∧ 4096 + 65536 * 65536 < WORD := by
  decide

end DescriptorAllocation

namespace HandleWorld

theorem sum_map_set {α : Type} (f : α → Nat) (l : List α) (i : Nat) (a b : α)
    (h : l[i]? = some a) : ((l.set i b).map f).sum + f a = (l.map f).sum + f b := by
  induction l generalizing i with
  | nil => simp at h
  | cons x l ih =>
    cases i with
    | zero =>
      simp only [List.getElem?_cons_zero, Option.some.injEq] at h
      subst h
      simp only [List.set_cons_zero, List.map_cons, List.sum_cons]
      omega
    | succ i =>
      simp only [List.getElem?_cons_succ] at h
      have := ih i h
      simp only [List.set_cons_succ, List.map_cons, List.sum_cons]
      omega

theorem holds_of_isNull (v a : DescriptorAllocation) (h : a.IsNull = true) :
    holds v (some a) = 0 := by
  simp [holds, h]

theorem count_Free (v a : DescriptorAllocation) (log : List DescriptorAllocation) :
    (a.Free logFree log).2.count v = log.count v + holds v (some a) := by
  cases hn : a.IsNull with
  | true => rw [DescriptorAllocation.Free_of_isNull _ _ _ hn, holds_of_isNull v a hn]; rfl
  | false =>
    cases hp : a.m_Page with
    | none =>
      rw [DescriptorAllocation.Free_of_no_page _ _ _ hp]
      simp [holds, hp]
    | some page =>
      rw [DescriptorAllocation.Free_of_page _ _ _ page hn hp]
      simp only [logFree, List.count_append, List.count_singleton, holds, hn, hp,
        Option.isSome_some, and_true, beq_iff_eq]

theorem heldCount_append (v : DescriptorAllocation) (l₁ l₂ : List (Option DescriptorAllocation)) :
    heldCount v (l₁ ++ l₂) = heldCount v l₁ + heldCount v l₂ := by
  simp [heldCount, List.sum_append]

theorem heldCount_set (v : DescriptorAllocation) (l : List (Option DescriptorAllocation))
    (i : Nat) (a b : Option DescriptorAllocation) (h : l[i]? = some a) :
    heldCount v (l.set i b) + holds v a = heldCount v l + holds v b :=
  sum_map_set (holds v) l i a b h

theorem step_conserves (v : DescriptorAllocation) (w : HandleWorld) (op : HandleOp) :
    heldCount v (w.step op).objects + (w.step op).freed.count v =
      heldCount v w.objects + w.freed.count v := by
  cases op with
  | moveConstruct src =>
    simp only [step]
    split
    · rename_i a ha
      have h1 := heldCount_set v w.objects src (some a) (some a.moveConstruct.2) ha
      have h2 : holds v (some a.moveConstruct.2) = 0 := holds_of_isNull _ _ rfl
      have h3 : a.moveConstruct.1 = a := rfl
      simp only [heldCount_append, h3]
      have h4 : heldCount v [some a] = holds v (some a) := by simp [heldCount]
      omega
    · rfl
  | moveAssign dst src =>
    simp only [step]
    split
    · rename_i this other hd hs
      split
      · rename_i heq
        have h1 := heldCount_set v w.objects dst (some this)
          (some (this.moveAssignSelf logFree w.freed).1) hd
        have h2 : holds v (some (this.moveAssignSelf logFree w.freed).1) = 0 :=
          holds_of_isNull _ _ rfl
        have h3 := count_Free v this w.freed
        have h4 : (this.moveAssignSelf logFree w.freed).2 = (this.Free logFree w.freed).2 := rfl
        simp only [h4]
        omega
      · rename_i hne
        show heldCount v ((w.objects.set dst (some other)).set src (some ⟨0, 0, 0, none⟩)) +
          (this.Free logFree w.freed).2.count v = _
        have h1 := heldCount_set v w.objects dst (some this) (some other) hd
        have hs' : (w.objects.set dst (some other))[src]? = some (some other) := by
          rw [List.getElem?_set_ne hne]; exact hs
        have h2 := heldCount_set v _ src (some other) (some ⟨0, 0, 0, none⟩) hs'
        have h3 : holds v (some ⟨0, 0, 0, none⟩) = 0 := holds_of_isNull _ _ rfl
        have h5 := count_Free v this w.freed
        omega
    · rfl
  | destroy i =>
    simp only [step]
    split
    · rename_i a ha
      have h1 := heldCount_set v w.objects i (some a) none ha
      have h2 : holds v none = 0 := rfl
      have h3 := count_Free v a w.freed
      simp only
      omega
    · rfl

theorem run_conserves (v : DescriptorAllocation) (ops : List HandleOp) :
    ∀ w : HandleWorld, heldCount v (w.run ops).objects + (w.run ops).freed.count v =
      heldCount v w.objects + w.freed.count v := by
  induction ops with
  | nil => intro w; rfl
  | cons op ops ih => intro w; rw [run, ih, step_conserves]

theorem heldCount_eq_zero (v : DescriptorAllocation) (l : List (Option DescriptorAllocation))
    (h : ∀ o ∈ l, o = none) : heldCount v l = 0 := by
  induction l with
  | nil => rfl
  | cons o l ih =>
    have ho := h o (List.mem_cons_self _ _)
    subst ho
    have := ih (fun o ho => h o (List.mem_cons_of_mem _ ho))
    simp only [heldCount, List.map_cons, List.sum_cons] at this ⊢
    simp [holds, this]

end HandleWorld

/-- C18: move construction of `b` from `a` gives `b` the base descriptor, the handle count, the
descriptor stride and the page of `a`, leaves `a` null (descriptor 0, count 0, stride 0, no
page), and passes nothing to a page's `Free` (the log of those calls is unchanged); when `a`
was valid before, `b` is valid and `a` is not. -/
theorem DescriptorAllocation.moveConstruct_spec (a : DescriptorAllocation) :
    a.moveConstruct.1 = a ∧
    a.moveConstruct.2 = ⟨0, 0, 0, none⟩ ∧
    a.moveConstruct.2.IsNull = true ∧
    (a.IsNull = false → a.moveConstruct.1.IsNull = false ∧ a.moveConstruct.2.IsNull = true) ∧
    (∀ (w : HandleWorld) (src : Nat), w.objects[src]? = some (some a) →
      (w.step (.moveConstruct src)).freed = w.freed ∧
      (w.step (.moveConstruct src)).objects =
        w.objects.set src (some ⟨0, 0, 0, none⟩) ++ [some a]) := by
  refine ⟨rfl, rfl, rfl, fun h => ⟨h, rfl⟩, ?_⟩
  intro w src hsrc
  have h1 : w.step (.moveConstruct src) =
      ⟨w.objects.set src (some a.moveConstruct.2) ++ [some a.moveConstruct.1], w.freed⟩ := by
    simp only [HandleWorld.step, hsrc]
  rw [h1]
  exact ⟨rfl, rfl⟩

/-- C19, as amended: whatever sequence of move constructions, move assignments and
destructions is applied, the number of live objects that hold an allocated range `v` plus the
number of times `v` was handed to a page's `Free` does not change. So a range that one object
holds at the start and that was not freed is freed at most once, and exactly once when every
object has been destroyed. `Free` on a null handle does nothing; after `Free` a handle that has
a page or is null is null, and a handle that has no page is left as it is. -/
theorem HandleWorld.each_range_freed_once (w : HandleWorld) (ops : List HandleOp)
    (v : DescriptorAllocation) :
    (HandleWorld.heldCount v (w.run ops).objects + (w.run ops).freed.count v =
      HandleWorld.heldCount v w.objects + w.freed.count v) ∧
    (w.freed = [] → HandleWorld.heldCount v w.objects ≤ 1 → (w.run ops).freed.count v ≤ 1) ∧
    (w.freed = [] → (∀ o ∈ (w.run ops).objects, o = none) →
      (w.run ops).freed.count v = HandleWorld.heldCount v w.objects) ∧
    (∀ (a : DescriptorAllocation) (log : List DescriptorAllocation),
      (a.IsNull = true → a.Free HandleWorld.logFree log = (a, log)) ∧
      (a.m_Page.isSome = true ∨ a.IsNull = true →
        (a.Free HandleWorld.logFree log).1.IsNull = true) ∧
      (a.m_Page = none → a.Free HandleWorld.logFree log = (a, log))) := by
  have hc := HandleWorld.run_conserves v ops w
  refine ⟨hc, ?_, ?_, ?_⟩
  · intro hf hle
    rw [hf] at hc
    simp only [List.count_nil] at hc
    omega
  · intro hf hall
    rw [hf, HandleWorld.heldCount_eq_zero v _ hall] at hc
    simp only [List.count_nil] at hc
    omega
  · intro a log
    refine ⟨DescriptorAllocation.Free_of_isNull _ a log, ?_,
      DescriptorAllocation.Free_of_no_page _ a log⟩
    intro h
    cases hn : a.IsNull with
    | true => rw [DescriptorAllocation.Free_of_isNull _ a log hn]; exact hn
    | false =>
      rcases h with h | h
      · obtain ⟨page, hp⟩ := Option.isSome_iff_exists.mp h
        rw [DescriptorAllocation.Free_of_page _ a log page hn hp]
        rfl
      · rw [hn] at h; cases h

/-- C19, counterexample: a handle with a descriptor and no page (the four-argument constructor
builds it) is not null, `Free` leaves it as it is, and it is not null after `Free`. -/
theorem DescriptorAllocation.Free_without_page_not_null :
    (⟨4096, 1, 32, none⟩ : DescriptorAllocation).IsNull = false ∧
    (DescriptorAllocation.Free HandleWorld.logFree ⟨4096, 1, 32, none⟩ []).1.IsNull = false := by
  decide

/-! ### DescriptorAllocator: the available set and the pool (claims C11, C12 and C17) -/

namespace DescriptorAllocator

theorem mem_setInsert_self (i : Nat) (l : List Nat) : i ∈ setInsert i l := by
  induction l with
  | nil => simp [setInsert]
  | cons j rest ih =>
    unfold setInsert
    split
    · exact List.mem_cons_self _ _
    · split
      · rename_i h; rw [h]; exact List.mem_cons_self _ _
      · exact List.mem_cons_of_mem _ ih

theorem mem_setInsert_of_mem {a : Nat} (i : Nat) {l : List Nat} (h : a ∈ l) :
    a ∈ setInsert i l := by
  induction l with
  | nil => cases h
  | cons j rest ih =>
    unfold setInsert
    split
    · exact List.mem_cons_of_mem _ h
    · split
      · exact h
      · rcases List.mem_cons.mp h with h | h
        · rw [h]; exact List.mem_cons_self _ _
        · exact List.mem_cons_of_mem _ (ih h)

theorem mem_of_mem_setInsert {a i : Nat} {l : List Nat} (h : a ∈ setInsert i l) :
    a = i ∨ a ∈ l := by
  induction l with
  | nil => simp [setInsert] at h; exact Or.inl h
  | cons j rest ih =>
    unfold setInsert at h
    split at h
    · rcases List.mem_cons.mp h with h | h
      · exact Or.inl h
      · exact Or.inr h
    · split at h
      · exact Or.inr h
      · rcases List.mem_cons.mp h with h | h
        · exact Or.inr (h ▸ List.mem_cons_self _ _)
        · rcases ih h with h | h
          · exact Or.inl h
          · exact Or.inr (List.mem_cons_of_mem _ h)

end DescriptorAllocator

namespace DescriptorAllocatorPage

theorem takeBlock_sum {count : Nat} {freeList freeList' : List (Nat × Nat)} {offset : Nat}
    (h : takeBlock count freeList = some (offset, freeList')) :
    (freeList'.map (fun b => b.2)).sum + count = (freeList.map (fun b => b.2)).sum := by
  induction freeList generalizing freeList' offset with
  | nil => simp [takeBlock] at h
  | cons b rest ih =>
    obtain ⟨o, s⟩ := b
    unfold takeBlock at h
    split at h
    · rename_i hle
      simp only [Option.some.injEq, Prod.mk.injEq] at h
      obtain ⟨-, rfl⟩ := h
      split
      · rename_i heq
        simp only [List.map_cons, List.sum_cons]
        omega
      · simp only [List.map_cons, List.sum_cons]
        omega
    · cases hr : takeBlock count rest with
      | none => simp [hr] at h
      | some r =>
        obtain ⟨o', fl⟩ := r
        simp only [hr, Option.some.injEq, Prod.mk.injEq] at h
        obtain ⟨-, rfl⟩ := h
        have := ih hr
        simp only [List.map_cons, List.sum_cons]
        omega

theorem Allocate_NumFreeHandles_le (page : DescriptorAllocatorPage) (self n : Nat) :
    (page.Allocate self n).2.NumFreeHandles ≤ page.NumFreeHandles := by
  unfold Allocate
  cases h : takeBlock n page.m_FreeList with
  | none => exact Nat.le_refl _
  | some r =>
    obtain ⟨o, fl⟩ := r
    have := takeBlock_sum h
    simp only [NumFreeHandles]
    omega

theorem Allocate_capacity (page : DescriptorAllocatorPage) (self n : Nat) :
    (page.Allocate self n).2.m_NumDescriptorsInHeap = page.m_NumDescriptorsInHeap := by
  unfold Allocate
  cases takeBlock n page.m_FreeList with
  | none => rfl
  | some r => rfl

end DescriptorAllocatorPage

namespace DescriptorAllocator

theorem scan_cons_eq (n i : Nat) (rest : List Nat) (pool : List DescriptorAllocatorPage) :
    Allocate.scan n (i :: rest) pool =
      match pool[i]? with
      | none =>
        ((Allocate.scan n rest pool).1, i :: (Allocate.scan n rest pool).2.1,
          (Allocate.scan n rest pool).2.2)
      | some allocatorPage =>
        if (allocatorPage.Allocate i n).2.NumFreeHandles = 0 then
          if !(allocatorPage.Allocate i n).1.IsNull then
            ((allocatorPage.Allocate i n).1, rest, pool.set i (allocatorPage.Allocate i n).2)
          else Allocate.scan n rest (pool.set i (allocatorPage.Allocate i n).2)
        else
          if !(allocatorPage.Allocate i n).1.IsNull then
            ((allocatorPage.Allocate i n).1, i :: rest, pool.set i (allocatorPage.Allocate i n).2)
          else
            ((Allocate.scan n rest (pool.set i (allocatorPage.Allocate i n).2)).1,
              i :: (Allocate.scan n rest (pool.set i (allocatorPage.Allocate i n).2)).2.1,
              (Allocate.scan n rest (pool.set i (allocatorPage.Allocate i n).2)).2.2) := by
  rw [Allocate.scan]

theorem scan_length (n : Nat) (available : List Nat) :
    ∀ pool, (Allocate.scan n available pool).2.2.length = pool.length := by
  induction available with
  | nil => intro pool; rfl
  | cons i rest ih =>
    intro pool
    rw [scan_cons_eq]
    split
    · exact ih pool
    · split
      · split
        · simp
        · rw [ih]; simp
      · split
        · simp
        · rw [ih]; simp

theorem scan_zero_stays (n : Nat) (available : List Nat) :
    ∀ (pool : List DescriptorAllocatorPage) (j : Nat) (page : DescriptorAllocatorPage),
      pool[j]? = some page → page.NumFreeHandles = 0 →
      ∃ page', (Allocate.scan n available pool).2.2[j]? = some page' ∧
        page'.NumFreeHandles = 0 := by
  induction available with
  | nil => intro pool j page hj hz; exact ⟨page, hj, hz⟩
  | cons i rest ih =>
    intro pool j page hj hz
    rw [scan_cons_eq]
    have hset : ∀ pg : DescriptorAllocatorPage, pool[i]? = some pg →
        ∃ page', (pool.set i (pg.Allocate i n).2)[j]? = some page' ∧
          page'.NumFreeHandles = 0 := by
      intro pg hpg
      by_cases hij : i = j
      · subst hij
        rw [hj] at hpg
        obtain rfl := Option.some.inj hpg
        have hlt : i < pool.length := by
          by_contra hn
          rw [List.getElem?_eq_none (Nat.not_lt.mp hn)] at hj
          cases hj
        refine ⟨(page.Allocate i n).2, by simp [List.getElem?_set, hlt], ?_⟩
        have := DescriptorAllocatorPage.Allocate_NumFreeHandles_le page i n
        omega
      · exact ⟨page, by rw [List.getElem?_set_ne hij]; exact hj, hz⟩
    split
    · exact ih pool j page hj hz
    · rename_i pg hpg
      obtain ⟨page', hj', hz'⟩ := hset pg hpg
      split
      · split
        · exact ⟨page', hj', hz'⟩
        · exact ih _ j page' hj' hz'
      · split
        · exact ⟨page', hj', hz'⟩
        · exact ih _ j page' hj' hz'

theorem scan_erased (n : Nat) (available : List Nat) :
    ∀ (pool : List DescriptorAllocatorPage) (j : Nat), j ∈ available →
      j ∉ (Allocate.scan n available pool).2.1 →
      ∃ page, (Allocate.scan n available pool).2.2[j]? = some page ∧
        page.NumFreeHandles = 0 := by
  induction available with
  | nil => intro pool j hj; cases hj
  | cons i rest ih =>
    intro pool j hj
    rw [scan_cons_eq]
    split
    · intro hnot
      have hne : j ≠ i := fun h => hnot (h ▸ List.mem_cons_self _ _)
      have hrest : j ∈ rest := (List.mem_cons.mp hj).resolve_left hne
      exact ih pool j hrest (fun h => hnot (List.mem_cons_of_mem _ h))
    · rename_i pg hpg
      have hlt : i < pool.length := by
        by_contra hn
        rw [List.getElem?_eq_none (Nat.not_lt.mp hn)] at hpg
        cases hpg
      have hself : (pool.set i (pg.Allocate i n).2)[i]? = some (pg.Allocate i n).2 := by
        simp [List.getElem?_set, hlt]
      split
      · rename_i hzero
        split
        · intro hnot
          by_cases hji : j = i
          · subst hji; exact ⟨_, hself, hzero⟩
          · exact absurd ((List.mem_cons.mp hj).resolve_left hji) hnot
        · intro hnot
          by_cases hrest : j ∈ rest
          · exact ih _ j hrest hnot
          · have hji : j = i := (List.mem_cons.mp hj).resolve_right hrest
            subst hji
            exact scan_zero_stays n rest _ j _ hself hzero
      · split
        · intro hnot
          exact absurd hj hnot
        · intro hnot
          have hne : j ≠ i := fun h => hnot (h ▸ List.mem_cons_self _ _)
          have hrest : j ∈ rest := (List.mem_cons.mp hj).resolve_left hne
          exact ih _ j hrest (fun h => hnot (List.mem_cons_of_mem _ h))

theorem scan_nil_pool (n : Nat) (available : List Nat) :
    Allocate.scan n available [] = (DescriptorAllocation.null, available, []) := by
  induction available with
  | nil => rfl
  | cons i rest ih => rw [scan_cons_eq]; simp [ih]

theorem loop_available (completedFence : Nat) (pool : List DescriptorAllocatorPage) :
    ∀ (i : Nat) (available : List Nat),
      (∀ a ∈ available, a ∈ (ReleaseStaleDescriptors.loop completedFence i pool available).2) ∧
      (∀ (j : Nat) (page : DescriptorAllocatorPage),
        (ReleaseStaleDescriptors.loop completedFence i pool available).1[j]? = some page →
        0 < page.NumFreeHandles →
        i + j ∈ (ReleaseStaleDescriptors.loop completedFence i pool available).2) := by
  induction pool with
  | nil =>
    intro i available
    exact ⟨fun a ha => ha, fun j page h => by simp [ReleaseStaleDescriptors.loop] at h⟩
  | cons pg rest ih =>
    intro i available
    simp only [ReleaseStaleDescriptors.loop]
    constructor
    · intro a ha
      apply (ih (i + 1) _).1
      split
      · exact mem_setInsert_of_mem i ha
      · exact ha
    · intro j page hj hpos
      cases j with
      | zero =>
        simp only [List.getElem?_cons_zero, Option.some.injEq] at hj
        apply (ih (i + 1) _).1
        rw [hj, if_pos hpos]
        exact mem_setInsert_self i available
      | succ j =>
        simp only [List.getElem?_cons_succ] at hj
        have := (ih (i + 1) _).2 j page hj hpos
        rw [show i + (j + 1) = i + 1 + j by omega]
        exact this

/-- C11: for every allocator and every count, when the scan of the available pages ends with a
null allocation, `Allocate` appends exactly one new page to the pool; the capacity of that page
is the maximum of the descriptors per heap and the count, hence at least the count; the index
of the page is put in the available set; the descriptors per heap become that maximum; and
the allocation returned is the one the new page makes. -/
theorem Allocate_creates_page (dev : DescriptorDevice) (da : DescriptorAllocator) (n : Nat)
    (h : (Allocate.scan n da.m_AvailableHeaps da.m_HeapPool).1.IsNull = true) :
    (da.Allocate dev n).1 =
      ((DescriptorAllocatorPage.new dev da.m_HeapPool.length
        (max da.m_NumDescriptorsPerHeap n)).Allocate da.m_HeapPool.length n).1 ∧
    (da.Allocate dev n).2.m_HeapPool =
      (Allocate.scan n da.m_AvailableHeaps da.m_HeapPool).2.2 ++
        [((DescriptorAllocatorPage.new dev da.m_HeapPool.length
          (max da.m_NumDescriptorsPerHeap n)).Allocate da.m_HeapPool.length n).2] ∧
    (da.Allocate dev n).2.m_HeapPool.length = da.m_HeapPool.length + 1 ∧
    ((DescriptorAllocatorPage.new dev da.m_HeapPool.length
        (max da.m_NumDescriptorsPerHeap n)).Allocate da.m_HeapPool.length n).2.m_NumDescriptorsInHeap
      = max da.m_NumDescriptorsPerHeap n ∧
    n ≤ max da.m_NumDescriptorsPerHeap n ∧
    da.m_HeapPool.length ∈ (da.Allocate dev n).2.m_AvailableHeaps ∧
    (da.Allocate dev n).2.m_NumDescriptorsPerHeap = max da.m_NumDescriptorsPerHeap n := by
  have hlen := scan_length n da.m_AvailableHeaps da.m_HeapPool
  have hA : da.Allocate dev n =
      (((DescriptorAllocatorPage.new dev da.m_HeapPool.length
          (max da.m_NumDescriptorsPerHeap n)).Allocate da.m_HeapPool.length n).1,
        { m_NumDescriptorsPerHeap := max da.m_NumDescriptorsPerHeap n,
          m_HeapPool := (Allocate.scan n da.m_AvailableHeaps da.m_HeapPool).2.2 ++
            [((DescriptorAllocatorPage.new dev da.m_HeapPool.length
              (max da.m_NumDescriptorsPerHeap n)).Allocate da.m_HeapPool.length n).2],
          m_AvailableHeaps := setInsert da.m_HeapPool.length
            (Allocate.scan n da.m_AvailableHeaps da.m_HeapPool).2.1 }) := by
    simp only [Allocate, h, if_true, hlen]
  rw [hA]
  refine ⟨rfl, rfl, by simp [hlen], ?_, Nat.le_max_right _ _, mem_setInsert_self _ _, rfl⟩
  rw [DescriptorAllocatorPage.Allocate_capacity]
  rfl

theorem Allocate_creates_page_witness :
    ((DescriptorAllocator.new 256).Allocate exampleDescriptorDevice 10).1 =
      ((DescriptorAllocatorPage.new exampleDescriptorDevice 0 (max 256 10)).Allocate 0 10).1 ∧
    ((DescriptorAllocator.new 256).Allocate exampleDescriptorDevice 10).2.m_HeapPool =
      (Allocate.scan 10 [] []).2.2 ++
        [((DescriptorAllocatorPage.new exampleDescriptorDevice 0 (max 256 10)).Allocate 0 10).2] ∧
    ((DescriptorAllocator.new 256).Allocate exampleDescriptorDevice 10).2.m_HeapPool.length
      = 0 + 1 ∧
    ((DescriptorAllocatorPage.new exampleDescriptorDevice 0
        (max 256 10)).Allocate 0 10).2.m_NumDescriptorsInHeap = max 256 10 ∧
    10 ≤ max 256 10 ∧
    0 ∈ ((DescriptorAllocator.new 256).Allocate exampleDescriptorDevice 10).2.m_AvailableHeaps ∧
    ((DescriptorAllocator.new 256).Allocate exampleDescriptorDevice 10).2.m_NumDescriptorsPerHeap
      = max 256 10 :=
  Allocate_creates_page exampleDescriptorDevice (DescriptorAllocator.new 256) 10 rfl

/-- C17: after `ReleaseStaleDescriptors` the available set holds the index of every page of the
pool that has a free descriptor; and an index that `Allocate` removes from the available set is
the index of a page whose number of free descriptors is 0 after the call. -/
theorem available_set_spec (dev : DescriptorDevice) (da : DescriptorAllocator)
    (completedFence n : Nat) :
    (∀ (i : Nat) (page : DescriptorAllocatorPage),
      (da.ReleaseStaleDescriptors completedFence).m_HeapPool[i]? = some page →
      0 < page.NumFreeHandles →
      i ∈ (da.ReleaseStaleDescriptors completedFence).m_AvailableHeaps) ∧
    (∀ i, i ∈ da.m_AvailableHeaps → i ∉ (da.Allocate dev n).2.m_AvailableHeaps →
      ∃ page, (da.Allocate dev n).2.m_HeapPool[i]? = some page ∧ page.NumFreeHandles = 0) := by
  constructor
  · intro i page hi hpos
    have := (loop_available completedFence da.m_HeapPool 0 da.m_AvailableHeaps).2 i page hi hpos
    rw [Nat.zero_add] at this
    exact this
  · intro i hi hnot
    by_cases hnull : (Allocate.scan n da.m_AvailableHeaps da.m_HeapPool).1.IsNull = true
    · have hins : i ∉ (Allocate.scan n da.m_AvailableHeaps da.m_HeapPool).2.1 := by
        intro hmem
        apply hnot
        simp only [Allocate, hnull, if_true]
        exact mem_setInsert_of_mem _ hmem
      obtain ⟨page, hp, hz⟩ := scan_erased n da.m_AvailableHeaps da.m_HeapPool i hi hins
      refine ⟨page, ?_, hz⟩
      have hlt : i < (Allocate.scan n da.m_AvailableHeaps da.m_HeapPool).2.2.length := by
        by_contra hn
        rw [List.getElem?_eq_none (Nat.not_lt.mp hn)] at hp
        cases hp
      simp only [Allocate, hnull, if_true]
      rw [List.getElem?_append_left hlt]
      exact hp
    · have hA : da.Allocate dev n =
          ((Allocate.scan n da.m_AvailableHeaps da.m_HeapPool).1,
            { da with m_HeapPool := (Allocate.scan n da.m_AvailableHeaps da.m_HeapPool).2.2,
                      m_AvailableHeaps :=
                        (Allocate.scan n da.m_AvailableHeaps da.m_HeapPool).2.1 }) := by
        simp only [Allocate, hnull]
        rfl
      rw [hA] at hnot ⊢
      exact scan_erased n da.m_AvailableHeaps da.m_HeapPool i hi hnot

end DescriptorAllocator

/-! ### DescriptorAllocatorPage: free blocks and the indices they contain -/

namespace DescriptorSystem

theorem ind_eq (o n x : Nat) : ind (o, n) x = if o ≤ x ∧ x < o + n then 1 else 0 := by
  simp [ind, covers]

theorem ind_merge (o s n x : Nat) : ind (o, s + n) x = ind (o, s) x + ind (o + s, n) x := by
  simp only [ind_eq]
  split_ifs <;> omega

theorem ind_le_one (r : Nat × Nat) (x : Nat) : ind r x ≤ 1 := by
  unfold ind
  split <;> omega

theorem coverCount_cons (r : Nat × Nat) (rs : List (Nat × Nat)) (x : Nat) :
    coverCount (r :: rs) x = ind r x + coverCount rs x := by
  simp [coverCount]

theorem coverCount_append (rs₁ rs₂ : List (Nat × Nat)) (x : Nat) :
    coverCount (rs₁ ++ rs₂) x = coverCount rs₁ x + coverCount rs₂ x := by
  simp [coverCount, List.sum_append]

theorem coverCount_takeBlock {count offset : Nat} {freeList freeList' : List (Nat × Nat)}
    (h : DescriptorAllocatorPage.takeBlock count freeList = some (offset, freeList')) (x : Nat) :
    coverCount freeList' x + ind (offset, count) x = coverCount freeList x := by
  induction freeList generalizing freeList' offset with
  | nil => simp [DescriptorAllocatorPage.takeBlock] at h
  | cons b rest ih =>
    obtain ⟨o, s⟩ := b
    unfold DescriptorAllocatorPage.takeBlock at h
    split at h
    · rename_i hle
      simp only [Option.some.injEq, Prod.mk.injEq] at h
      obtain ⟨rfl, rfl⟩ := h
      have hm := ind_merge o count (s - count) x
      rw [show count + (s - count) = s by omega] at hm
      split
      · rename_i heq
        subst heq
        rw [coverCount_cons]
        omega
      · simp only [coverCount_cons]
        omega
    · cases hr : DescriptorAllocatorPage.takeBlock count rest with
      | none => simp [hr] at h
      | some r =>
        obtain ⟨o', fl⟩ := r
        simp only [hr, Option.some.injEq, Prod.mk.injEq] at h
        obtain ⟨rfl, rfl⟩ := h
        have := ih hr
        simp only [coverCount_cons]
        omega

theorem coverCount_freeBlockAux (offset size : Nat) (freeList : List (Nat × Nat)) (x : Nat) :
    coverCount (DescriptorAllocatorPage.freeBlockAux offset size freeList) x =
      coverCount freeList x + ind (offset, size) x := by
  induction freeList generalizing offset size with
  | nil => simp [DescriptorAllocatorPage.freeBlockAux, coverCount]
  | cons b rest ih =>
    obtain ⟨o, s⟩ := b
    unfold DescriptorAllocatorPage.freeBlockAux
    split
    · simp only [coverCount_cons, ih]; omega
    · split
      · rename_i heq
        simp only [ih, coverCount_cons, ind_merge, heq]; omega
      · split
        · rename_i heq
          simp only [coverCount_cons, ind_merge, heq]; omega
        · simp only [coverCount_cons]; omega

theorem coverCount_FreeBlock (offset size : Nat) (freeList : List (Nat × Nat)) (x : Nat) :
    coverCount (DescriptorAllocatorPage.FreeBlock offset size freeList) x =
      coverCount freeList x + ind (offset, size) x := by
  unfold DescriptorAllocatorPage.FreeBlock
  split
  · rename_i h
    subst h
    have : ind (offset, 0) x = 0 := by rw [ind_eq]; split_ifs <;> omega
    omega
  · exact coverCount_freeBlockAux offset size freeList x

theorem NormalFrom.mono {lo lo' : Nat} {freeList : List (Nat × Nat)}
    (h : NormalFrom lo freeList) (hle : lo' ≤ lo) : NormalFrom lo' freeList := by
  cases freeList with
  | nil => trivial
  | cons b rest =>
    obtain ⟨o, s⟩ := b
    exact ⟨Nat.le_trans hle h.1, h.2.1, h.2.2⟩

theorem NormalFrom.coverCount_eq_zero {lo : Nat} {freeList : List (Nat × Nat)}
    (h : NormalFrom lo freeList) {x : Nat} (hx : x < lo) : coverCount freeList x = 0 := by
  induction freeList generalizing lo with
  | nil => rfl
  | cons b rest ih =>
    obtain ⟨o, s⟩ := b
    obtain ⟨h1, h2, h3⟩ := h
    rw [coverCount_cons, ih h3 (by omega), ind_eq]
    split_ifs <;> omega

theorem NormalFrom.takeBlock {count offset lo : Nat} {freeList freeList' : List (Nat × Nat)}
    (hn : NormalFrom lo freeList)
    (h : DescriptorAllocatorPage.takeBlock count freeList = some (offset, freeList')) :
    NormalFrom lo freeList' := by
  induction freeList generalizing freeList' offset lo with
  | nil => simp [DescriptorAllocatorPage.takeBlock] at h
  | cons b rest ih =>
    obtain ⟨o, s⟩ := b
    obtain ⟨h1, h2, h3⟩ := hn
    unfold DescriptorAllocatorPage.takeBlock at h
    split at h
    · rename_i hle
      simp only [Option.some.injEq, Prod.mk.injEq] at h
      obtain ⟨-, rfl⟩ := h
      split
      · exact h3.mono (by omega)
      · refine ⟨by omega, by omega, ?_⟩
        rw [show o + count + (s - count) + 1 = o + s + 1 by omega]
        exact h3
    · cases hr : DescriptorAllocatorPage.takeBlock count rest with
      | none => simp [hr] at h
      | some r =>
        obtain ⟨o', fl⟩ := r
        simp only [hr, Option.some.injEq, Prod.mk.injEq] at h
        obtain ⟨-, rfl⟩ := h
        exact ⟨h1, h2, ih h3 hr⟩

theorem NormalFrom.freeBlockAux {lo offset size : Nat} {freeList : List (Nat × Nat)}
    (hn : NormalFrom lo freeList) (hlo : lo ≤ offset) (hsize : 0 < size)
    (hfree : ∀ x, offset ≤ x → x < offset + size → coverCount freeList x = 0) :
    NormalFrom lo (DescriptorAllocatorPage.freeBlockAux offset size freeList) := by
  induction freeList generalizing lo offset size with
  | nil => exact ⟨hlo, hsize, trivial⟩
  | cons b rest ih =>
    obtain ⟨o, s⟩ := b
    obtain ⟨h1, h2, h3⟩ := hn
    have hrest : ∀ x, offset ≤ x → x < offset + size → coverCount rest x = 0 := by
      intro x hx1 hx2
      have := hfree x hx1 hx2
      rw [coverCount_cons] at this
      omega
    have hblock : ∀ x, offset ≤ x → x < offset + size → ¬ (o ≤ x ∧ x < o + s) := by
      intro x hx1 hx2 hx
      have := hfree x hx1 hx2
      rw [coverCount_cons, ind_eq, if_pos hx] at this
      omega
    unfold DescriptorAllocatorPage.freeBlockAux
    split
    · rename_i hlt
      exact ⟨h1, h2, ih h3 (by omega) hsize hrest⟩
    · split
      · rename_i heq
        apply ih (h3.mono (by omega)) h1 (by omega)
        intro x hx1 hx2
        by_cases hx : x < offset
        · exact h3.coverCount_eq_zero (by omega)
        · exact hrest x (by omega) (by omega)
      · rename_i hnlt hne
        have hafter : offset + size ≤ o := by
          by_contra hcon
          by_cases ho : offset ≤ o
          · exact hblock o ho (by omega) ⟨Nat.le_refl _, by omega⟩
          · exact hblock offset (Nat.le_refl _) (by omega) ⟨by omega, by omega⟩
        split
        · rename_i heq
          refine ⟨hlo, by omega, ?_⟩
          rw [show offset + (size + s) + 1 = o + s + 1 by omega]
          exact h3
        · exact ⟨hlo, hsize, by omega, h2, h3⟩

theorem exists_block_freeBlockAux_self (offset size : Nat) (freeList : List (Nat × Nat)) :
    ∃ b ∈ DescriptorAllocatorPage.freeBlockAux offset size freeList,
      b.1 ≤ offset ∧ offset + size ≤ b.1 + b.2 := by
  induction freeList generalizing offset size with
  | nil => exact ⟨(offset, size), List.mem_singleton.mpr rfl, Nat.le_refl _, Nat.le_refl _⟩
  | cons b rest ih =>
    obtain ⟨o, s⟩ := b
    unfold DescriptorAllocatorPage.freeBlockAux
    split
    · obtain ⟨b, hb, h1, h2⟩ := ih offset size
      exact ⟨b, List.mem_cons_of_mem _ hb, h1, h2⟩
    · split
      · rename_i heq
        obtain ⟨b, hb, h1, h2⟩ := ih o (s + size)
        exact ⟨b, hb, by omega, by omega⟩
      · split
        · exact ⟨_, List.mem_cons_self _ _, Nat.le_refl _, by simp only; omega⟩
        · exact ⟨_, List.mem_cons_self _ _, Nat.le_refl _, Nat.le_refl _⟩

theorem exists_block_freeBlockAux_of_mem (offset size : Nat) (freeList : List (Nat × Nat))
    (a c : Nat) (h : ∃ b ∈ freeList, b.1 ≤ a ∧ a + c ≤ b.1 + b.2) :
    ∃ b ∈ DescriptorAllocatorPage.freeBlockAux offset size freeList,
      b.1 ≤ a ∧ a + c ≤ b.1 + b.2 := by
  induction freeList generalizing offset size with
  | nil => obtain ⟨b, hb, -⟩ := h; cases hb
  | cons b rest ih =>
    obtain ⟨o, s⟩ := b
    obtain ⟨b', hb', hb1, hb2⟩ := h
    unfold DescriptorAllocatorPage.freeBlockAux
    rcases List.mem_cons.mp hb' with hhead | htail
    · subst hhead
      split
      · exact ⟨_, List.mem_cons_self _ _, hb1, hb2⟩
      · split
        · rename_i heq
          obtain ⟨b, hb, h1, h2⟩ := exists_block_freeBlockAux_self o (s + size) rest
          exact ⟨b, hb, by simp only at hb1 hb2; omega, by simp only at hb1 hb2; omega⟩
        · split
          · rename_i heq
            exact ⟨_, List.mem_cons_self _ _, by simp only at hb1 hb2 ⊢; omega,
              by simp only at hb1 hb2 ⊢; omega⟩
          · exact ⟨_, List.mem_cons_of_mem _ (List.mem_cons_self _ _), hb1, hb2⟩
    · split
      · obtain ⟨b, hb, h1, h2⟩ := ih offset size ⟨b', htail, hb1, hb2⟩
        exact ⟨b, List.mem_cons_of_mem _ hb, h1, h2⟩
      · split
        · exact ih o (s + size) ⟨b', htail, hb1, hb2⟩
        · split
          · exact ⟨b', List.mem_cons_of_mem _ htail, hb1, hb2⟩
          · exact ⟨b', List.mem_cons_of_mem _ (List.mem_cons_of_mem _ htail), hb1, hb2⟩

theorem takeBlock_isSome_of_mem (count : Nat) (freeList : List (Nat × Nat))
    (h : ∃ b ∈ freeList, count ≤ b.2) :
    ∃ r, DescriptorAllocatorPage.takeBlock count freeList = some r := by
  induction freeList with
  | nil => obtain ⟨b, hb, -⟩ := h; cases hb
  | cons b rest ih =>
    obtain ⟨o, s⟩ := b
    unfold DescriptorAllocatorPage.takeBlock
    split
    · exact ⟨_, rfl⟩
    · rename_i hnle
      obtain ⟨b', hb', hle⟩ := h
      rcases List.mem_cons.mp hb' with hhead | htail
      · subst hhead; exact absurd hle hnle
      · obtain ⟨r, hr⟩ := ih ⟨b', htail, hle⟩
        obtain ⟨o', fl⟩ := r
        exact ⟨_, by rw [hr]⟩

end DescriptorSystem

/-! ### DescriptorAllocator: what Allocate does to the pool -/

namespace DescriptorAllocator

theorem Page_Allocate_cases (pg : DescriptorAllocatorPage) (self n : Nat) :
    (DescriptorAllocatorPage.takeBlock n pg.m_FreeList = none ∧
      pg.Allocate self n = (DescriptorAllocation.null, pg)) ∨
    (∃ o fl, DescriptorAllocatorPage.takeBlock n pg.m_FreeList = some (o, fl) ∧
      pg.Allocate self n =
        (⟨pg.m_BaseDescriptor + o * pg.m_DescriptorHandleIncrementSize, n,
            pg.m_DescriptorHandleIncrementSize, some self⟩,
          { pg with m_FreeList := fl })) := by
  unfold DescriptorAllocatorPage.Allocate
  cases h : DescriptorAllocatorPage.takeBlock n pg.m_FreeList with
  | none => exact Or.inl ⟨rfl, rfl⟩
  | some r =>
    obtain ⟨o, fl⟩ := r
    exact Or.inr ⟨o, fl, rfl, rfl⟩

theorem set_getElem?_self {α : Type} (l : List α) (i : Nat) (a : α) (h : l[i]? = some a) :
    l.set i a = l := by
  induction l generalizing i with
  | nil => rfl
  | cons x l ih =>
    cases i with
    | zero =>
      simp only [List.getElem?_cons_zero, Option.some.injEq] at h
      rw [h]; rfl
    | succ i =>
      simp only [List.getElem?_cons_succ] at h
      simp only [List.set_cons_succ, ih i h]

theorem isNull_handle (base o stride n : Nat) (page : Option Nat) (hbase : 0 < base) :
    (⟨base + o * stride, n, stride, page⟩ : DescriptorAllocation).IsNull = false := by
  simp only [DescriptorAllocation.IsNull, beq_eq_false_iff_ne, ne_eq]
  omega

theorem scan_cases (n : Nat) (available : List Nat) :
    ∀ pool : List DescriptorAllocatorPage,
      (∀ (j : Nat) (pg : DescriptorAllocatorPage), pool[j]? = some pg →
        0 < pg.m_BaseDescriptor) →
      ((Allocate.scan n available pool).1 = DescriptorAllocation.null ∧
        (Allocate.scan n available pool).2.2 = pool) ∨
      (∃ i pg o fl, pool[i]? = some pg ∧
        DescriptorAllocatorPage.takeBlock n pg.m_FreeList = some (o, fl) ∧
        (Allocate.scan n available pool).1 =
          ⟨pg.m_BaseDescriptor + o * pg.m_DescriptorHandleIncrementSize, n,
            pg.m_DescriptorHandleIncrementSize, some i⟩ ∧
        (Allocate.scan n available pool).2.2 = pool.set i { pg with m_FreeList := fl }) := by
  induction available with
  | nil => intro pool _; exact Or.inl ⟨rfl, rfl⟩
  | cons i rest ih =>
    intro pool hbase
    rw [scan_cons_eq]
    split
    · exact ih pool hbase
    · rename_i pg hpg
      rcases Page_Allocate_cases pg i n with ⟨-, hA⟩ | ⟨o, fl, htake, hA⟩
      · rw [hA]
        have hnull : DescriptorAllocation.null.IsNull = true := rfl
        simp only [hnull, Bool.not_true, Bool.false_eq_true, if_false,
          set_getElem?_self pool i pg hpg]
        split
        · exact ih pool hbase
        · exact ih pool hbase
      · rw [hA]
        have hvalid := isNull_handle pg.m_BaseDescriptor o pg.m_DescriptorHandleIncrementSize n
          (some i) (hbase i pg hpg)
        simp only [hvalid, Bool.not_false, if_true]
        split
        · exact Or.inr ⟨i, pg, o, fl, hpg, htake, rfl, rfl⟩
        · exact Or.inr ⟨i, pg, o, fl, hpg, htake, rfl, rfl⟩

theorem Allocate_result (dev : DescriptorDevice) (da : DescriptorAllocator) (n : Nat)
    (hbase : ∀ (j : Nat) (pg : DescriptorAllocatorPage), da.m_HeapPool[j]? = some pg →
      0 < pg.m_BaseDescriptor) :
    (∃ i pg o fl, da.m_HeapPool[i]? = some pg ∧
      DescriptorAllocatorPage.takeBlock n pg.m_FreeList = some (o, fl) ∧
      (da.Allocate dev n).1 =
        ⟨pg.m_BaseDescriptor + o * pg.m_DescriptorHandleIncrementSize, n,
          pg.m_DescriptorHandleIncrementSize, some i⟩ ∧
      (da.Allocate dev n).2.m_HeapPool = da.m_HeapPool.set i { pg with m_FreeList := fl }) ∨
    ((da.Allocate dev n).1 =
        ((DescriptorAllocatorPage.new dev da.m_HeapPool.length
          (max da.m_NumDescriptorsPerHeap n)).Allocate da.m_HeapPool.length n).1 ∧
      (da.Allocate dev n).2.m_HeapPool = da.m_HeapPool ++
        [((DescriptorAllocatorPage.new dev da.m_HeapPool.length
          (max da.m_NumDescriptorsPerHeap n)).Allocate da.m_HeapPool.length n).2]) := by
  rcases scan_cases n da.m_AvailableHeaps da.m_HeapPool hbase with
    ⟨h1, h2⟩ | ⟨i, pg, o, fl, hpg, htake, h1, h2⟩
  · right
    have hnull : (Allocate.scan n da.m_AvailableHeaps da.m_HeapPool).1.IsNull = true := by
      rw [h1]; rfl
    simp only [Allocate, hnull, if_true, h2]
    exact ⟨trivial, trivial⟩
  · left
    have hvalid : (Allocate.scan n da.m_AvailableHeaps da.m_HeapPool).1.IsNull = false := by
      rw [h1]
      exact isNull_handle _ _ _ _ _ (hbase i pg hpg)
    refine ⟨i, pg, o, fl, hpg, htake, ?_, ?_⟩
    · simp only [Allocate, hvalid, Bool.false_eq_true, if_false]
      exact h1
    · simp only [Allocate, hvalid, Bool.false_eq_true, if_false]
      exact h2

theorem loop_pool (completedFence : Nat) (pool : List DescriptorAllocatorPage) :
    ∀ (i : Nat) (available : List Nat),
      (ReleaseStaleDescriptors.loop completedFence i pool available).1 =
        pool.map (fun pg => pg.ReleaseStaleDescriptors completedFence) := by
  induction pool with
  | nil => intro i available; rfl
  | cons pg rest ih =>
    intro i available
    simp only [ReleaseStaleDescriptors.loop, List.map_cons, ih]

end DescriptorAllocator

/-! ### DescriptorSystem: the invariant of the reachable states -/

namespace DescriptorSystem

theorem lt_length_of_getElem? {α : Type} {l : List α} {i : Nat} {a : α} (h : l[i]? = some a) :
    i < l.length := by
  by_contra hn
  rw [List.getElem?_eq_none (Nat.not_lt.mp hn)] at h
  cases h

theorem getElem?_set_same {α : Type} (l : List α) (i : Nat) (x y : α) (h : l[i]? = some x) :
    (l.set i y)[i]? = some y := by
  simp [List.getElem?_set, lt_length_of_getElem? h]

theorem owns_null (p : Nat) (pg : DescriptorAllocatorPage) (x : Nat) :
    owns p pg x DescriptorAllocation.null = false := by
  simp [owns, DescriptorAllocation.null, DescriptorAllocation.IsNull]

theorem owns_of_page_ne (p : Nat) (pg : DescriptorAllocatorPage) (x : Nat)
    (h : DescriptorAllocation) (hne : h.m_Page ≠ some p) : owns p pg x h = false := by
  simp [owns, hne]

theorem owns_congr (p : Nat) (pg pg' : DescriptorAllocatorPage) (x : Nat)
    (h : DescriptorAllocation) (hb : pg'.m_BaseDescriptor = pg.m_BaseDescriptor)
    (hs : pg'.m_DescriptorHandleIncrementSize = pg.m_DescriptorHandleIncrementSize) :
    owns p pg' x h = owns p pg x h := by
  simp [owns, rangeOf, DescriptorAllocatorPage.ComputeOffset, hb, hs]

theorem owns_handle (i : Nat) (pg : DescriptorAllocatorPage) (x o n : Nat)
    (hb : 0 < pg.m_BaseDescriptor) (hs : 0 < pg.m_DescriptorHandleIncrementSize) :
    (if owns i pg x ⟨pg.m_BaseDescriptor + o * pg.m_DescriptorHandleIncrementSize, n,
        pg.m_DescriptorHandleIncrementSize, some i⟩ then 1 else 0) = ind (o, n) x := by
  have hoff : (pg.m_BaseDescriptor + o * pg.m_DescriptorHandleIncrementSize
      - pg.m_BaseDescriptor) / pg.m_DescriptorHandleIncrementSize = o := by
    rw [Nat.add_sub_cancel_left, Nat.mul_div_cancel _ hs]
  have hv := DescriptorAllocator.isNull_handle pg.m_BaseDescriptor o
    pg.m_DescriptorHandleIncrementSize n (some i) hb
  simp only [owns, hv, rangeOf, DescriptorAllocatorPage.ComputeOffset, hoff, ind,
    Bool.not_false, beq_self_eq_true, Bool.true_and]

theorem ownerCount_append (p : Nat) (pg : DescriptorAllocatorPage) (x : Nat)
    (hs : List DescriptorAllocation) (h : DescriptorAllocation) :
    ownerCount p pg x (hs ++ [h]) = ownerCount p pg x hs + (if owns p pg x h then 1 else 0) := by
  simp [ownerCount, List.sum_append]

theorem ownerCount_congr (p : Nat) (pg pg' : DescriptorAllocatorPage) (x : Nat)
    (hs : List DescriptorAllocation) (hb : pg'.m_BaseDescriptor = pg.m_BaseDescriptor)
    (hst : pg'.m_DescriptorHandleIncrementSize = pg.m_DescriptorHandleIncrementSize) :
    ownerCount p pg' x hs = ownerCount p pg x hs := by
  unfold ownerCount
  congr 1
  apply List.map_congr_left
  intro h _
  rw [owns_congr p pg pg' x h hb hst]

theorem ownerCount_eq_zero (p : Nat) (pg : DescriptorAllocatorPage) (x : Nat)
    (hs : List DescriptorAllocation) (hne : ∀ h ∈ hs, h.m_Page ≠ some p) :
    ownerCount p pg x hs = 0 := by
  induction hs with
  | nil => rfl
  | cons h hs ih =>
    have h1 := owns_of_page_ne p pg x h (hne h (List.mem_cons_self _ _))
    have h2 := ih (fun h' hh' => hne h' (List.mem_cons_of_mem _ hh'))
    simp only [ownerCount, List.map_cons, List.sum_cons] at h2 ⊢
    simp [h1, h2]

theorem sum_map_eraseIdx {α : Type} (f : α → Nat) (l : List α) (i : Nat) (a : α)
    (h : l[i]? = some a) : ((l.eraseIdx i).map f).sum + f a = (l.map f).sum := by
  induction l generalizing i with
  | nil => simp at h
  | cons x l ih =>
    cases i with
    | zero =>
      simp only [List.getElem?_cons_zero, Option.some.injEq] at h
      subst h
      simp only [List.eraseIdx_cons_zero, List.map_cons, List.sum_cons]
      omega
    | succ i =>
      simp only [List.getElem?_cons_succ] at h
      have := ih i h
      simp only [List.eraseIdx_cons_succ, List.map_cons, List.sum_cons]
      omega

theorem ownerCount_eraseIdx (p : Nat) (pg : DescriptorAllocatorPage) (x : Nat)
    (hs : List DescriptorAllocation) (i : Nat) (h : DescriptorAllocation)
    (hi : hs[i]? = some h) :
    ownerCount p pg x (hs.eraseIdx i) + (if owns p pg x h then 1 else 0) =
      ownerCount p pg x hs :=
  sum_map_eraseIdx (fun h => if owns p pg x h then 1 else 0) hs i h hi

theorem coverCount_new (dev : DescriptorDevice) (i cap x : Nat) :
    coverCount (DescriptorAllocatorPage.new dev i cap).m_FreeList x =
      if x < cap then 1 else 0 := by
  simp only [DescriptorAllocatorPage.new]
  by_cases hcap : cap = 0
  · simp [hcap, coverCount]
  · simp only [hcap, if_false, coverCount_cons, ind_eq]
    simp [coverCount]

theorem normalFrom_new (dev : DescriptorDevice) (i cap : Nat) :
    NormalFrom 0 (DescriptorAllocatorPage.new dev i cap).m_FreeList := by
  simp only [DescriptorAllocatorPage.new]
  by_cases hcap : cap = 0
  · simp [hcap, NormalFrom]
  · simp only [hcap, if_false, NormalFrom]
    exact ⟨Nat.le_refl _, by omega, trivial⟩

theorem Inv.init (dev : DescriptorDevice) (numDescriptorsPerHeap : Nat) :
    Inv dev (DescriptorSystem.init numDescriptorsPerHeap) where
  page_ok := by intro p pg h; simp [DescriptorSystem.init, DescriptorAllocator.new] at h
  handle_ok := by intro h hh; simp [DescriptorSystem.init] at hh

theorem Inv.step_allocate {dev : DescriptorDevice} (hdev : WellBehaved dev) {s : DescriptorSystem}
    (inv : Inv dev s) (n : Nat) : Inv dev (s.step dev (.allocate n)) := by
  have hbase : ∀ (j : Nat) (pg : DescriptorAllocatorPage),
      s.allocator.m_HeapPool[j]? = some pg → 0 < pg.m_BaseDescriptor := by
    intro j pg hj
    rw [(inv.page_ok j pg hj).1]
    exact hdev.2 j
  show Inv dev ⟨(s.allocator.Allocate dev n).2,
    s.handles ++ [(s.allocator.Allocate dev n).1]⟩
  rcases DescriptorAllocator.Allocate_result dev s.allocator n hbase with
    ⟨i, pg, o, fl, hpg, htake, hh, hpool⟩ | ⟨hh, hpool⟩
  · obtain ⟨hb, hst, hnorm, hpart⟩ := inv.page_ok i pg hpg
    have hi := lt_length_of_getElem? hpg
    constructor
    · intro p pg' hp'
      simp only [hpool] at hp'
      by_cases hpi : p = i
      · subst hpi
        rw [getElem?_set_same _ _ _ _ hpg] at hp'
        obtain rfl := Option.some.inj hp'
        refine ⟨hb, hst, hnorm.takeBlock htake, ?_⟩
        intro x
        simp only [hh, ownerCount_append]
        rw [ownerCount_congr p pg { pg with m_FreeList := fl } x s.handles rfl rfl]
        have h1 := owns_handle p pg x o n (hbase p pg hpg) (by rw [hst]; exact hdev.1)
        rw [owns_congr p pg { pg with m_FreeList := fl } x _ rfl rfl, h1]
        have h2 := coverCount_takeBlock htake x
        have h3 := hpart x
        have h4 : staleRanges { pg with m_FreeList := fl } = staleRanges pg := rfl
        rw [h4]
        omega
      · rw [List.getElem?_set_ne (Ne.symm hpi)] at hp'
        obtain ⟨hb', hst', hnorm', hpart'⟩ := inv.page_ok p pg' hp'
        refine ⟨hb', hst', hnorm', ?_⟩
        intro x
        simp only [hh, ownerCount_append]
        rw [owns_of_page_ne p pg' x _ (by simp; exact Ne.symm hpi)]
        simpa using hpart' x
    · intro h hmem p hp
      simp only [hpool, List.length_set]
      rcases List.mem_append.mp hmem with hmem | hmem
      · exact inv.handle_ok h hmem p hp
      · simp only [List.mem_singleton] at hmem
        rw [hmem, hh] at hp
        simp only [Option.some.injEq] at hp
        omega
  · generalize hN : DescriptorAllocatorPage.new dev s.allocator.m_HeapPool.length
      (max s.allocator.m_NumDescriptorsPerHeap n) = N at hh hpool
    have hNb : N.m_BaseDescriptor =
        dev.GetCPUDescriptorHandleForHeapStart s.allocator.m_HeapPool.length := by
      rw [← hN]; rfl
    have hNs : N.m_DescriptorHandleIncrementSize = dev.GetDescriptorHandleIncrementSize := by
      rw [← hN]; rfl
    have hNn : NormalFrom 0 N.m_FreeList := by rw [← hN]; exact normalFrom_new _ _ _
    have hNc : ∀ x, coverCount N.m_FreeList x =
        if x < N.m_NumDescriptorsInHeap then 1 else 0 := by
      intro x; rw [← hN]; exact coverCount_new _ _ _ _
    have hNst : N.m_StaleDescriptors = [] := by rw [← hN]; rfl
    have hold : ∀ h ∈ s.handles, h.m_Page ≠ some s.allocator.m_HeapPool.length := by
      intro h hmem heq
      have := inv.handle_ok h hmem _ heq
      omega
    constructor
    · intro p pg' hp'
      simp only [hpool] at hp'
      by_cases hlt : p < s.allocator.m_HeapPool.length
      · rw [List.getElem?_append_left hlt] at hp'
        obtain ⟨hb', hst', hnorm', hpart'⟩ := inv.page_ok p pg' hp'
        refine ⟨hb', hst', hnorm', ?_⟩
        intro x
        simp only [hh, ownerCount_append]
        have hz : owns p pg' x (N.Allocate s.allocator.m_HeapPool.length n).1 = false := by
          rcases DescriptorAllocator.Page_Allocate_cases N s.allocator.m_HeapPool.length n with
            ⟨-, hA⟩ | ⟨o, fl, -, hA⟩
          · rw [hA]; exact owns_null _ _ _
          · rw [hA]
            apply owns_of_page_ne
            simp only [ne_eq, Option.some.injEq]
            omega
        rw [hz]
        simpa using hpart' x
      · rw [List.getElem?_append_right (Nat.not_lt.mp hlt)] at hp'
        have hp0 : p - s.allocator.m_HeapPool.length = 0 := by
          by_contra hne
          rw [List.getElem?_eq_none (by simp; omega)] at hp'
          cases hp'
        have hpe : p = s.allocator.m_HeapPool.length := by omega
        rw [hp0] at hp'
        simp only [List.getElem?_cons_zero, Option.some.injEq] at hp'
        subst hpe
        rcases DescriptorAllocator.Page_Allocate_cases N s.allocator.m_HeapPool.length n with
          ⟨-, hA⟩ | ⟨o, fl, htake, hA⟩
        · rw [hA] at hp' hh
          simp only at hp'
          subst hp'
          refine ⟨hNb, hNs, hNn, ?_⟩
          intro x
          simp only [hh, ownerCount_append, owns_null]
          rw [ownerCount_eq_zero _ _ _ _ hold, hNc x]
          simp [staleRanges, hNst, coverCount]
        · rw [hA] at hp' hh
          simp only at hp'
          subst hp'
          refine ⟨hNb, hNs, hNn.takeBlock htake, ?_⟩
          intro x
          simp only [hh, ownerCount_append]
          rw [ownerCount_eq_zero _ _ _ _ hold]
          have h1 := owns_handle s.allocator.m_HeapPool.length N x o n
            (by rw [hNb]; exact hdev.2 _) (by rw [hNs]; exact hdev.1)
          rw [owns_congr _ N { N with m_FreeList := fl } x _ rfl rfl, h1]
          have h2 := coverCount_takeBlock htake x
          have h3 := hNc x
          have h4 : coverCount (staleRanges { N with m_FreeList := fl }) x = 0 := by
            simp [staleRanges, hNst, coverCount]
          rw [h4]
          omega
    · intro h hmem p hp
      simp only [hpool, List.length_append, List.length_singleton]
      rcases List.mem_append.mp hmem with hmem | hmem
      · have := inv.handle_ok h hmem p hp
        omega
      · simp only [List.mem_singleton] at hmem
        rw [hmem, hh] at hp
        rcases DescriptorAllocator.Page_Allocate_cases N s.allocator.m_HeapPool.length n with
          ⟨-, hA⟩ | ⟨o, fl, -, hA⟩
        · rw [hA] at hp; cases hp
        · rw [hA] at hp
          simp only [Option.some.injEq] at hp
          omega

end DescriptorSystem

namespace DescriptorSystem

theorem owns_of_isNull (p : Nat) (pg : DescriptorAllocatorPage) (x : Nat)
    (h : DescriptorAllocation) (hn : h.IsNull = true) : owns p pg x h = false := by
  simp [owns, hn]

theorem owns_of_valid (p : Nat) (pg : DescriptorAllocatorPage) (x : Nat)
    (h : DescriptorAllocation) (hn : h.IsNull = false) (hp : h.m_Page = some p) :
    (if owns p pg x h then 1 else 0) = ind (rangeOf pg h) x := by
  simp [owns, hn, hp, ind]

theorem fold_cover (entries : List (Nat × Nat × Nat)) (x : Nat) :
    ∀ freeList : List (Nat × Nat),
      coverCount (entries.foldl
        (fun freeList e => DescriptorAllocatorPage.FreeBlock e.2.1 e.2.2 freeList) freeList) x =
      coverCount freeList x + coverCount (entries.map (fun e => e.2)) x := by
  induction entries with
  | nil => intro freeList; simp [coverCount]
  | cons e entries ih =>
    intro freeList
    obtain ⟨t, o, n⟩ := e
    simp only [List.foldl_cons, List.map_cons, ih, coverCount_FreeBlock, coverCount_cons]
    omega

theorem filter_cover (entries : List (Nat × Nat × Nat)) (keep : Nat × Nat × Nat → Bool)
    (x : Nat) :
    coverCount ((entries.filter keep).map (fun e => e.2)) x +
      coverCount ((entries.filter (fun e => !keep e)).map (fun e => e.2)) x =
      coverCount (entries.map (fun e => e.2)) x := by
  induction entries with
  | nil => rfl
  | cons e entries ih =>
    cases hk : keep e with
    | true =>
      simp only [List.filter_cons, hk, if_true, Bool.not_true, Bool.false_eq_true, if_false,
        List.map_cons, coverCount_cons]
      omega
    | false =>
      simp only [List.filter_cons, hk, if_true, Bool.not_false, Bool.false_eq_true, if_false,
        List.map_cons, coverCount_cons]
      omega

theorem NormalFrom.FreeBlock {offset size : Nat} {freeList : List (Nat × Nat)}
    (hn : NormalFrom 0 freeList)
    (hfree : ∀ x, coverCount freeList x + ind (offset, size) x ≤ 1) :
    NormalFrom 0 (DescriptorAllocatorPage.FreeBlock offset size freeList) := by
  unfold DescriptorAllocatorPage.FreeBlock
  split
  · exact hn
  · rename_i hsize
    apply hn.freeBlockAux (Nat.zero_le _) (by omega)
    intro x hx1 hx2
    have := hfree x
    rw [ind_eq, if_pos ⟨hx1, hx2⟩] at this
    omega

theorem fold_normal (entries : List (Nat × Nat × Nat)) :
    ∀ freeList : List (Nat × Nat), NormalFrom 0 freeList →
      (∀ x, coverCount freeList x + coverCount (entries.map (fun e => e.2)) x ≤ 1) →
      NormalFrom 0 (entries.foldl
        (fun freeList e => DescriptorAllocatorPage.FreeBlock e.2.1 e.2.2 freeList) freeList) := by
  induction entries with
  | nil => intro freeList hn _; exact hn
  | cons e entries ih =>
    intro freeList hn hle
    obtain ⟨t, o, n⟩ := e
    simp only [List.foldl_cons]
    apply ih
    · apply hn.FreeBlock
      intro x
      have := hle x
      simp only [List.map_cons, coverCount_cons] at this
      omega
    · intro x
      have := hle x
      simp only [List.map_cons, coverCount_cons] at this
      rw [coverCount_FreeBlock]
      omega

theorem Inv.release {dev : DescriptorDevice} {s : DescriptorSystem} (inv : Inv dev s)
    (i t : Nat) : Inv dev (s.step dev (.release i t)) := by
  cases hi : s.handles[i]? with
  | none => simp only [step, hi]; exact inv
  | some h =>
    have hstep : s.step dev (.release i t) =
        ⟨{ s.allocator with
            m_HeapPool := (h.Free (pageFree t) s.allocator.m_HeapPool).2 },
          s.handles.eraseIdx i⟩ := by
      simp only [step, hi]
    rw [hstep]
    have hsame : ∀ q pg x, owns q pg x h = false →
        ownerCount q pg x (s.handles.eraseIdx i) = ownerCount q pg x s.handles := by
      intro q pg x hz
      have := ownerCount_eraseIdx q pg x s.handles i h hi
      rw [hz] at this
      simpa using this
    have hmem : ∀ h' ∈ s.handles.eraseIdx i, h' ∈ s.handles :=
      fun h' hh' => List.mem_of_mem_eraseIdx hh'
    cases hn : h.IsNull with
    | true =>
      rw [DescriptorAllocation.Free_of_isNull _ h _ hn]
      constructor
      · intro p pg hp
        obtain ⟨hb, hst, hnorm, hpart⟩ := inv.page_ok p pg hp
        refine ⟨hb, hst, hnorm, fun x => ?_⟩
        show _ + _ + ownerCount p pg x (s.handles.eraseIdx i) = _
        rw [hsame p pg x (owns_of_isNull p pg x h hn)]
        exact hpart x
      · intro h' hh' p hp
        exact inv.handle_ok h' (hmem h' hh') p hp
    | false =>
      cases hpage : h.m_Page with
      | none =>
        rw [DescriptorAllocation.Free_of_no_page _ h _ hpage]
        constructor
        · intro p pg hp
          obtain ⟨hb, hst, hnorm, hpart⟩ := inv.page_ok p pg hp
          refine ⟨hb, hst, hnorm, fun x => ?_⟩
          show _ + _ + ownerCount p pg x (s.handles.eraseIdx i) = _
          rw [hsame p pg x (owns_of_page_ne p pg x h (by rw [hpage]; simp))]
          exact hpart x
        · intro h' hh' p hp
          exact inv.handle_ok h' (hmem h' hh') p hp
      | some p =>
        rw [DescriptorAllocation.Free_of_page _ h _ p hn hpage]
        constructor
        · intro q pg' hq
          have hq' : (s.allocator.m_HeapPool.modify
              (fun pg => pg.Free t h) p)[q]? = some pg' := hq
          rw [List.getElem?_modify] at hq'
          cases hpg : s.allocator.m_HeapPool[q]? with
          | none => rw [hpg] at hq'; cases hq'
          | some pg =>
            rw [hpg] at hq'
            simp only [Option.map_eq_map, Option.map_some', Option.some.injEq] at hq'
            obtain ⟨hb, hst, hnorm, hpart⟩ := inv.page_ok q pg hpg
            by_cases hpq : p = q
            · subst hpq
              simp only [if_true] at hq'
              subst hq'
              refine ⟨hb, hst, hnorm, fun x => ?_⟩
              show coverCount pg.m_FreeList x + coverCount (staleRanges (pg.Free t h)) x +
                ownerCount p (pg.Free t h) x (s.handles.eraseIdx i) =
                  if x < pg.m_NumDescriptorsInHeap then 1 else 0
              have h1 : staleRanges (pg.Free t h) = staleRanges pg ++ [rangeOf pg h] := by
                simp [staleRanges, DescriptorAllocatorPage.Free, rangeOf]
              have h2 := ownerCount_eraseIdx p pg x s.handles i h hi
              rw [owns_of_valid p pg x h hn hpage] at h2
              rw [h1, coverCount_append, ownerCount_congr p pg (pg.Free t h) x _ rfl rfl]
              have h3 := hpart x
              have h4 : coverCount [rangeOf pg h] x = ind (rangeOf pg h) x := by
                simp [coverCount]
              omega
            · simp only [hpq, if_false] at hq'
              subst hq'
              refine ⟨hb, hst, hnorm, fun x => ?_⟩
              show _ + _ + ownerCount q pg x (s.handles.eraseIdx i) = _
              rw [hsame q pg x (owns_of_page_ne q pg x h (by
                rw [hpage]; simp only [ne_eq, Option.some.injEq]; exact hpq))]
              exact hpart x
        · intro h' hh' q hq
          show q < (s.allocator.m_HeapPool.modify (fun pg => pg.Free t h) p).length
          rw [List.length_modify]
          exact inv.handle_ok h' (hmem h' hh') q hq

theorem Inv.releaseStale {dev : DescriptorDevice} {s : DescriptorSystem} (inv : Inv dev s)
    (f : Nat) : Inv dev (s.step dev (.releaseStale f)) := by
  have hstep : s.step dev (.releaseStale f) =
      ⟨{ s.allocator with
          m_HeapPool := s.allocator.m_HeapPool.map (fun pg => pg.ReleaseStaleDescriptors f),
          m_AvailableHeaps := (DescriptorAllocator.ReleaseStaleDescriptors.loop f 0
            s.allocator.m_HeapPool s.allocator.m_AvailableHeaps).2 },
        s.handles⟩ := by
    simp only [step, DescriptorAllocator.ReleaseStaleDescriptors,
      DescriptorAllocator.loop_pool]
  rw [hstep]
  constructor
  · intro p pg' hp
    have hp' : (s.allocator.m_HeapPool.map (fun pg => pg.ReleaseStaleDescriptors f))[p]?
        = some pg' := hp
    rw [List.getElem?_map] at hp'
    cases hpg : s.allocator.m_HeapPool[p]? with
    | none => rw [hpg] at hp'; cases hp'
    | some pg =>
      rw [hpg] at hp'
      simp only [Option.map_some', Option.some.injEq] at hp'
      subst hp'
      obtain ⟨hb, hst, hnorm, hpart⟩ := inv.page_ok p pg hpg
      have hsplit := fun x => filter_cover pg.m_StaleDescriptors
        (fun e => decide (e.1 ≤ f)) x
      refine ⟨hb, hst, ?_, fun x => ?_⟩
      · apply fold_normal _ _ hnorm
        intro x
        have h1 := hpart x
        have h2 := hsplit x
        have h3 : coverCount (staleRanges pg) x =
            coverCount (pg.m_StaleDescriptors.map (fun e => e.2)) x := rfl
        split at h1 <;> omega
      · show coverCount ((pg.m_StaleDescriptors.filter (fun e => decide (e.1 ≤ f))).foldl
            (fun freeList e => DescriptorAllocatorPage.FreeBlock e.2.1 e.2.2 freeList)
            pg.m_FreeList) x +
          coverCount ((pg.m_StaleDescriptors.filter
            (fun e => !decide (e.1 ≤ f))).map (fun e => e.2)) x +
          ownerCount p (pg.ReleaseStaleDescriptors f) x s.handles =
            if x < pg.m_NumDescriptorsInHeap then 1 else 0
        rw [fold_cover, ownerCount_congr p pg (pg.ReleaseStaleDescriptors f) x _ rfl rfl]
        have h1 := hpart x
        have h2 := hsplit x
        have h3 : coverCount (staleRanges pg) x =
            coverCount (pg.m_StaleDescriptors.map (fun e => e.2)) x := rfl
        omega
  · intro h hh p hp
    show p < (s.allocator.m_HeapPool.map (fun pg => pg.ReleaseStaleDescriptors f)).length
    rw [List.length_map]
    exact inv.handle_ok h hh p hp

theorem Inv.step {dev : DescriptorDevice} (hdev : WellBehaved dev) {s : DescriptorSystem}
    (inv : Inv dev s) (e : DescriptorEvent) : Inv dev (s.step dev e) := by
  cases e with
  | allocate n => exact inv.step_allocate hdev n
  | release i t => exact inv.release i t
  | releaseStale f => exact inv.releaseStale f

theorem Inv.run_inv {dev : DescriptorDevice} (hdev : WellBehaved dev) (es : List DescriptorEvent) :
    ∀ s : DescriptorSystem, Inv dev s → Inv dev (s.run dev es) := by
  induction es with
  | nil => intro s inv; exact inv
  | cons e es ih => intro s inv; exact ih _ (inv.step hdev e)

theorem Reachable.inv {dev : DescriptorDevice} (hdev : WellBehaved dev) {n : Nat}
    {s : DescriptorSystem} (h : Reachable dev n s) : Inv dev s := by
  obtain ⟨es, rfl⟩ := h
  exact Inv.run_inv hdev es _ (Inv.init dev n)

theorem run_append (dev : DescriptorDevice) (es₁ es₂ : List DescriptorEvent) :
    ∀ s : DescriptorSystem, s.run dev (es₁ ++ es₂) = (s.run dev es₁).run dev es₂ := by
  induction es₁ with
  | nil => intro s; rfl
  | cons e es ih => intro s; exact ih _

theorem Reachable.run {dev : DescriptorDevice} {n : Nat} {s : DescriptorSystem}
    (h : Reachable dev n s) (es : List DescriptorEvent) : Reachable dev n (s.run dev es) := by
  obtain ⟨es₀, rfl⟩ := h
  exact ⟨es₀ ++ es, (run_append dev es₀ es _).symm⟩

end DescriptorSystem

/-! ### Claims C12, C13 and C14 -/

namespace DescriptorSystem

theorem exampleDescriptorDevice_wellBehaved : WellBehaved exampleDescriptorDevice :=
  ⟨by decide, fun n => by simp [exampleDescriptorDevice]⟩

theorem le_sum_of_mem {α : Type} (f : α → Nat) (l : List α) (a : α) (h : a ∈ l) :
    f a ≤ (l.map f).sum := by
  induction l with
  | nil => cases h
  | cons x l ih =>
    simp only [List.map_cons, List.sum_cons]
    rcases List.mem_cons.mp h with h | h
    · rw [h]; omega
    · have := ih h; omega

theorem add_le_sum_of_ne {α : Type} (f : α → Nat) (l : List α) (i j : Nat) (a b : α)
    (hi : l[i]? = some a) (hj : l[j]? = some b) (hij : i ≠ j) :
    f a + f b ≤ (l.map f).sum := by
  have h1 := sum_map_eraseIdx f l i a hi
  have hb : b ∈ l.eraseIdx i := List.mem_eraseIdx_iff_getElem?.mpr ⟨j, Ne.symm hij, hj⟩
  have h2 := le_sum_of_mem f (l.eraseIdx i) b hb
  omega

theorem takeBlock_new (dev : DescriptorDevice) (i cap n : Nat) (h1 : 1 ≤ n) (h2 : n ≤ cap) :
    DescriptorAllocatorPage.takeBlock n (DescriptorAllocatorPage.new dev i cap).m_FreeList =
      some (0, if cap = n then [] else [(0 + n, cap - n)]) := by
  have hcap : cap ≠ 0 := by omega
  simp [DescriptorAllocatorPage.new, hcap, DescriptorAllocatorPage.takeBlock, h2]

theorem computeOffset_handle (pg : DescriptorAllocatorPage) (o : Nat)
    (hs : 0 < pg.m_DescriptorHandleIncrementSize) :
    pg.ComputeOffset (pg.m_BaseDescriptor + o * pg.m_DescriptorHandleIncrementSize) = o := by
  unfold DescriptorAllocatorPage.ComputeOffset
  rw [Nat.add_sub_cancel_left, Nat.mul_div_cancel _ hs]

end DescriptorSystem

/-- C12: an allocator that has no page and `P` descriptors per heap serves `Allocate(n)`, for
`1 ≤ n ≤ P`, by creating exactly one page of `P` descriptors; the handle returned is the range
`[0, n)` of that page (the descriptor of the heap start, `n` handles, page 0), and the page is
left with `P - n` free descriptors, in one block that starts at offset `n`. -/
theorem DescriptorAllocator.Allocate_on_empty (dev : DescriptorDevice)
    (da : DescriptorAllocator) (P n : Nat) (hpool : da.m_HeapPool = [])
    (hP : da.m_NumDescriptorsPerHeap = P) (h1 : 1 ≤ n) (h2 : n ≤ P) :
    (da.Allocate dev n).1 =
      ⟨dev.GetCPUDescriptorHandleForHeapStart 0 + 0 * dev.GetDescriptorHandleIncrementSize, n,
        dev.GetDescriptorHandleIncrementSize, some 0⟩ ∧
    (da.Allocate dev n).2.m_HeapPool =
      [{ m_BaseDescriptor := dev.GetCPUDescriptorHandleForHeapStart 0,
         m_DescriptorHandleIncrementSize := dev.GetDescriptorHandleIncrementSize,
         m_NumDescriptorsInHeap := P,
         m_FreeList := if P = n then [] else [(0 + n, P - n)],
         m_StaleDescriptors := [] }] ∧
    (∀ pg ∈ (da.Allocate dev n).2.m_HeapPool, pg.NumFreeHandles = P - n) ∧
    0 ∈ (da.Allocate dev n).2.m_AvailableHeaps := by
  have hscan : DescriptorAllocator.Allocate.scan n da.m_AvailableHeaps da.m_HeapPool =
      (DescriptorAllocation.null, da.m_AvailableHeaps, []) := by
    rw [hpool]; exact DescriptorAllocator.scan_nil_pool n _
  have hmax : max P n = P := Nat.max_eq_left h2
  have htake := DescriptorSystem.takeBlock_new dev 0 P n h1 h2
  have hnull : DescriptorAllocation.null.IsNull = true := rfl
  have hA : da.Allocate dev n =
      (⟨dev.GetCPUDescriptorHandleForHeapStart 0 + 0 * dev.GetDescriptorHandleIncrementSize, n,
          dev.GetDescriptorHandleIncrementSize, some 0⟩,
        { m_NumDescriptorsPerHeap := P,
          m_HeapPool :=
            [{ m_BaseDescriptor := dev.GetCPUDescriptorHandleForHeapStart 0,
               m_DescriptorHandleIncrementSize := dev.GetDescriptorHandleIncrementSize,
               m_NumDescriptorsInHeap := P,
               m_FreeList := if P = n then [] else [(0 + n, P - n)],
               m_StaleDescriptors := [] }],
          m_AvailableHeaps := DescriptorAllocator.setInsert 0 da.m_AvailableHeaps }) := by
    simp only [DescriptorAllocator.Allocate, hscan, hnull, if_true, hP, hmax, List.length_nil,
      DescriptorAllocatorPage.Allocate, htake, List.nil_append]
    rfl
  rw [hA]
  refine ⟨rfl, rfl, ?_, DescriptorAllocator.mem_setInsert_self _ _⟩
  intro pg hpg
  simp only [List.mem_singleton] at hpg
  subst hpg
  simp only [DescriptorAllocatorPage.NumFreeHandles]
  split
  · simp; omega
  · simp

theorem DescriptorAllocator.Allocate_on_empty_witness :
    ((DescriptorAllocator.new 256).Allocate exampleDescriptorDevice 10).1 =
      ⟨4096 * (0 + 1) + 0 * 32, 10, 32, some 0⟩ ∧
    ((DescriptorAllocator.new 256).Allocate exampleDescriptorDevice 10).2.m_HeapPool =
      [{ m_BaseDescriptor := 4096 * (0 + 1),
         m_DescriptorHandleIncrementSize := 32,
         m_NumDescriptorsInHeap := 256,
         m_FreeList := if 256 = 10 then [] else [(0 + 10, 256 - 10)],
         m_StaleDescriptors := [] }] ∧
    (∀ pg ∈ ((DescriptorAllocator.new 256).Allocate exampleDescriptorDevice 10).2.m_HeapPool,
      pg.NumFreeHandles = 256 - 10) ∧
    0 ∈ ((DescriptorAllocator.new 256).Allocate exampleDescriptorDevice 10).2.m_AvailableHeaps :=
  DescriptorAllocator.Allocate_on_empty exampleDescriptorDevice (DescriptorAllocator.new 256)
    256 10 rfl rfl (by decide) (by decide)

/-- C13: in every state that a fresh allocator reaches by `Allocate` calls, handle releases and
`ReleaseStaleDescriptors` calls, two different handles that are valid and belong to the same
page have no descriptor index in common: their ranges `[offset, offset + count)` do not
overlap. (The device gives heaps that do not start at address 0 and a stride of at least 1.) -/
theorem DescriptorSystem.live_handles_disjoint (dev : DescriptorDevice) (P : Nat)
    (s : DescriptorSystem) (i j p : Nat) (h1 h2 : DescriptorAllocation)
    (pg : DescriptorAllocatorPage)
    (hdev : DescriptorSystem.WellBehaved dev) (hs : DescriptorSystem.Reachable dev P s)
    (hi : s.handles[i]? = some h1) (hj : s.handles[j]? = some h2) (hij : i ≠ j)
    (hv1 : h1.IsNull = false) (hv2 : h2.IsNull = false)
    (hp1 : h1.m_Page = some p) (hp2 : h2.m_Page = some p)
    (hpg : s.allocator.m_HeapPool[p]? = some pg) :
    ∀ x, ¬ (DescriptorSystem.covers (DescriptorSystem.rangeOf pg h1) x = true ∧
      DescriptorSystem.covers (DescriptorSystem.rangeOf pg h2) x = true) := by
  intro x hx
  have inv := DescriptorSystem.Reachable.inv hdev hs
  obtain ⟨-, -, -, hpart⟩ := inv.page_ok p pg hpg
  have hsum := DescriptorSystem.add_le_sum_of_ne
    (fun h => if DescriptorSystem.owns p pg x h then 1 else 0) s.handles i j h1 h2 hi hj hij
  have e1 := DescriptorSystem.owns_of_valid p pg x h1 hv1 hp1
  have e2 := DescriptorSystem.owns_of_valid p pg x h2 hv2 hp2
  simp only [e1, e2, DescriptorSystem.ind, hx.1, hx.2, if_true] at hsum
  have := hpart x
  unfold DescriptorSystem.ownerCount at this
  split at this <;> omega

theorem DescriptorSystem.live_handles_disjoint_witness :
    ¬ (DescriptorSystem.covers
        (DescriptorSystem.rangeOf ⟨4096, 32, 4, [], []⟩ ⟨4096, 2, 32, some 0⟩) 1 = true ∧
      DescriptorSystem.covers
        (DescriptorSystem.rangeOf ⟨4096, 32, 4, [], []⟩ ⟨4160, 2, 32, some 0⟩) 1 = true) :=
  DescriptorSystem.live_handles_disjoint exampleDescriptorDevice 4
    (DescriptorSystem.run exampleDescriptorDevice (DescriptorSystem.init 4)
      [.allocate 2, .allocate 2])
    0 1 0 ⟨4096, 2, 32, some 0⟩ ⟨4160, 2, 32, some 0⟩ ⟨4096, 32, 4, [], []⟩
    DescriptorSystem.exampleDescriptorDevice_wellBehaved ⟨_, rfl⟩ rfl rfl (by decide) rfl rfl
    rfl rfl rfl 1

/-- C14: in a reachable state, the handle that `Allocate(n)` returns for `n ≥ 1` is valid
(`IsNull()` is false), has `GetNumHandles() = n`, and is the range `[o, o + n)` of one page of
the pool: its descriptor is the descriptor number `o` of that page, its stride is the stride of
the page, and `o + n` is at most the number of descriptors of the page. (The device gives heaps
that do not start at address 0 and a stride of at least 1.) -/
theorem DescriptorSystem.Allocate_handle_valid (dev : DescriptorDevice) (P : Nat)
    (s : DescriptorSystem) (n : Nat)
    (hdev : DescriptorSystem.WellBehaved dev) (hs : DescriptorSystem.Reachable dev P s)
    (hn : 1 ≤ n) :
    (s.allocator.Allocate dev n).1.IsNull = false ∧
    (s.allocator.Allocate dev n).1.GetNumHandles = n ∧
    ∃ p pg o, (s.allocator.Allocate dev n).1.m_Page = some p ∧
      (s.allocator.Allocate dev n).2.m_HeapPool[p]? = some pg ∧
      (s.allocator.Allocate dev n).1.m_Descriptor =
        pg.m_BaseDescriptor + o * pg.m_DescriptorHandleIncrementSize ∧
      (s.allocator.Allocate dev n).1.m_DescriptorSize = pg.m_DescriptorHandleIncrementSize ∧
      DescriptorSystem.rangeOf pg (s.allocator.Allocate dev n).1 = (o, n) ∧
      o + n ≤ pg.m_NumDescriptorsInHeap := by
  have inv := DescriptorSystem.Reachable.inv hdev hs
  have hbase : ∀ (j : Nat) (pg : DescriptorAllocatorPage),
      s.allocator.m_HeapPool[j]? = some pg → 0 < pg.m_BaseDescriptor := by
    intro j pg hj
    rw [(inv.page_ok j pg hj).1]
    exact hdev.2 j
  rcases DescriptorAllocator.Allocate_result dev s.allocator n hbase with
    ⟨i, pg, o, fl, hpg, htake, hh, hpool⟩ | ⟨hh, hpool⟩
  · obtain ⟨hb, hst, -, hpart⟩ := inv.page_ok i pg hpg
    have hspos : 0 < pg.m_DescriptorHandleIncrementSize := by rw [hst]; exact hdev.1
    rw [hh, hpool]
    refine ⟨DescriptorAllocator.isNull_handle _ _ _ _ _ (hbase i pg hpg), rfl,
      i, { pg with m_FreeList := fl }, o, rfl,
      DescriptorSystem.getElem?_set_same _ _ _ _ hpg, rfl, rfl, ?_, ?_⟩
    · simp only [DescriptorSystem.rangeOf]
      rw [show ({ pg with m_FreeList := fl } : DescriptorAllocatorPage).ComputeOffset
        (pg.m_BaseDescriptor + o * pg.m_DescriptorHandleIncrementSize) =
        pg.ComputeOffset (pg.m_BaseDescriptor + o * pg.m_DescriptorHandleIncrementSize) from rfl,
        DescriptorSystem.computeOffset_handle pg o hspos]
    · have h3 := DescriptorSystem.coverCount_takeBlock htake (o + n - 1)
      have h4 := hpart (o + n - 1)
      rw [DescriptorSystem.ind_eq, if_pos ⟨by omega, by omega⟩] at h3
      show o + n ≤ pg.m_NumDescriptorsInHeap
      split at h4 <;> omega
  · have hle : n ≤ max s.allocator.m_NumDescriptorsPerHeap n := Nat.le_max_right _ _
    have htake := DescriptorSystem.takeBlock_new dev s.allocator.m_HeapPool.length
      (max s.allocator.m_NumDescriptorsPerHeap n) n hn hle
    have hA : (DescriptorAllocatorPage.new dev s.allocator.m_HeapPool.length
        (max s.allocator.m_NumDescriptorsPerHeap n)).Allocate s.allocator.m_HeapPool.length n =
        (⟨dev.GetCPUDescriptorHandleForHeapStart s.allocator.m_HeapPool.length +
            0 * dev.GetDescriptorHandleIncrementSize, n,
            dev.GetDescriptorHandleIncrementSize, some s.allocator.m_HeapPool.length⟩,
          { DescriptorAllocatorPage.new dev s.allocator.m_HeapPool.length
              (max s.allocator.m_NumDescriptorsPerHeap n) with
            m_FreeList := if max s.allocator.m_NumDescriptorsPerHeap n = n then []
              else [(0 + n, max s.allocator.m_NumDescriptorsPerHeap n - n)] }) := by
      simp only [DescriptorAllocatorPage.Allocate, htake]
      rfl
    rw [hh, hpool, hA]
    refine ⟨DescriptorAllocator.isNull_handle _ _ _ _ _ (hdev.2 _), rfl,
      s.allocator.m_HeapPool.length,
      ⟨dev.GetCPUDescriptorHandleForHeapStart s.allocator.m_HeapPool.length,
        dev.GetDescriptorHandleIncrementSize, max s.allocator.m_NumDescriptorsPerHeap n,
        if max s.allocator.m_NumDescriptorsPerHeap n = n then []
          else [(0 + n, max s.allocator.m_NumDescriptorsPerHeap n - n)], []⟩,
      0, rfl, ?_, rfl, rfl, ?_, ?_⟩
    · rw [List.getElem?_append_right (Nat.le_refl _), Nat.sub_self]
      rfl
    · simp [DescriptorSystem.rangeOf, DescriptorAllocatorPage.ComputeOffset,
        DescriptorAllocatorPage.new]
    · show 0 + n ≤ max s.allocator.m_NumDescriptorsPerHeap n
      omega

theorem DescriptorSystem.Allocate_handle_valid_witness :
    (DescriptorAllocator.Allocate exampleDescriptorDevice
      (DescriptorSystem.init 256).allocator 10).1.IsNull = false ∧
    (DescriptorAllocator.Allocate exampleDescriptorDevice
      (DescriptorSystem.init 256).allocator 10).1.GetNumHandles = 10 ∧
    ∃ p pg o, (DescriptorAllocator.Allocate exampleDescriptorDevice
        (DescriptorSystem.init 256).allocator 10).1.m_Page = some p ∧
      (DescriptorAllocator.Allocate exampleDescriptorDevice
        (DescriptorSystem.init 256).allocator 10).2.m_HeapPool[p]? = some pg ∧
      (DescriptorAllocator.Allocate exampleDescriptorDevice
        (DescriptorSystem.init 256).allocator 10).1.m_Descriptor =
        pg.m_BaseDescriptor + o * pg.m_DescriptorHandleIncrementSize ∧
      (DescriptorAllocator.Allocate exampleDescriptorDevice
        (DescriptorSystem.init 256).allocator 10).1.m_DescriptorSize =
        pg.m_DescriptorHandleIncrementSize ∧
      DescriptorSystem.rangeOf pg (DescriptorAllocator.Allocate exampleDescriptorDevice
        (DescriptorSystem.init 256).allocator 10).1 = (o, 10) ∧
      o + 10 ≤ pg.m_NumDescriptorsInHeap :=
  DescriptorSystem.Allocate_handle_valid exampleDescriptorDevice 256
    (DescriptorSystem.init 256) 10 DescriptorSystem.exampleDescriptorDevice_wellBehaved
    ⟨[], rfl⟩ (by decide)

/-! ### Claims C15 and C16 -/

namespace DescriptorSystem

theorem step_stale {dev : DescriptorDevice} (hdev : WellBehaved dev) {s : DescriptorSystem}
    (inv : Inv dev s) (e : DescriptorEvent) (p : Nat) (pg : DescriptorAllocatorPage)
    (entry : Nat × Nat × Nat)
    (hpg : s.allocator.m_HeapPool[p]? = some pg) (hmem : entry ∈ pg.m_StaleDescriptors)
    (he : ∀ f, e = .releaseStale f → f < entry.1) :
    ∃ pg', (s.step dev e).allocator.m_HeapPool[p]? = some pg' ∧
      entry ∈ pg'.m_StaleDescriptors := by
  cases e with
  | allocate n =>
    have hbase : ∀ (j : Nat) (pg : DescriptorAllocatorPage),
        s.allocator.m_HeapPool[j]? = some pg → 0 < pg.m_BaseDescriptor := by
      intro j pg hj
      rw [(inv.page_ok j pg hj).1]
      exact hdev.2 j
    show ∃ pg', (s.allocator.Allocate dev n).2.m_HeapPool[p]? = some pg' ∧ _
    rcases DescriptorAllocator.Allocate_result dev s.allocator n hbase with
      ⟨i, pgi, o, fl, hpgi, -, -, hpool⟩ | ⟨-, hpool⟩
    · rw [hpool]
      by_cases hpi : p = i
      · subst hpi
        rw [hpg] at hpgi
        obtain rfl := Option.some.inj hpgi
        exact ⟨_, getElem?_set_same _ _ _ _ hpg, hmem⟩
      · exact ⟨pg, by rw [List.getElem?_set_ne (Ne.symm hpi)]; exact hpg, hmem⟩
    · rw [hpool]
      exact ⟨pg, by rw [List.getElem?_append_left (lt_length_of_getElem? hpg)]; exact hpg, hmem⟩
  | release j t =>
    cases hj : s.handles[j]? with
    | none => simp only [step, hj]; exact ⟨pg, hpg, hmem⟩
    | some h =>
      have hstep : (s.step dev (.release j t)).allocator.m_HeapPool =
          (h.Free (pageFree t) s.allocator.m_HeapPool).2 := by
        simp only [step, hj]
      rw [hstep]
      cases hn : h.IsNull with
      | true =>
        rw [DescriptorAllocation.Free_of_isNull _ h _ hn]
        exact ⟨pg, hpg, hmem⟩
      | false =>
        cases hpage : h.m_Page with
        | none =>
          rw [DescriptorAllocation.Free_of_no_page _ h _ hpage]
          exact ⟨pg, hpg, hmem⟩
        | some q =>
          rw [DescriptorAllocation.Free_of_page _ h _ q hn hpage]
          show ∃ pg', (s.allocator.m_HeapPool.modify (fun pg => pg.Free t h) q)[p]? = some pg' ∧ _
          rw [List.getElem?_modify, hpg]
          by_cases hqp : q = p
          · refine ⟨pg.Free t h, by simp [hqp], ?_⟩
            simp only [DescriptorAllocatorPage.Free, List.mem_append]
            exact Or.inl hmem
          · exact ⟨pg, by simp [hqp], hmem⟩
  | releaseStale f =>
    have hf := he f rfl
    show ∃ pg', (s.allocator.ReleaseStaleDescriptors f).m_HeapPool[p]? = some pg' ∧ _
    simp only [DescriptorAllocator.ReleaseStaleDescriptors, DescriptorAllocator.loop_pool,
      List.getElem?_map, hpg, Option.map_some']
    refine ⟨_, rfl, ?_⟩
    simp only [DescriptorAllocatorPage.ReleaseStaleDescriptors, List.mem_filter,
      Bool.not_eq_true', decide_eq_false_iff_not, Nat.not_le]
    exact ⟨hmem, hf⟩

theorem run_stale {dev : DescriptorDevice} (hdev : WellBehaved dev) (es : List DescriptorEvent)
    (p : Nat) (entry : Nat × Nat × Nat) :
    ∀ (s : DescriptorSystem) (pg : DescriptorAllocatorPage), Inv dev s →
      s.allocator.m_HeapPool[p]? = some pg → entry ∈ pg.m_StaleDescriptors →
      (∀ f, DescriptorEvent.releaseStale f ∈ es → f < entry.1) →
      ∃ pg', (s.run dev es).allocator.m_HeapPool[p]? = some pg' ∧
        entry ∈ pg'.m_StaleDescriptors := by
  induction es with
  | nil => intro s pg _ hpg hmem _; exact ⟨pg, hpg, hmem⟩
  | cons e es ih =>
    intro s pg inv hpg hmem hes
    obtain ⟨pg', hpg', hmem'⟩ := step_stale hdev inv e p pg entry hpg hmem
      (fun f hf => hes f (hf ▸ List.mem_cons_self _ _))
    exact ih (s.step dev e) pg' (inv.step hdev e) hpg' hmem'
      (fun f hf => hes f (List.mem_cons_of_mem _ hf))

theorem release_stale (dev : DescriptorDevice) (s : DescriptorSystem) (i t p : Nat)
    (h : DescriptorAllocation) (pg : DescriptorAllocatorPage)
    (hi : s.handles[i]? = some h) (hv : h.IsNull = false) (hp : h.m_Page = some p)
    (hpg : s.allocator.m_HeapPool[p]? = some pg) :
    ∃ pg', (s.step dev (.release i t)).allocator.m_HeapPool[p]? = some pg' ∧
      (t, (rangeOf pg h).1, (rangeOf pg h).2) ∈ pg'.m_StaleDescriptors := by
  have hstep : (s.step dev (.release i t)).allocator.m_HeapPool =
      s.allocator.m_HeapPool.modify (fun pg => pg.Free t h) p := by
    simp only [step, hi, DescriptorAllocation.Free_of_page _ h _ p hv hp]
    rfl
  rw [hstep, List.getElem?_modify, hpg]
  refine ⟨pg.Free t h, by simp, ?_⟩
  simp [DescriptorAllocatorPage.Free, rangeOf]

theorem rangeOf_congr (pg pg' : DescriptorAllocatorPage) (h : DescriptorAllocation)
    (hb : pg'.m_BaseDescriptor = pg.m_BaseDescriptor)
    (hs : pg'.m_DescriptorHandleIncrementSize = pg.m_DescriptorHandleIncrementSize) :
    rangeOf pg' h = rangeOf pg h := by
  simp [rangeOf, DescriptorAllocatorPage.ComputeOffset, hb, hs]

theorem fold_persist (entries : List (Nat × Nat × Nat)) (a c : Nat) :
    ∀ freeList : List (Nat × Nat), (∃ b ∈ freeList, b.1 ≤ a ∧ a + c ≤ b.1 + b.2) →
      ∃ b ∈ entries.foldl
          (fun freeList e => DescriptorAllocatorPage.FreeBlock e.2.1 e.2.2 freeList) freeList,
        b.1 ≤ a ∧ a + c ≤ b.1 + b.2 := by
  induction entries with
  | nil => intro freeList h; exact h
  | cons e entries ih =>
    intro freeList h
    simp only [List.foldl_cons]
    apply ih
    unfold DescriptorAllocatorPage.FreeBlock
    split
    · exact h
    · exact exists_block_freeBlockAux_of_mem _ _ _ a c h

theorem fold_block (entries : List (Nat × Nat × Nat)) (entry : Nat × Nat × Nat)
    (hmem : entry ∈ entries) (hsize : 1 ≤ entry.2.2) :
    ∀ freeList : List (Nat × Nat),
      ∃ b ∈ entries.foldl
          (fun freeList e => DescriptorAllocatorPage.FreeBlock e.2.1 e.2.2 freeList) freeList,
        b.1 ≤ entry.2.1 ∧ entry.2.1 + entry.2.2 ≤ b.1 + b.2 := by
  induction entries with
  | nil => cases hmem
  | cons e entries ih =>
    intro freeList
    simp only [List.foldl_cons]
    rcases List.mem_cons.mp hmem with heq | htail
    · subst heq
      apply fold_persist
      unfold DescriptorAllocatorPage.FreeBlock
      rw [if_neg (by omega)]
      exact exists_block_freeBlockAux_self _ _ _
    · exact ih htail _

end DescriptorSystem

/-- C15: a released range is not allocatable at once. In a reachable state let the valid
handle `h` of page `p` be released with the fence value `t`, and let any calls follow in which
every `ReleaseStaleDescriptors` has a completed fence value below `t`; then a handle that
`Allocate` returns on page `p` has no descriptor index in common with the range of `h`. (The
device gives heaps that do not start at address 0 and a stride of at least 1.) -/
theorem DescriptorSystem.released_range_not_allocated (dev : DescriptorDevice) (P : Nat)
    (s : DescriptorSystem) (i t p n : Nat) (h : DescriptorAllocation)
    (pg : DescriptorAllocatorPage) (es : List DescriptorEvent)
    (hdev : DescriptorSystem.WellBehaved dev) (hs : DescriptorSystem.Reachable dev P s)
    (hi : s.handles[i]? = some h) (hv : h.IsNull = false) (hp : h.m_Page = some p)
    (hpg : s.allocator.m_HeapPool[p]? = some pg)
    (hes : ∀ f, DescriptorEvent.releaseStale f ∈ es → f < t)
    (hv' : (((s.step dev (.release i t)).run dev es).allocator.Allocate dev n).1.IsNull = false)
    (hp' : (((s.step dev (.release i t)).run dev es).allocator.Allocate dev n).1.m_Page
      = some p) :
    ∀ x, ¬ (DescriptorSystem.covers (DescriptorSystem.rangeOf pg h) x = true ∧
      DescriptorSystem.covers (DescriptorSystem.rangeOf pg
        (((s.step dev (.release i t)).run dev es).allocator.Allocate dev n).1) x = true) := by
  intro x hx
  have inv0 := DescriptorSystem.Reachable.inv hdev hs
  have inv1 := inv0.step hdev (.release i t)
  have inv2 := DescriptorSystem.Inv.run_inv hdev es _ inv1
  have inv3 := inv2.step hdev (.allocate n)
  obtain ⟨pg1, hpg1, hm1⟩ := DescriptorSystem.release_stale dev s i t p h pg hi hv hp hpg
  obtain ⟨pg2, hpg2, hm2⟩ := DescriptorSystem.run_stale hdev es p _ _ pg1 inv1 hpg1 hm1 hes
  obtain ⟨pg3, hpg3, hm3⟩ := DescriptorSystem.step_stale hdev inv2 (.allocate n) p pg2 _
    hpg2 hm2 (fun f hf => by cases hf)
  obtain ⟨hb0, hst0, -, -⟩ := inv0.page_ok p pg hpg
  obtain ⟨hb3, hst3, -, hpart⟩ := inv3.page_ok p pg3 hpg3
  have hrange := DescriptorSystem.rangeOf_congr pg pg3
    (((s.step dev (.release i t)).run dev es).allocator.Allocate dev n).1
    (by rw [hb3, hb0]) (by rw [hst3, hst0])
  have h1 : DescriptorSystem.ind (DescriptorSystem.rangeOf pg h) x ≤
      DescriptorSystem.coverCount (DescriptorSystem.staleRanges pg3) x :=
    DescriptorSystem.le_sum_of_mem (fun r => DescriptorSystem.ind r x) _ _
      (List.mem_map.mpr ⟨_, hm3, rfl⟩)
  have h2 : DescriptorSystem.ownerCount p pg3 x
      (((s.step dev (.release i t)).run dev es).step dev (.allocate n)).handles =
      DescriptorSystem.ownerCount p pg3 x ((s.step dev (.release i t)).run dev es).handles +
        (if DescriptorSystem.owns p pg3 x
          (((s.step dev (.release i t)).run dev es).allocator.Allocate dev n).1 then 1 else 0) :=
    DescriptorSystem.ownerCount_append p pg3 x _ _
  rw [DescriptorSystem.owns_of_valid p pg3 x _ hv' hp', hrange] at h2
  have h3 := hpart x
  simp only [DescriptorSystem.ind, hx.1, hx.2, if_true] at h1 h2
  split at h3 <;> omega

theorem DescriptorSystem.released_range_not_allocated_witness :
    ¬ (DescriptorSystem.covers
        (DescriptorSystem.rangeOf ⟨4096, 32, 4, [(2, 2)], []⟩ ⟨4096, 2, 32, some 0⟩) 1 = true ∧
      DescriptorSystem.covers (DescriptorSystem.rangeOf ⟨4096, 32, 4, [(2, 2)], []⟩
        (DescriptorAllocator.Allocate exampleDescriptorDevice
          (DescriptorSystem.run exampleDescriptorDevice
            (DescriptorSystem.step exampleDescriptorDevice
              (DescriptorSystem.run exampleDescriptorDevice (DescriptorSystem.init 4)
                [.allocate 2]) (.release 0 5)) [.releaseStale 3]).allocator 2).1) 1 = true) :=
  DescriptorSystem.released_range_not_allocated exampleDescriptorDevice 4
    (DescriptorSystem.run exampleDescriptorDevice (DescriptorSystem.init 4) [.allocate 2])
    0 5 0 2 ⟨4096, 2, 32, some 0⟩ ⟨4096, 32, 4, [(2, 2)], []⟩ [.releaseStale 3]
    DescriptorSystem.exampleDescriptorDevice_wellBehaved ⟨_, rfl⟩ rfl rfl rfl rfl
    (by intro f hf; simp at hf; omega) rfl rfl 1

/-- C16: in a reachable state let the valid handle `h` of page `p`, of at least one
descriptor, be released with the fence value `t`; let calls follow in which every
`ReleaseStaleDescriptors` has a completed fence value below `t`, and then
`ReleaseStaleDescriptors` with a completed fence value `f ≥ t`. After it the free list of page
`p` has one block that contains the whole range of `h`; the free list is in normal form, so no
other free block touches or overlaps that block (every adjacent free range is merged into it);
page `p` serves an allocation of the size of that block; and `p` is in the available set. (The
device gives heaps that do not start at address 0 and a stride of at least 1.) -/
theorem DescriptorSystem.released_range_merged (dev : DescriptorDevice) (P : Nat)
    (s : DescriptorSystem) (i t f p : Nat) (h : DescriptorAllocation)
    (pg : DescriptorAllocatorPage) (es : List DescriptorEvent)
    (hdev : DescriptorSystem.WellBehaved dev) (hs : DescriptorSystem.Reachable dev P s)
    (hi : s.handles[i]? = some h) (hv : h.IsNull = false) (hp : h.m_Page = some p)
    (hpg : s.allocator.m_HeapPool[p]? = some pg) (hcount : 1 ≤ h.m_NumHandles)
    (hes : ∀ f', DescriptorEvent.releaseStale f' ∈ es → f' < t) (htf : t ≤ f) :
    ∃ pg' b,
      ((((s.step dev (.release i t)).run dev es).step dev
        (.releaseStale f)).allocator.m_HeapPool[p]? = some pg') ∧
      b ∈ pg'.m_FreeList ∧
      b.1 ≤ (DescriptorSystem.rangeOf pg h).1 ∧
      (DescriptorSystem.rangeOf pg h).1 + (DescriptorSystem.rangeOf pg h).2 ≤ b.1 + b.2 ∧
      DescriptorSystem.NormalFrom 0 pg'.m_FreeList ∧
      (pg'.Allocate p b.2).1.IsNull = false ∧
      p ∈ (((s.step dev (.release i t)).run dev es).step dev
        (.releaseStale f)).allocator.m_AvailableHeaps := by
  have inv0 := DescriptorSystem.Reachable.inv hdev hs
  have inv1 := inv0.step hdev (.release i t)
  have inv2 := DescriptorSystem.Inv.run_inv hdev es _ inv1
  have inv3 := inv2.step hdev (.releaseStale f)
  obtain ⟨pg1, hpg1, hm1⟩ := DescriptorSystem.release_stale dev s i t p h pg hi hv hp hpg
  obtain ⟨pg2, hpg2, hm2⟩ := DescriptorSystem.run_stale hdev es p _ _ pg1 inv1 hpg1 hm1 hes
  have hpool3 : (((s.step dev (.release i t)).run dev es).step dev
      (.releaseStale f)).allocator.m_HeapPool =
      (DescriptorAllocator.ReleaseStaleDescriptors.loop f 0
        ((s.step dev (.release i t)).run dev es).allocator.m_HeapPool
        ((s.step dev (.release i t)).run dev es).allocator.m_AvailableHeaps).1 := rfl
  have hav3 : (((s.step dev (.release i t)).run dev es).step dev
      (.releaseStale f)).allocator.m_AvailableHeaps =
      (DescriptorAllocator.ReleaseStaleDescriptors.loop f 0
        ((s.step dev (.release i t)).run dev es).allocator.m_HeapPool
        ((s.step dev (.release i t)).run dev es).allocator.m_AvailableHeaps).2 := rfl
  have hpg3 : (((s.step dev (.release i t)).run dev es).step dev
      (.releaseStale f)).allocator.m_HeapPool[p]? = some (pg2.ReleaseStaleDescriptors f) := by
    rw [hpool3, DescriptorAllocator.loop_pool, List.getElem?_map, hpg2]
    rfl
  have hfilter : (t, (DescriptorSystem.rangeOf pg h).1, (DescriptorSystem.rangeOf pg h).2) ∈
      pg2.m_StaleDescriptors.filter (fun e => decide (e.1 ≤ f)) := by
    rw [List.mem_filter]
    exact ⟨hm2, by simpa using htf⟩
  obtain ⟨b, hb, hb1, hb2⟩ := DescriptorSystem.fold_block _ _ hfilter
    (show 1 ≤ h.m_NumHandles from hcount) pg2.m_FreeList
  have hb' : b ∈ (pg2.ReleaseStaleDescriptors f).m_FreeList := hb
  have hb1 : b.1 ≤ (DescriptorSystem.rangeOf pg h).1 := hb1
  have hb2 : (DescriptorSystem.rangeOf pg h).1 + (DescriptorSystem.rangeOf pg h).2
      ≤ b.1 + b.2 := hb2
  obtain ⟨hbase3, -, hnorm3, -⟩ := inv3.page_ok p _ hpg3
  have hpos : 0 < (pg2.ReleaseStaleDescriptors f).NumFreeHandles := by
    have hsum : b.2 ≤ (pg2.ReleaseStaleDescriptors f).NumFreeHandles :=
      DescriptorSystem.le_sum_of_mem (fun b : Nat × Nat => b.2) _ b hb'
    have hc : 1 ≤ (DescriptorSystem.rangeOf pg h).2 := hcount
    omega
  refine ⟨pg2.ReleaseStaleDescriptors f, b, hpg3, hb', hb1, hb2, hnorm3, ?_, ?_⟩
  · obtain ⟨r, hr⟩ := DescriptorSystem.takeBlock_isSome_of_mem b.2
      (pg2.ReleaseStaleDescriptors f).m_FreeList ⟨b, hb', Nat.le_refl _⟩
    rcases DescriptorAllocator.Page_Allocate_cases (pg2.ReleaseStaleDescriptors f) p b.2 with
      ⟨hnone, -⟩ | ⟨o, fl, -, hA⟩
    · rw [hr] at hnone; cases hnone
    · rw [hA]
      exact DescriptorAllocator.isNull_handle _ _ _ _ _ (by rw [hbase3]; exact hdev.2 p)
  · rw [hav3]
    have := (DescriptorAllocator.loop_available f
      ((s.step dev (.release i t)).run dev es).allocator.m_HeapPool 0
      ((s.step dev (.release i t)).run dev es).allocator.m_AvailableHeaps).2 p
      (pg2.ReleaseStaleDescriptors f) (hpool3 ▸ hpg3) hpos
    rw [Nat.zero_add] at this
    exact this

theorem DescriptorSystem.released_range_merged_witness :
    ∃ pg' b,
      ((DescriptorSystem.step exampleDescriptorDevice
        (DescriptorSystem.run exampleDescriptorDevice
          (DescriptorSystem.step exampleDescriptorDevice
            (DescriptorSystem.run exampleDescriptorDevice (DescriptorSystem.init 4)
              [.allocate 2]) (.release 0 5)) [.releaseStale 3])
        (.releaseStale 7)).allocator.m_HeapPool[0]? = some pg') ∧
      b ∈ pg'.m_FreeList ∧
      b.1 ≤ (DescriptorSystem.rangeOf ⟨4096, 32, 4, [(2, 2)], []⟩ ⟨4096, 2, 32, some 0⟩).1 ∧
      (DescriptorSystem.rangeOf ⟨4096, 32, 4, [(2, 2)], []⟩ ⟨4096, 2, 32, some 0⟩).1 +
        (DescriptorSystem.rangeOf ⟨4096, 32, 4, [(2, 2)], []⟩ ⟨4096, 2, 32, some 0⟩).2
        ≤ b.1 + b.2 ∧
      DescriptorSystem.NormalFrom 0 pg'.m_FreeList ∧
      (pg'.Allocate 0 b.2).1.IsNull = false ∧
      0 ∈ (DescriptorSystem.step exampleDescriptorDevice
        (DescriptorSystem.run exampleDescriptorDevice
          (DescriptorSystem.step exampleDescriptorDevice
            (DescriptorSystem.run exampleDescriptorDevice (DescriptorSystem.init 4)
              [.allocate 2]) (.release 0 5)) [.releaseStale 3])
        (.releaseStale 7)).allocator.m_AvailableHeaps :=
  DescriptorSystem.released_range_merged exampleDescriptorDevice 4
    (DescriptorSystem.run exampleDescriptorDevice (DescriptorSystem.init 4) [.allocate 2])
    0 5 7 0 ⟨4096, 2, 32, some 0⟩ ⟨4096, 32, 4, [(2, 2)], []⟩ [.releaseStale 3]
    DescriptorSystem.exampleDescriptorDevice_wellBehaved ⟨_, rfl⟩ rfl rfl rfl rfl
    (by decide) (by intro f hf; simp at hf; omega) (by decide)

/-! ### Claims C25 and C26 -/

/-- C25, as amended: for two different objects `t` and `s`, after `t = std::move(s)` the
object `t` holds the base descriptor, the count, the stride and the page that `s` held and `s`
is null (descriptor 0, count 0, stride 0, no page). The allocation that `t` held before, when
`t` was valid and had a page, has been handed to the page's `Free` exactly once: the log of
those calls is the old log followed by `t`, so `t` occurs in it once more than before. When `t`
was null, or was valid and had no page, no call of `Free` of a page is made. -/
theorem DescriptorAllocation.moveAssign_spec (t s : DescriptorAllocation)
    (log : List DescriptorAllocation) :
    (t.moveAssign HandleWorld.logFree s log).1 = s ∧
    (t.moveAssign HandleWorld.logFree s log).2.1 = ⟨0, 0, 0, none⟩ ∧
    (t.moveAssign HandleWorld.logFree s log).2.1.IsNull = true ∧
    (t.IsNull = false → t.m_Page.isSome = true →
      (t.moveAssign HandleWorld.logFree s log).2.2 = log ++ [t] ∧
      (t.moveAssign HandleWorld.logFree s log).2.2.count t = log.count t + 1) ∧
    (t.IsNull = true ∨ t.m_Page = none →
      (t.moveAssign HandleWorld.logFree s log).2.2 = log) ∧
    (∀ (w : HandleWorld) (dst src : Nat), dst ≠ src →
      w.objects[dst]? = some (some t) → w.objects[src]? = some (some s) →
      (w.step (.moveAssign dst src)).objects =
        (w.objects.set dst (some s)).set src (some ⟨0, 0, 0, none⟩) ∧
      (w.step (.moveAssign dst src)).freed =
        (t.moveAssign HandleWorld.logFree s w.freed).2.2) := by
  refine ⟨rfl, rfl, rfl, ?_, ?_, ?_⟩
  · intro hn hp
    obtain ⟨page, hpage⟩ := Option.isSome_iff_exists.mp hp
    have h : (t.moveAssign HandleWorld.logFree s log).2.2 = log ++ [t] := by
      show (t.Free HandleWorld.logFree log).2 = log ++ [t]
      rw [DescriptorAllocation.Free_of_page _ t log page hn hpage]
      rfl
    rw [h]
    exact ⟨rfl, by simp⟩
  · intro h
    show (t.Free HandleWorld.logFree log).2 = log
    rcases h with h | h
    · rw [DescriptorAllocation.Free_of_isNull _ t log h]
    · rw [DescriptorAllocation.Free_of_no_page _ t log h]
  · intro w dst src hne hdst hsrc
    have h1 : w.step (.moveAssign dst src) =
        ⟨(w.objects.set dst (some (t.moveAssign HandleWorld.logFree s w.freed).1)).set src
            (some (t.moveAssign HandleWorld.logFree s w.freed).2.1),
          (t.moveAssign HandleWorld.logFree s w.freed).2.2⟩ := by
      simp only [HandleWorld.step, hdst, hsrc, if_neg hne]
    rw [h1]
    exact ⟨rfl, rfl⟩

/-- C25, counterexample: the handle `t` with descriptor 4096, one handle, stride 32 and no
page is valid; after `t = std::move(s)` no call of `Free` of a page was made, so the
allocation that `t` held was handed to `Free` zero times, not once. -/
theorem DescriptorAllocation.moveAssign_valid_without_page_frees_nothing :
    (⟨4096, 1, 32, none⟩ : DescriptorAllocation).IsNull = false ∧
    (⟨4096, 1, 32, none⟩ : DescriptorAllocation).IsValid = true ∧
    (DescriptorAllocation.moveAssign HandleWorld.logFree ⟨4096, 1, 32, none⟩
      ⟨8192, 2, 32, some 0⟩ []).2.2 = [] ∧
    (DescriptorAllocation.moveAssign HandleWorld.logFree ⟨4096, 1, 32, none⟩
      ⟨8192, 2, 32, some 0⟩ []).2.2.count ⟨4096, 1, 32, none⟩ = 0 := by
  decide

namespace DescriptorSystem

theorem map_set_same {α β : Type} (f : α → β) (l : List α) (i : Nat) (a b : α)
    (h : l[i]? = some a) (hf : f b = f a) : (l.set i b).map f = l.map f := by
  rw [List.map_set, hf]
  exact DescriptorAllocator.set_getElem?_self _ _ _ (by rw [List.getElem?_map, h]; rfl)

theorem scan_capacities (n : Nat) (available : List Nat) :
    ∀ pool : List DescriptorAllocatorPage,
      (DescriptorAllocator.Allocate.scan n available pool).2.2.map
          (fun pg => pg.m_NumDescriptorsInHeap) =
        pool.map (fun pg => pg.m_NumDescriptorsInHeap) := by
  induction available with
  | nil => intro pool; rfl
  | cons i rest ih =>
    intro pool
    rw [DescriptorAllocator.scan_cons_eq]
    cases hp : pool[i]? with
    | none => exact ih pool
    | some pg =>
      have hset : (pool.set i (pg.Allocate i n).2).map (fun pg => pg.m_NumDescriptorsInHeap) =
          pool.map (fun pg => pg.m_NumDescriptorsInHeap) :=
        map_set_same _ pool i pg _ hp (DescriptorAllocatorPage.Allocate_capacity pg i n)
      simp only
      split_ifs
      · exact hset
      · rw [ih]; exact hset
      · exact hset
      · show (DescriptorAllocator.Allocate.scan n rest _).2.2.map _ = _
        rw [ih]; exact hset

theorem Allocate_capacities (dev : DescriptorDevice) (da : DescriptorAllocator) (n : Nat) :
    da.m_NumDescriptorsPerHeap ≤ (da.Allocate dev n).2.m_NumDescriptorsPerHeap ∧
    ((da.Allocate dev n).2.m_HeapPool.map (fun pg => pg.m_NumDescriptorsInHeap) =
        da.m_HeapPool.map (fun pg => pg.m_NumDescriptorsInHeap) ∨
      (da.Allocate dev n).2.m_HeapPool.map (fun pg => pg.m_NumDescriptorsInHeap) =
        da.m_HeapPool.map (fun pg => pg.m_NumDescriptorsInHeap) ++
          [max da.m_NumDescriptorsPerHeap n]) := by
  have hc := scan_capacities n da.m_AvailableHeaps da.m_HeapPool
  by_cases hnull : (DescriptorAllocator.Allocate.scan n da.m_AvailableHeaps da.m_HeapPool).1.IsNull
      = true
  · simp only [DescriptorAllocator.Allocate, hnull, if_true]
    refine ⟨Nat.le_max_left _ _, Or.inr ?_⟩
    rw [List.map_append, hc, List.map_singleton, DescriptorAllocatorPage.Allocate_capacity]
    rfl
  · simp only [DescriptorAllocator.Allocate, hnull]
    exact ⟨Nat.le_refl _, Or.inl hc⟩

theorem Free_capacities (t : Nat) (h : DescriptorAllocation)
    (pool : List DescriptorAllocatorPage) :
    (h.Free (pageFree t) pool).2.map (fun pg => pg.m_NumDescriptorsInHeap) =
      pool.map (fun pg => pg.m_NumDescriptorsInHeap) := by
  cases hn : h.IsNull with
  | true => rw [DescriptorAllocation.Free_of_isNull _ h _ hn]
  | false =>
    cases hp : h.m_Page with
    | none => rw [DescriptorAllocation.Free_of_no_page _ h _ hp]
    | some p =>
      rw [DescriptorAllocation.Free_of_page _ h _ p hn hp]
      show (pool.modify (fun pg => pg.Free t h) p).map _ = _
      apply List.ext_getElem?
      intro i
      rw [List.getElem?_map, List.getElem?_map, List.getElem?_modify]
      cases pool[i]? with
      | none => rfl
      | some pg =>
        show some (if p = i then pg.Free t h else pg).m_NumDescriptorsInHeap = _
        split <;> rfl

theorem step_capacities (dev : DescriptorDevice) (s : DescriptorSystem) (e : DescriptorEvent) :
    s.allocator.m_NumDescriptorsPerHeap ≤ (s.step dev e).allocator.m_NumDescriptorsPerHeap ∧
    ∃ added : List Nat,
      (s.step dev e).allocator.m_HeapPool.map (fun pg => pg.m_NumDescriptorsInHeap) =
        s.allocator.m_HeapPool.map (fun pg => pg.m_NumDescriptorsInHeap) ++ added ∧
      ∀ k ∈ added, s.allocator.m_NumDescriptorsPerHeap ≤ k := by
  cases e with
  | allocate n =>
    obtain ⟨h1, h2 | h2⟩ := Allocate_capacities dev s.allocator n
    · exact ⟨h1, [], by rw [List.append_nil]; exact h2, fun k hk => by cases hk⟩
    · refine ⟨h1, [max s.allocator.m_NumDescriptorsPerHeap n], h2, fun k hk => ?_⟩
      rw [List.mem_singleton.mp hk]
      exact Nat.le_max_left _ _
  | release i t =>
    cases hi : s.handles[i]? with
    | none =>
      simp only [step, hi]
      exact ⟨Nat.le_refl _, [], by rw [List.append_nil], fun k hk => by cases hk⟩
    | some h =>
      simp only [step, hi]
      exact ⟨Nat.le_refl _, [], by rw [List.append_nil]; exact Free_capacities t h _,
        fun k hk => by cases hk⟩
  | releaseStale f =>
    refine ⟨Nat.le_refl _, [], ?_, fun k hk => by cases hk⟩
    show (s.allocator.ReleaseStaleDescriptors f).m_HeapPool.map _ = _
    simp only [DescriptorAllocator.ReleaseStaleDescriptors, DescriptorAllocator.loop_pool,
      List.map_map, List.append_nil]
    rfl

theorem run_capacities (dev : DescriptorDevice) (es : List DescriptorEvent) :
    ∀ s : DescriptorSystem,
      s.allocator.m_NumDescriptorsPerHeap ≤ (s.run dev es).allocator.m_NumDescriptorsPerHeap ∧
      ∃ added : List Nat,
        (s.run dev es).allocator.m_HeapPool.map (fun pg => pg.m_NumDescriptorsInHeap) =
          s.allocator.m_HeapPool.map (fun pg => pg.m_NumDescriptorsInHeap) ++ added ∧
        ∀ k ∈ added, s.allocator.m_NumDescriptorsPerHeap ≤ k := by
  induction es with
  | nil => intro s; exact ⟨Nat.le_refl _, [], by rw [List.append_nil]; rfl, fun k hk => by cases hk⟩
  | cons e es ih =>
    intro s
    obtain ⟨h1, a1, h2, h3⟩ := step_capacities dev s e
    obtain ⟨h4, a2, h5, h6⟩ := ih (s.step dev e)
    refine ⟨Nat.le_trans h1 h4, a1 ++ a2, ?_, ?_⟩
    · show (run dev (s.step dev e) es).allocator.m_HeapPool.map _ = _
      rw [h5, h2, List.append_assoc]
    · intro k hk
      rcases List.mem_append.mp hk with hk | hk
      · exact h3 k hk
      · exact Nat.le_trans h1 (h6 k hk)

end DescriptorSystem

/-- C26: through every sequence of calls (`Allocate`, handle release,
`ReleaseStaleDescriptors`) the descriptors-per-heap setting of a `DescriptorAllocator` does not
decrease. When `Allocate(count)` has to create a page (no available page serves the request)
and `count` is larger than the setting, the setting is `count` after the call, and every page
that is added to the pool by the calls that follow has a capacity of at least `count`. -/
theorem DescriptorSystem.descriptorsPerHeap_monotone (dev : DescriptorDevice)
    (s : DescriptorSystem) (es : List DescriptorEvent) :
    s.allocator.m_NumDescriptorsPerHeap ≤ (s.run dev es).allocator.m_NumDescriptorsPerHeap ∧
    (∀ count : Nat,
      (DescriptorAllocator.Allocate.scan count s.allocator.m_AvailableHeaps
        s.allocator.m_HeapPool).1.IsNull = true →
      s.allocator.m_NumDescriptorsPerHeap < count →
      (s.allocator.Allocate dev count).2.m_NumDescriptorsPerHeap = count ∧
      ∀ (p : Nat) (pg : DescriptorAllocatorPage),
        (s.step dev (.allocate count)).allocator.m_HeapPool.length ≤ p →
        ((s.step dev (.allocate count)).run dev es).allocator.m_HeapPool[p]? = some pg →
        count ≤ pg.m_NumDescriptorsInHeap) := by
  refine ⟨(DescriptorSystem.run_capacities dev es s).1, ?_⟩
  intro count hnull hlt
  have hset : (s.allocator.Allocate dev count).2.m_NumDescriptorsPerHeap = count := by
    simp only [DescriptorAllocator.Allocate, hnull, if_true]
    exact Nat.max_eq_right (Nat.le_of_lt hlt)
  refine ⟨hset, ?_⟩
  intro p pg hp hpg
  obtain ⟨-, added, hmap, hadd⟩ :=
    DescriptorSystem.run_capacities dev es (s.step dev (.allocate count))
  have hk : (((s.step dev (.allocate count)).run dev es).allocator.m_HeapPool.map
      (fun pg => pg.m_NumDescriptorsInHeap))[p]? = some pg.m_NumDescriptorsInHeap := by
    rw [List.getElem?_map, hpg]; rfl
  rw [hmap, List.getElem?_append_right (by rw [List.length_map]; exact hp)] at hk
  have := hadd _ (List.getElem?_mem hk)
  have hset' : (s.step dev (.allocate count)).allocator.m_NumDescriptorsPerHeap = count := hset
  omega

/-! ### Claim C24 -/

namespace UploadBuffer

theorem RequestPage_eq_error {dev : Device} {ub : UploadBuffer} {e : Error}
    (h : ub.RequestPage dev = .error e) :
    ub.m_AvailablePages = [] ∧ dev.CreateCommittedResource ub.heap.length = none := by
  unfold RequestPage at h
  cases hav : ub.m_AvailablePages with
  | cons page rest => rw [hav] at h; cases h
  | nil =>
    refine ⟨rfl, ?_⟩
    cases hd : dev.CreateCommittedResource ub.heap.length with
    | none => rfl
    | some r =>
      obtain ⟨cpu, gpu⟩ := r
      simp only [hav, Page.new, hd] at h
      cases h

theorem RequestPage_page {pageSize : Nat} {dev : Device} {ub ub1 : UploadBuffer} {page : Nat}
    (wf : WellFormed pageSize ub) (h : ub.RequestPage dev = .ok (page, ub1)) :
    ∃ pg, ub1.heap[page]? = some pg ∧ pg.m_Offset = 0 ∧ pg.m_PageSize = pageSize ∧
      (ub.m_AvailablePages = [] → dev.CreateCommittedResource ub.heap.length ≠ none) := by
  rcases RequestPage_eq_ok h with ⟨rest, hav, rfl⟩ | ⟨-, rfl, cpu, gpu, hd, rfl⟩
  · have hmem : page ∈ ub.m_AvailablePages := by rw [hav]; exact List.mem_cons_self _ _
    have hlt := wf.avail_lt page hmem
    have hz := wf.avail_zero page hmem
    refine ⟨ub.heap[page], List.getElem?_eq_getElem hlt, ?_, ?_, ?_⟩
    · simpa [offsetOf, List.getElem?_eq_getElem hlt] using hz
    · exact (wf.page_ok _ (List.getElem_mem hlt)).1
    · intro hnil; rw [hav] at hnil; cases hnil
  · refine ⟨⟨cpu, gpu, ub.m_PageSize, 0⟩, ?_, rfl, wf.pageSize_eq, ?_⟩
    · show (ub.heap ++ [(⟨cpu, gpu, ub.m_PageSize, 0⟩ : Page)])[ub.heap.length]? = _
      rw [List.getElem?_append_right (Nat.le_refl _), Nat.sub_self]
      rfl
    · intro _ hnone; rw [hd] at hnone; cases hnone

theorem allocateFromCurrent_error_iff (ub : UploadBuffer) (page : Nat) (pg : Page) (s a : Nat)
    (hc : ub.m_CurrentPage = some page) (hp : ub.heap[page]? = some pg) :
    (∃ e, (allocateFromCurrent ub s a).1 = .error e) ↔ pg.HasSpace s a = false := by
  cases hs : pg.HasSpace s a with
  | true =>
    have := Page.Allocate_of_HasSpace hs
    simp [allocateFromCurrent, hc, hp, this]
  | false =>
    have := Page.Allocate_of_not_HasSpace hs
    simp [allocateFromCurrent, hc, hp, this]

theorem HasSpace_fresh (pg : Page) (s a : Nat) (h0 : pg.m_Offset = 0) :
    pg.HasSpace s a = false ↔ pg.m_PageSize < Math.AlignUp s a := by
  have h := Page.HasSpace_iff pg s a
  rw [h0, Math.AlignUp_zero, Nat.zero_add, Nat.mod_eq_of_lt (Math.AlignUp_lt s a)] at h
  constructor
  · intro hf
    by_contra hn
    rw [h.mpr (Nat.not_lt.mp hn)] at hf
    cases hf
  · intro hlt
    cases hs : pg.HasSpace s a with
    | false => rfl
    | true => exact absurd (h.mp hs) (Nat.not_le.mpr hlt)

theorem currentHasSpace_eq_true {ub : UploadBuffer} {s a : Nat}
    (h : ub.currentHasSpace s a = true) :
    ∃ page pg, ub.m_CurrentPage = some page ∧ ub.heap[page]? = some pg ∧
      pg.HasSpace s a = true := by
  unfold currentHasSpace at h
  cases hc : ub.m_CurrentPage with
  | none => rw [hc] at h; cases h
  | some page =>
    cases hp : ub.heap[page]? with
    | none => simp [hc, hp] at h
    | some pg => exact ⟨page, pg, rfl, hp, by simpa [hc, hp] using h⟩

/-- C24, as amended: in every reachable state, for every size and every alignment,
`UploadBuffer::Allocate` fails exactly in these cases: the size is larger than the page size;
or the current page has no space for the request and either no page is available and the
device fails to create one, or the size aligned up to the alignment is larger than the page
size (`Page::Allocate` on the requested page then throws `std::bad_alloc`). In every other
case it returns an allocation: from the current page when that page has space, and else from
the start of the page it requested. -/
theorem Allocate_fails_iff (dev : Device) (pageSize : Nat) (ub : UploadBuffer)
    (sizeInBytes alignment : Nat) (hr : Reachable dev pageSize ub) :
    ((∃ e, (ub.Allocate dev sizeInBytes alignment).1 = .error e) ↔
      pageSize < sizeInBytes ∨
      (ub.currentHasSpace sizeInBytes alignment = false ∧
        ((ub.m_AvailablePages = [] ∧ dev.CreateCommittedResource ub.heap.length = none) ∨
          pageSize < Math.AlignUp sizeInBytes alignment))) ∧
    (∀ al ub', ub.Allocate dev sizeInBytes alignment = (.ok al, ub') →
      (ub.currentHasSpace sizeInBytes alignment = true ∧
        ub'.m_CurrentPage = ub.m_CurrentPage) ∨
      (ub.currentHasSpace sizeInBytes alignment = false ∧
        ∃ page pg, ub'.m_CurrentPage = some page ∧ ub'.heap[page]? = some pg ∧
          al = ⟨pg.m_CPUPtr % WORD, pg.m_GPUPtr % WORD⟩)) := by
  have wf := hr.wellFormed
  have hP := wf.pageSize_eq
  constructor
  · rcases Allocate_cases dev ub sizeInBytes alignment with
      ⟨hlt, h⟩ | ⟨hle, hyes, h⟩ | ⟨hle, hno, e, hreq, h⟩ | ⟨hle, hno, page, ub1, hreq, h⟩
    · rw [h]
      exact ⟨fun _ => Or.inl (hP ▸ hlt), fun _ => ⟨_, rfl⟩⟩
    · obtain ⟨page, pg, hc, hp, hs⟩ := currentHasSpace_eq_true hyes
      rw [h, allocateFromCurrent_error_iff ub page pg _ _ hc hp, hs]
      constructor
      · intro hf; cases hf
      · rintro (hlt | ⟨hno, -⟩)
        · omega
        · rw [hyes] at hno; cases hno
    · obtain ⟨hav, hd⟩ := RequestPage_eq_error hreq
      rw [h]
      exact ⟨fun _ => Or.inr ⟨hno, Or.inl ⟨hav, hd⟩⟩, fun _ => ⟨_, rfl⟩⟩
    · obtain ⟨pg, hp, h0, hsize, hd⟩ := RequestPage_page wf hreq
      rw [h, allocateFromCurrent_error_iff { ub1 with m_CurrentPage := some page } page pg _ _
        rfl hp, HasSpace_fresh pg _ _ h0, hsize]
      constructor
      · intro hlt; exact Or.inr ⟨hno, Or.inr hlt⟩
      · rintro (hlt | ⟨-, ⟨hav, hnone⟩ | hlt⟩)
        · omega
        · exact absurd hnone (hd hav)
        · exact hlt
  · intro al ub' h
    cases hc : ub.currentHasSpace sizeInBytes alignment with
    | false =>
      obtain ⟨page, pg, hcur, hp, hal, -⟩ := Allocate_requested wf hc h
      exact Or.inr ⟨rfl, page, pg, hcur, hp, hal⟩
    | true =>
      refine Or.inl ⟨rfl, ?_⟩
      obtain ⟨ub1, page, pg, hway, -, -, -, -, -, hub'⟩ := Allocate_eq_ok h
      rcases hway with ⟨-, rfl⟩ | ⟨hno, -⟩
      · rw [hub']
      · rw [hc] at hno; cases hno

theorem Allocate_fails_iff_witness :
    ((∃ e, ((UploadBuffer.new 1024).Allocate exampleDevice 100 16).1 = .error e) ↔
      1024 < 100 ∨
      ((UploadBuffer.new 1024).currentHasSpace 100 16 = false ∧
        (((UploadBuffer.new 1024).m_AvailablePages = [] ∧
            exampleDevice.CreateCommittedResource (UploadBuffer.new 1024).heap.length = none) ∨
          1024 < Math.AlignUp 100 16))) ∧
    (∀ al ub', (UploadBuffer.new 1024).Allocate exampleDevice 100 16 = (.ok al, ub') →
      ((UploadBuffer.new 1024).currentHasSpace 100 16 = true ∧
        ub'.m_CurrentPage = (UploadBuffer.new 1024).m_CurrentPage) ∨
      ((UploadBuffer.new 1024).currentHasSpace 100 16 = false ∧
        ∃ page pg, ub'.m_CurrentPage = some page ∧ ub'.heap[page]? = some pg ∧
          al = ⟨pg.m_CPUPtr % WORD, pg.m_GPUPtr % WORD⟩)) :=
  Allocate_fails_iff exampleDevice 1024 (UploadBuffer.new 1024) 100 16
    (Reachable.init (by decide))

/-- C24, counterexample: on a fresh upload buffer with pages of 2 MiB, `Allocate(1, 4 MiB)`
has a size of at most the page size, and it fails with `std::bad_alloc`: the size aligned up
to 4 MiB does not fit in the page that was requested for it. -/
theorem Allocate_fails_size_le_pageSize :
    1 ≤ (UploadBuffer.new 2097152).m_PageSize ∧
    ((UploadBuffer.new 2097152).Allocate exampleDevice 1 4194304).1 = .error .bad_alloc ∧
    Math.AlignUp 1 4194304 = 4194304 :=
  ⟨by decide, rfl, by decide⟩

end UploadBuffer

/-! ### CommandQueue: claim C21 -/

namespace CommandQueue

theorem step_returns (q : CommandQueue) (c : Call) (hc : c.returnsFenceValue = true) :
    (q.step c).1 = some ((q.m_FenceValue + 1) % WORD) ∧
    (q.step c).2.m_FenceValue = (q.m_FenceValue + 1) % WORD ∧
    (q.step c).2.pendingSignals = q.pendingSignals ++ [(q.m_FenceValue + 1) % WORD] ∧
    (q.step c).2.completedValue = q.completedValue := by
  cases c with
  | hardwareStep => cases hc
  | _ => exact ⟨rfl, rfl, rfl, rfl⟩

theorem hardwareStep_ordered (q : CommandQueue) (h : q.Ordered) :
    q.hardwareStep.Ordered ∧ q.completedValue ≤ q.hardwareStep.completedValue ∧
      q.hardwareStep.m_FenceValue = q.m_FenceValue := by
  obtain ⟨h1, h2, h3⟩ := h
  cases hp : q.pendingSignals with
  | nil =>
    have e : q.hardwareStep = q := by simp [hardwareStep, hp]
    rw [e]
    exact ⟨⟨h1, h2, h3⟩, Nat.le_refl _, rfl⟩
  | cons v rest =>
    have e : q.hardwareStep = { q with pendingSignals := rest, completedValue := v } := by
      simp [hardwareStep, hp]
    rw [e]
    rw [hp] at h2 h3
    have hv := h3 v (List.mem_cons_self _ _)
    obtain ⟨h4, h5⟩ := List.pairwise_cons.mp h2
    refine ⟨⟨hv.2, h5, ?_⟩, Nat.le_of_lt hv.1, rfl⟩
    intro x hx
    exact ⟨h4 x hx, (h3 x (List.mem_cons_of_mem _ hx)).2⟩

theorem step_ordered (q : CommandQueue) (c : Call) (h : q.Ordered)
    (hb : q.m_FenceValue + 1 < WORD) (hc : c.returnsFenceValue = true) :
    (q.step c).2.Ordered := by
  obtain ⟨h1, h2, h3⟩ := h
  obtain ⟨-, e1, e2, e3⟩ := step_returns q c hc
  rw [Nat.mod_eq_of_lt hb] at e1 e2
  refine ⟨by rw [e1, e3]; omega, ?_, ?_⟩
  · rw [e2, List.pairwise_append]
    refine ⟨h2, List.pairwise_singleton _ _, ?_⟩
    intro a ha b hb'
    rw [List.mem_singleton.mp hb']
    have := (h3 a ha).2
    omega
  · intro v hv
    rw [e2] at hv
    rw [e1, e3]
    rcases List.mem_append.mp hv with hv | hv
    · have := h3 v hv
      omega
    · rw [List.mem_singleton.mp hv]
      omega

theorem run_ordered (cs : List Call) :
    ∀ q : CommandQueue, q.Ordered → q.m_FenceValue + fenceValuesReturned cs < WORD →
      (q.run cs).2.Ordered ∧
      q.completedValue ≤ (q.run cs).2.completedValue ∧
      (q.run cs).2.m_FenceValue = q.m_FenceValue + fenceValuesReturned cs ∧
      (∀ v ∈ (q.run cs).1, q.m_FenceValue < v) ∧
      (q.run cs).1.Pairwise (fun a b => a < b) := by
  induction cs with
  | nil =>
    intro q h _
    exact ⟨h, Nat.le_refl _, rfl, fun v hv => absurd hv (List.not_mem_nil v),
      List.Pairwise.nil⟩
  | cons c cs ih =>
    intro q h hb
    cases hc : c.returnsFenceValue with
    | false =>
      have hcall : c = .hardwareStep := by cases c <;> first | rfl | cases hc
      subst hcall
      have hcount : fenceValuesReturned (Call.hardwareStep :: cs) = fenceValuesReturned cs := rfl
      rw [hcount] at hb ⊢
      obtain ⟨o1, o2, o3⟩ := hardwareStep_ordered q h
      obtain ⟨i1, i2, i3, i4, i5⟩ := ih q.hardwareStep o1 (by rw [o3]; exact hb)
      have hrun : q.run (Call.hardwareStep :: cs) =
          ((q.hardwareStep.run cs).1, (q.hardwareStep.run cs).2) := rfl
      rw [hrun]
      exact ⟨i1, Nat.le_trans o2 i2, by rw [i3, o3], fun v hv => o3 ▸ i4 v hv, i5⟩
    | true =>
      have hcount : fenceValuesReturned (c :: cs) = fenceValuesReturned cs + 1 := by
        simp [fenceValuesReturned, List.filter_cons, hc]
      rw [hcount] at hb ⊢
      have hb1 : q.m_FenceValue + 1 < WORD := by omega
      obtain ⟨e0, e1, e2, e3⟩ := step_returns q c hc
      rw [Nat.mod_eq_of_lt hb1] at e0 e1
      obtain ⟨i1, i2, i3, i4, i5⟩ := ih (q.step c).2 (step_ordered q c h hb1 hc)
        (by rw [e1]; omega)
      have hrun : q.run (c :: cs) =
          ((q.m_FenceValue + 1) :: ((q.step c).2.run cs).1, ((q.step c).2.run cs).2) := by
        simp only [run, e0, Option.toList, List.singleton_append]
      rw [hrun]
      refine ⟨i1, by rw [← e3]; exact i2, by rw [i3, e1]; omega, ?_, ?_⟩
      · intro v hv
        rcases List.mem_cons.mp hv with hv | hv
        · omega
        · have := i4 v hv
          omega
      · rw [List.pairwise_cons]
        refine ⟨fun v hv => ?_, i5⟩
        have := i4 v hv
        omega

theorem new_ordered : CommandQueue.new.Ordered :=
  ⟨Nat.le_refl _, List.Pairwise.nil, fun v hv => by cases hv⟩

theorem run_append_calls (cs1 cs2 : List Call) :
    ∀ q : CommandQueue, (q.run (cs1 ++ cs2)).2 = ((q.run cs1).2.run cs2).2 := by
  induction cs1 with
  | nil => intro q; rfl
  | cons c cs1 ih => intro q; exact ih (q.step c).2

theorem fenceValuesReturned_append (cs1 cs2 : List Call) :
    fenceValuesReturned (cs1 ++ cs2) = fenceValuesReturned cs1 + fenceValuesReturned cs2 := by
  simp [fenceValuesReturned, List.filter_append]

/-- C21: on a new command queue, for every sequence of `ExecuteCommandList`,
`ExecuteCommandLists` and `Signal` calls, with steps of the hardware queue anywhere between
them, the fence values returned are strictly increasing. `IsFenceComplete(v)` is true exactly
when the completed value of the queue is at least `v`, and once it is true it is true after
every further part of the sequence. (Fewer than `2^64` fence values are returned: the counter
is a 64-bit value.) -/
theorem fence_values_increase (calls : List Call) (h : fenceValuesReturned calls < WORD) :
    (CommandQueue.new.run calls).1.Pairwise (fun a b => a < b) ∧
    (∀ (q : CommandQueue) (v : Nat), q.IsFenceComplete v = true ↔ v ≤ q.completedValue) ∧
    (∀ (calls1 calls2 : List Call) (v : Nat), calls = calls1 ++ calls2 →
      (CommandQueue.new.run calls1).2.IsFenceComplete v = true →
      (CommandQueue.new.run calls).2.IsFenceComplete v = true) := by
  have h0 : CommandQueue.new.m_FenceValue + fenceValuesReturned calls < WORD := by
    show 0 + _ < WORD
    omega
  refine ⟨(run_ordered calls _ new_ordered h0).2.2.2.2, ?_, ?_⟩
  · intro q v
    simp [IsFenceComplete]
  · intro calls1 calls2 v hsplit hv
    subst hsplit
    rw [fenceValuesReturned_append] at h
    obtain ⟨o1, -, o3, -, -⟩ := run_ordered calls1 _ new_ordered
      (show 0 + _ < WORD by omega)
    have o3' : (CommandQueue.new.run calls1).2.m_FenceValue = fenceValuesReturned calls1 := by
      rw [o3]; show 0 + _ = _; omega
    obtain ⟨-, m2, -, -, -⟩ := run_ordered calls2 _ o1 (by rw [o3']; exact h)
    rw [run_append_calls]
    simp only [IsFenceComplete, decide_eq_true_eq] at hv ⊢
    omega

theorem fence_values_increase_witness :
    (CommandQueue.new.run
      [.ExecuteCommandList 7, .Signal, .hardwareStep, .ExecuteCommandLists [8, 9],
        .hardwareStep]).1.Pairwise (fun a b => a < b) ∧
    (∀ (q : CommandQueue) (v : Nat), q.IsFenceComplete v = true ↔ v ≤ q.completedValue) ∧
    (∀ (calls1 calls2 : List Call) (v : Nat),
      [Call.ExecuteCommandList 7, .Signal, .hardwareStep, .ExecuteCommandLists [8, 9],
        .hardwareStep] = calls1 ++ calls2 →
      (CommandQueue.new.run calls1).2.IsFenceComplete v = true →
      (CommandQueue.new.run
        [.ExecuteCommandList 7, .Signal, .hardwareStep, .ExecuteCommandLists [8, 9],
          .hardwareStep]).2.IsFenceComplete v = true) :=
  fence_values_increase
    [.ExecuteCommandList 7, .Signal, .hardwareStep, .ExecuteCommandLists [8, 9], .hardwareStep]
    (by decide)

end CommandQueue

/-! ### DynamicDescriptorHeap: claim C23 -/

namespace DynamicDescriptorHeap

theorem ensureHeap_fields (s : DynamicDescriptorHeap) (n : Nat) :
    (s.ensureHeap n).m_StaleDescriptorTableBitMask = s.m_StaleDescriptorTableBitMask ∧
    (s.ensureHeap n).m_DescriptorTableCache = s.m_DescriptorTableCache ∧
    (s.ensureHeap n).m_DescriptorHandleCache = s.m_DescriptorHandleCache := by
  unfold ensureHeap RequestDescriptorHeap
  split
  · split <;> exact ⟨rfl, rfl, rfl⟩
  · exact ⟨rfl, rfl, rfl⟩

theorem stagedDescriptors_congr (s s1 : DynamicDescriptorHeap) (i : Nat)
    (ht : s1.m_DescriptorTableCache = s.m_DescriptorTableCache)
    (hc : s1.m_DescriptorHandleCache = s.m_DescriptorHandleCache) :
    s1.stagedDescriptors i = s.stagedDescriptors i := by
  unfold stagedDescriptors
  rw [ht, hc]

theorem testBit_clear (m i j : Nat) (h : m.testBit i = true) :
    (m ^^^ (1 <<< i)).testBit j = (m.testBit j && decide (j ≠ i)) := by
  rw [Nat.testBit_xor, Nat.one_shiftLeft, Nat.testBit_two_pow]
  by_cases hj : j = i
  · subst hj
    simp [h]
  · have hij : ¬ i = j := fun e => hj e.symm
    simp [hj, hij]

theorem commitTable_spec (s : DynamicDescriptorHeap) (i : Nat) :
    (s.commitTable i).1.map (fun c => c.rootParameterIndex) =
      (if s.m_StaleDescriptorTableBitMask.testBit i then [i] else []) ∧
    (∀ c ∈ (s.commitTable i).1, c.descriptors = s.stagedDescriptors c.rootParameterIndex) ∧
    (∀ j, (s.commitTable i).2.m_StaleDescriptorTableBitMask.testBit j =
      (s.m_StaleDescriptorTableBitMask.testBit j && decide (j ≠ i))) ∧
    (s.commitTable i).2.m_DescriptorTableCache = s.m_DescriptorTableCache ∧
    (s.commitTable i).2.m_DescriptorHandleCache = s.m_DescriptorHandleCache := by
  obtain ⟨e1, e2, e3⟩ := ensureHeap_fields s (s.numDescriptorsOf i)
  cases h : s.m_StaleDescriptorTableBitMask.testBit i with
  | true =>
    have hct : s.commitTable i =
        ([{ rootParameterIndex := i, descriptors := s.stagedDescriptors i,
            heap := (s.ensureHeap (s.numDescriptorsOf i)).m_CurrentDescriptorHeap.getD 0,
            offset := (s.ensureHeap (s.numDescriptorsOf i)).m_CurrentOffset }],
          { s.ensureHeap (s.numDescriptorsOf i) with
            m_CurrentOffset :=
              (s.ensureHeap (s.numDescriptorsOf i)).m_CurrentOffset + s.numDescriptorsOf i,
            m_NumFreeHandles :=
              (s.ensureHeap (s.numDescriptorsOf i)).m_NumFreeHandles - s.numDescriptorsOf i,
            m_StaleDescriptorTableBitMask :=
              ((s.ensureHeap (s.numDescriptorsOf i)).m_StaleDescriptorTableBitMask ^^^
                (1 <<< i)) }) := by
      simp only [commitTable, h, if_true]
    rw [hct]
    refine ⟨rfl, ?_, ?_, e2, e3⟩
    · intro c hc
      rw [List.mem_singleton.mp hc]
    · intro j
      show ((s.ensureHeap (s.numDescriptorsOf i)).m_StaleDescriptorTableBitMask ^^^
        (1 <<< i)).testBit j = _
      rw [e1]
      exact testBit_clear _ i j h
  | false =>
    have hct : s.commitTable i = ([], s) := by
      simp only [commitTable, h, Bool.false_eq_true, if_false]
    rw [hct]
    refine ⟨rfl, fun c hc => absurd hc (List.not_mem_nil c), ?_, rfl, rfl⟩
    intro j
    show s.m_StaleDescriptorTableBitMask.testBit j = _
    by_cases hj : j = i
    · subst hj
      simp [h]
    · simp [hj]

theorem commitTables_spec (slots : List Nat) (hnodup : slots.Nodup) :
    ∀ s : DynamicDescriptorHeap,
      (commitTables slots s).1.map (fun c => c.rootParameterIndex) =
        slots.filter (fun i => s.m_StaleDescriptorTableBitMask.testBit i) ∧
      (∀ c ∈ (commitTables slots s).1,
        c.descriptors = s.stagedDescriptors c.rootParameterIndex) ∧
      (∀ j, (commitTables slots s).2.m_StaleDescriptorTableBitMask.testBit j =
        (s.m_StaleDescriptorTableBitMask.testBit j && decide (j ∉ slots))) ∧
      (commitTables slots s).2.m_DescriptorTableCache = s.m_DescriptorTableCache ∧
      (commitTables slots s).2.m_DescriptorHandleCache = s.m_DescriptorHandleCache := by
  induction slots with
  | nil =>
    intro s
    refine ⟨rfl, fun c hc => absurd hc (List.not_mem_nil c), ?_, rfl, rfl⟩
    intro j
    simp [commitTables]
  | cons i rest ih =>
    intro s
    obtain ⟨hi, hrest⟩ := List.nodup_cons.mp hnodup
    obtain ⟨a1, a2, a3, a4, a5⟩ := commitTable_spec s i
    obtain ⟨b1, b2, b3, b4, b5⟩ := ih hrest (s.commitTable i).2
    have hfilter : rest.filter
        (fun j => (s.commitTable i).2.m_StaleDescriptorTableBitMask.testBit j) =
        rest.filter (fun j => s.m_StaleDescriptorTableBitMask.testBit j) := by
      apply List.filter_congr
      intro j hj
      have hne : j ≠ i := fun e => hi (e ▸ hj)
      rw [a3 j]
      simp [hne]
    simp only [commitTables, List.map_append, List.mem_append]
    refine ⟨?_, ?_, ?_, b4.trans a4, b5.trans a5⟩
    · rw [a1, b1, hfilter, List.filter_cons]
      split <;> rfl
    · rintro c (hc | hc)
      · exact a2 c hc
      · rw [b2 c hc]
        exact stagedDescriptors_congr s _ _ a4 a5
    · intro j
      rw [b3 j, a3 j]
      by_cases hj : j = i
      · subst hj
        simp
      · by_cases hjr : j ∈ rest
        · simp [hj, hjr]
        · simp [hj, hjr]

theorem commit_spec (s : DynamicDescriptorHeap)
    (h : s.m_StaleDescriptorTableBitMask < WORD32) :
    s.CommitStagedDescriptorsForDraw.1.map (fun c => c.rootParameterIndex) =
      (List.range MaxDescriptorTables).filter
        (fun i => s.m_StaleDescriptorTableBitMask.testBit i) ∧
    (∀ c ∈ s.CommitStagedDescriptorsForDraw.1,
      c.descriptors = s.stagedDescriptors c.rootParameterIndex) ∧
    s.CommitStagedDescriptorsForDraw.2.m_StaleDescriptorTableBitMask = 0 := by
  obtain ⟨c1, c2, c3, -, -⟩ :=
    commitTables_spec (List.range MaxDescriptorTables) (List.nodup_range _) s
  refine ⟨c1, c2, ?_⟩
  apply Nat.eq_of_testBit_eq
  intro j
  rw [Nat.zero_testBit]
  have hj := c3 j
  unfold CommitStagedDescriptorsForDraw
  rw [hj]
  by_cases hlt : j < MaxDescriptorTables
  · simp [List.mem_range, hlt]
  · have hbit : s.m_StaleDescriptorTableBitMask.testBit j = false := by
      apply Nat.testBit_lt_two_pow
      have h32 : (2 : Nat) ^ 32 ≤ 2 ^ j :=
        Nat.pow_le_pow_right (by decide) (Nat.not_lt.mp hlt)
      exact Nat.lt_of_lt_of_le h h32
    rw [hbit]
    rfl

theorem commit_of_mask_zero (s : DynamicDescriptorHeap)
    (h : s.m_StaleDescriptorTableBitMask = 0) : s.CommitStagedDescriptorsForDraw.1 = [] := by
  have h0 : s.m_StaleDescriptorTableBitMask < WORD32 := by rw [h]; decide
  have hmap := (commit_spec s h0).1
  rw [h] at hmap
  simp only [Nat.zero_testBit, List.filter_false] at hmap
  exact List.map_eq_nil_iff.mp hmap

theorem StageDescriptors_spec {s s1 : DynamicDescriptorHeap} {i o n src : Nat}
    (h : s.StageDescriptors i o n src = some s1) :
    i < MaxDescriptorTables ∧
    s1.m_StaleDescriptorTableBitMask = s.m_StaleDescriptorTableBitMask ||| (1 <<< i) := by
  unfold StageDescriptors at h
  split at h
  · rename_i hlt
    split at h
    · cases h
      exact ⟨hlt, rfl⟩
    · cases h
  · cases h

theorem stageAll_spec (calls : List StageCall) :
    ∀ s s1 : DynamicDescriptorHeap, s.stageAll calls = some s1 →
      s.m_StaleDescriptorTableBitMask < WORD32 →
      s1.m_StaleDescriptorTableBitMask < WORD32 ∧
      ∀ j, s1.m_StaleDescriptorTableBitMask.testBit j =
        (s.m_StaleDescriptorTableBitMask.testBit j ||
          decide (j ∈ calls.map (fun c => c.rootParameterIndex))) := by
  induction calls with
  | nil =>
    intro s s1 h hlt
    cases h
    exact ⟨hlt, fun j => by simp⟩
  | cons c calls ih =>
    intro s s1 h hlt
    simp only [stageAll] at h
    cases hc : s.StageDescriptors c.rootParameterIndex c.offset c.numDescriptors
        c.srcDescriptors with
    | none => rw [hc] at h; cases h
    | some s0 =>
      rw [hc] at h
      obtain ⟨hi, hmask⟩ := StageDescriptors_spec hc
      have hlt0 : s0.m_StaleDescriptorTableBitMask < WORD32 := by
        rw [hmask, Nat.one_shiftLeft]
        exact Nat.or_lt_two_pow hlt (Nat.pow_lt_pow_right (by decide) hi)
      obtain ⟨h1, h2⟩ := ih s0 s1 h hlt0
      refine ⟨h1, fun j => ?_⟩
      rw [h2 j, hmask, Nat.testBit_or, Nat.one_shiftLeft, Nat.testBit_two_pow]
      by_cases hj : c.rootParameterIndex = j
      · simp [hj]
      · have hj2 : ¬ j = c.rootParameterIndex := fun e => hj e.symm
        simp [hj, hj2]

/-- C23: for every state of a `DynamicDescriptorHeap` (its stale mask a 32-bit value),
`CommitStagedDescriptorsForDraw` copies the tables whose stale bit is set, each once, in the
order of the root parameters and with the descriptors staged for it, and no other table;
after it the stale mask is 0, so a second commit with no `StageDescriptors` call between the
two copies nothing. After the commit and any `StageDescriptors` calls, the next commit copies
exactly the tables that those calls staged into. -/
theorem commit_copies_stale_tables (s : DynamicDescriptorHeap)
    (h : s.m_StaleDescriptorTableBitMask < WORD32) :
    s.CommitStagedDescriptorsForDraw.1.map (fun c => c.rootParameterIndex) =
      (List.range MaxDescriptorTables).filter
        (fun i => s.m_StaleDescriptorTableBitMask.testBit i) ∧
    (∀ c ∈ s.CommitStagedDescriptorsForDraw.1,
      c.descriptors = s.stagedDescriptors c.rootParameterIndex) ∧
    s.CommitStagedDescriptorsForDraw.2.m_StaleDescriptorTableBitMask = 0 ∧
    s.CommitStagedDescriptorsForDraw.2.CommitStagedDescriptorsForDraw.1 = [] ∧
    (∀ (calls : List StageCall) (s1 : DynamicDescriptorHeap),
      s.CommitStagedDescriptorsForDraw.2.stageAll calls = some s1 →
      s1.CommitStagedDescriptorsForDraw.1.map (fun c => c.rootParameterIndex) =
        (List.range MaxDescriptorTables).filter
          (fun i => decide (i ∈ calls.map (fun c => c.rootParameterIndex))) ∧
      s1.CommitStagedDescriptorsForDraw.2.m_StaleDescriptorTableBitMask = 0) := by
  obtain ⟨c1, c2, c3⟩ := commit_spec s h
  refine ⟨c1, c2, c3, commit_of_mask_zero _ c3, ?_⟩
  intro calls s1 hs1
  obtain ⟨d1, d2⟩ := stageAll_spec calls _ s1 hs1 (by rw [c3]; decide)
  obtain ⟨e1, -, e3⟩ := commit_spec s1 d1
  refine ⟨?_, e3⟩
  rw [e1]
  apply List.filter_congr
  intro j _
  rw [d2 j, c3]
  simp

theorem commit_copies_stale_tables_witness :
    exampleHeap.CommitStagedDescriptorsForDraw.1.map (fun c => c.rootParameterIndex) =
      (List.range MaxDescriptorTables).filter
        (fun i => exampleHeap.m_StaleDescriptorTableBitMask.testBit i) ∧
    (∀ c ∈ exampleHeap.CommitStagedDescriptorsForDraw.1,
      c.descriptors = exampleHeap.stagedDescriptors c.rootParameterIndex) ∧
    exampleHeap.CommitStagedDescriptorsForDraw.2.m_StaleDescriptorTableBitMask = 0 ∧
    exampleHeap.CommitStagedDescriptorsForDraw.2.CommitStagedDescriptorsForDraw.1 = [] ∧
    (∀ (calls : List StageCall) (s1 : DynamicDescriptorHeap),
      exampleHeap.CommitStagedDescriptorsForDraw.2.stageAll calls = some s1 →
      s1.CommitStagedDescriptorsForDraw.1.map (fun c => c.rootParameterIndex) =
        (List.range MaxDescriptorTables).filter
          (fun i => decide (i ∈ calls.map (fun c => c.rootParameterIndex))) ∧
      s1.CommitStagedDescriptorsForDraw.2.m_StaleDescriptorTableBitMask = 0) :=
  commit_copies_stale_tables exampleHeap (by decide)

end DynamicDescriptorHeap

end DX12_Library

/-! ## CThreadSafeQueue: claim C30 -/

namespace CThreadSafeQueue

variable {C : Type}

theorem push_of_not_full (q : CThreadSafeQueue C) (c : C) (semaphore : Semaphore)
    (hs : q.m_hSemaphore = some semaphore) (h : q.findsFull = false) :
    q.push c = { q with list := q.list ++ [c],
                        m_hSemaphore := some { semaphore with count := semaphore.count + 1 } } := by
  unfold findsFull at h
  unfold push
  rw [hs] at h ⊢
  by_cases hc : semaphore.count + 1 ≤ semaphore.max
  · simp [ReleaseSemaphore, hc]
  · simp [ReleaseSemaphore, hc] at h

theorem push_of_failure (q : CThreadSafeQueue C) (c : C) (e : Win32Error)
    (h : ReleaseSemaphore q.m_hSemaphore = .error e) :
    (q.push c).list = q.list ∧ (q.push c).m_hSemaphore = q.m_hSemaphore ∧
      (q.push c).m_bOverflow = (if e = .ERROR_TOO_MANY_POSTS then true else q.m_bOverflow) := by
  unfold push
  rw [h]
  simp

theorem pushAll_list (cs : List C) :
    ∀ (q : CThreadSafeQueue C), q.m_hSemaphore.isSome = true → noneFindsFull q cs = true →
      (q.pushAll cs).list = q.list ++ cs ∧ (q.pushAll cs).m_hSemaphore.isSome = true := by
  induction cs with
  | nil => intro q hs _; simp [pushAll, hs]
  | cons c cs ih =>
    intro q hs h
    obtain ⟨semaphore, hsem⟩ := Option.isSome_iff_exists.mp hs
    simp only [noneFindsFull, Bool.and_eq_true, Bool.not_eq_true'] at h
    have hp := push_of_not_full q c semaphore hsem h.1
    have hs1 : (q.push c).m_hSemaphore.isSome = true := by rw [hp]; rfl
    obtain ⟨h1, h2⟩ := ih (q.push c) hs1 h.2
    simp only [pushAll]
    refine ⟨?_, h2⟩
    rw [h1, hp]
    simp

theorem popMany_list (items : List C) :
    ∀ (q : CThreadSafeQueue C) (c : C), q.list = items →
      ∃ q1, q.popMany c items.length = some (items.map (fun x => (true, x)), q1) ∧
        q1.list = [] := by
  induction items with
  | nil => intro q c h; exact ⟨q, rfl, h⟩
  | cons x items ih =>
    intro q c h
    have hp : q.pop c = some (true, x, { q with list := items }) := by
      simp [pop, h]
    obtain ⟨q1, h1, h2⟩ := ih { q with list := items } x rfl
    refine ⟨q1, ?_, h2⟩
    simp only [List.length_cons, popMany, hp, h1, List.map_cons]

/-- C30, as amended: on a queue whose semaphore was created (the handle is not `NULL`), let
`items` be pushed by successive `push` calls none of which finds the semaphore full. Then the
queue holds what it held before followed by `items`, and successive `pop` calls all return,
return `true` each and give the items in push order (after what the queue held before),
leaving the queue empty. A `pop` on an empty queue whose semaphore was created returns `false`
and leaves its output argument and the empty queue as they are. A `push` whose
`ReleaseSemaphore` fails, because the semaphore is full or because the handle is `NULL`,
leaves the contents of the queue as they were before it. -/
theorem push_pop_fifo (q : CThreadSafeQueue C) (items : List C) (c : C)
    (hs : q.m_hSemaphore.isSome = true) (h : noneFindsFull q items = true) :
    (q.pushAll items).list = q.list ++ items ∧
    (∃ q1, (q.pushAll items).popMany c (q.list ++ items).length =
        some ((q.list ++ items).map (fun x => (true, x)), q1) ∧ q1.list = []) ∧
    (∀ (q0 : CThreadSafeQueue C) (c0 : C), q0.list = [] → q0.m_hSemaphore.isSome = true →
      ∃ q1, q0.pop c0 = some (false, c0, q1) ∧ q1.list = []) ∧
    (∀ (q0 : CThreadSafeQueue C) (c0 : C) (e : Win32Error),
      ReleaseSemaphore q0.m_hSemaphore = .error e → (q0.push c0).list = q0.list) := by
  obtain ⟨hl, -⟩ := pushAll_list items q hs h
  refine ⟨hl, popMany_list (q.list ++ items) (q.pushAll items) c hl, ?_, ?_⟩
  · intro q0 c0 h0 hs0
    obtain ⟨semaphore, hsem⟩ := Option.isSome_iff_exists.mp hs0
    refine ⟨⟨q0.list, some ⟨drainSemaphore semaphore.count, semaphore.max⟩, q0.m_bOverflow⟩,
      ?_, h0⟩
    simp only [pop, h0, hsem]
  · intro q0 c0 e he
    exact (push_of_failure q0 c0 e he).1

theorem push_pop_fifo_witness :
    ((CThreadSafeQueue.new 4 : CThreadSafeQueue Nat).pushAll [7, 8, 9]).list = [] ++ [7, 8, 9] ∧
    (∃ q1, ((CThreadSafeQueue.new 4 : CThreadSafeQueue Nat).pushAll [7, 8, 9]).popMany 0
        (([] : List Nat) ++ [7, 8, 9]).length =
        some ((([] : List Nat) ++ [7, 8, 9]).map (fun x => (true, x)), q1) ∧ q1.list = []) ∧
    (∀ (q0 : CThreadSafeQueue Nat) (c0 : Nat), q0.list = [] → q0.m_hSemaphore.isSome = true →
      ∃ q1, q0.pop c0 = some (false, c0, q1) ∧ q1.list = []) ∧
    (∀ (q0 : CThreadSafeQueue Nat) (c0 : Nat) (e : Win32Error),
      ReleaseSemaphore q0.m_hSemaphore = .error e → (q0.push c0).list = q0.list) :=
  push_pop_fifo (CThreadSafeQueue.new 4) [7, 8, 9] 0 rfl rfl

/-- C30, counterexample: the queue constructed with `nMaxCount = 0` has a `NULL` semaphore
handle. Its list is empty and `pop` does not return (it does not return `false`). A `push` on
it does not find the semaphore full (`ReleaseSemaphore` fails with `ERROR_INVALID_HANDLE`,
and `m_bOverflow` stays `false`), the item is taken back, and a `pop` after it does not
return the item pushed. -/
theorem pop_without_semaphore_does_not_return :
    (CThreadSafeQueue.new 0 : CThreadSafeQueue Nat).m_hSemaphore = none ∧
    (CThreadSafeQueue.new 0 : CThreadSafeQueue Nat).list = [] ∧
    (CThreadSafeQueue.new 0 : CThreadSafeQueue Nat).pop 5 = none ∧
    noneFindsFull (CThreadSafeQueue.new 0 : CThreadSafeQueue Nat) [7] = true ∧
    ((CThreadSafeQueue.new 0 : CThreadSafeQueue Nat).pushAll [7]).list = [] ∧
    ((CThreadSafeQueue.new 0 : CThreadSafeQueue Nat).pushAll [7]).m_bOverflow = false ∧
    ((CThreadSafeQueue.new 0 : CThreadSafeQueue Nat).pushAll [7]).popMany 5 1 = none := by
  refine ⟨rfl, rfl, rfl, rfl, rfl, rfl, rfl⟩

end CThreadSafeQueue

/-! ## The Models sample: claims C27, C28 and C29 -/

namespace DirectX12Engine

theorem multiplyLocalTransform_flags (s : DirectX12Engine) (m : XMMATRIX) :
    (s.multiplyLocalTransform m).m_Fullscreen = s.m_Fullscreen ∧
    (s.multiplyLocalTransform m).m_AllowFullscreenToggle = s.m_AllowFullscreenToggle := by
  unfold multiplyLocalTransform
  split <;> exact ⟨rfl, rfl⟩

theorem OnResetRotation_flags (s : DirectX12Engine) :
    s.OnResetRotation.m_Fullscreen = s.m_Fullscreen ∧
    s.OnResetRotation.m_AllowFullscreenToggle = s.m_AllowFullscreenToggle := by
  unfold OnResetRotation
  split <;> exact ⟨rfl, rfl⟩

theorem DeleteEntity_flags (s : DirectX12Engine) :
    s.DeleteEntity.m_Fullscreen = s.m_Fullscreen ∧
    s.DeleteEntity.m_AllowFullscreenToggle = s.m_AllowFullscreenToggle := by
  unfold DeleteEntity
  split <;> exact ⟨rfl, rfl⟩

theorem toggleFullscreen_flags (s : DirectX12Engine) :
    (s.m_AllowFullscreenToggle = true →
      s.toggleFullscreen.m_Fullscreen = !s.m_Fullscreen ∧
      s.toggleFullscreen.m_AllowFullscreenToggle = false) ∧
    (s.m_AllowFullscreenToggle = false → s.toggleFullscreen = s) := by
  unfold toggleFullscreen
  constructor
  · intro h; simp [h]
  · intro h; simp [h]

/-- What `OnKeyPressed` does to the two fullscreen members: either it leaves both as they
are, or the toggle was allowed, the flag is inverted and the toggle is not allowed any more. -/
theorem OnKeyPressed_flags (s : DirectX12Engine) (e : KeyEventArgs) (w : Bool) :
    ((s.OnKeyPressed e w).m_Fullscreen = s.m_Fullscreen ∧
      (s.OnKeyPressed e w).m_AllowFullscreenToggle = s.m_AllowFullscreenToggle) ∨
    (s.m_AllowFullscreenToggle = true ∧ w = false ∧ isFullscreenKey e = true ∧
      (s.OnKeyPressed e w).m_Fullscreen = (!s.m_Fullscreen) ∧
      (s.OnKeyPressed e w).m_AllowFullscreenToggle = false) := by
  have htog : ∀ hk : isFullscreenKey e = true,
      (s.toggleFullscreen.m_Fullscreen = s.m_Fullscreen ∧
        s.toggleFullscreen.m_AllowFullscreenToggle = s.m_AllowFullscreenToggle) ∨
      (s.m_AllowFullscreenToggle = true ∧ isFullscreenKey e = true ∧
        s.toggleFullscreen.m_Fullscreen = (!s.m_Fullscreen) ∧
        s.toggleFullscreen.m_AllowFullscreenToggle = false) := by
    intro hk
    cases ha : s.m_AllowFullscreenToggle with
    | true =>
      obtain ⟨h1, h2⟩ := (toggleFullscreen_flags s).1 ha
      exact Or.inr ⟨rfl, hk, h1, h2⟩
    | false =>
      rw [(toggleFullscreen_flags s).2 ha]
      exact Or.inl ⟨rfl, ha⟩
  cases w with
  | true => exact Or.inl ⟨rfl, rfl⟩
  | false =>
    obtain ⟨key, alt, control⟩ := e
    cases key
    case Enter =>
      cases alt with
      | true =>
        rcases htog (by rfl) with h | ⟨h1, h2, h3, h4⟩
        · exact Or.inl h
        · exact Or.inr ⟨h1, rfl, h2, h3, h4⟩
      | false => exact Or.inl ⟨rfl, rfl⟩
    case F11 =>
      rcases htog (by rfl) with h | ⟨h1, h2, h3, h4⟩
      · exact Or.inl h
      · exact Or.inr ⟨h1, rfl, h2, h3, h4⟩
    case O => cases control <;> exact Or.inl ⟨rfl, rfl⟩
    case NumPad4 => exact Or.inl (multiplyLocalTransform_flags s _)
    case NumPad6 =>
      refine Or.inl ?_
      have h1 := multiplyLocalTransform_flags s (.XMMatrixRotationY (1 * 45))
      have h2 := multiplyLocalTransform_flags
        (s.multiplyLocalTransform (.XMMatrixRotationY (1 * 45))) (.XMMatrixRotationX (-1 * 45))
      exact ⟨h2.1.trans h1.1, h2.2.trans h1.2⟩
    case NumPad7 => exact Or.inl (multiplyLocalTransform_flags s _)
    case NumPad9 => exact Or.inl (multiplyLocalTransform_flags s _)
    case NumPad8 => exact Or.inl (multiplyLocalTransform_flags s _)
    case NumPad2 => exact Or.inl (multiplyLocalTransform_flags s _)
    case NumPad5 => exact Or.inl (OnResetRotation_flags s)
    case NumPad1 => exact Or.inl (multiplyLocalTransform_flags s _)
    case NumPad3 => exact Or.inl (multiplyLocalTransform_flags s _)
    case Delete => exact Or.inl (DeleteEntity_flags s)
    all_goals exact Or.inl ⟨rfl, rfl⟩

/-- What `OnKeyReleased` does to the two fullscreen members: the flag stays, and the toggle
permission stays unless the key is F11 or Alt+Enter and the GUI does not capture the
keyboard, and then the toggle is allowed. -/
theorem OnKeyReleased_flags (s : DirectX12Engine) (e : KeyEventArgs) (w : Bool) :
    (s.OnKeyReleased e w).m_Fullscreen = s.m_Fullscreen ∧
    ((s.OnKeyReleased e w).m_AllowFullscreenToggle = s.m_AllowFullscreenToggle ∨
      (w = false ∧ isFullscreenKey e = true ∧
        (s.OnKeyReleased e w).m_AllowFullscreenToggle = true)) := by
  cases w with
  | true => exact ⟨rfl, Or.inl rfl⟩
  | false =>
    obtain ⟨key, alt, control⟩ := e
    cases key
    case Enter =>
      cases alt with
      | true => exact ⟨rfl, Or.inr ⟨rfl, rfl, rfl⟩⟩
      | false => exact ⟨rfl, Or.inl rfl⟩
    case F11 => exact ⟨rfl, Or.inr ⟨rfl, rfl, rfl⟩⟩
    all_goals exact ⟨rfl, Or.inl rfl⟩

theorem fullscreenChanges_le (evs : List KeyEvent) :
    ∀ s : DirectX12Engine, (∀ ev ∈ evs, isFullscreenKeyReleased ev = false) →
      fullscreenChanges s evs ≤ (if s.m_AllowFullscreenToggle then 1 else 0) := by
  induction evs with
  | nil => intro s _; simp [fullscreenChanges]
  | cons ev evs ih =>
    intro s h
    have hrest := ih (s.handle ev) (fun x hx => h x (List.mem_cons_of_mem _ hx))
    have hev := h ev (List.mem_cons_self _ _)
    simp only [fullscreenChanges]
    cases ev with
    | pressed e w =>
      rcases OnKeyPressed_flags s e w with ⟨h1, h2⟩ | ⟨h1, -, -, h3, h4⟩
      · have h1' : (s.handle (.pressed e w)).m_Fullscreen = s.m_Fullscreen := h1
        have h2' : (s.handle (.pressed e w)).m_AllowFullscreenToggle =
            s.m_AllowFullscreenToggle := h2
        rw [h2'] at hrest
        rw [if_pos h1']
        omega
      · have h4' : (s.handle (.pressed e w)).m_AllowFullscreenToggle = false := h4
        rw [h4'] at hrest
        rw [h1]
        simp only [Bool.false_eq_true, if_false] at hrest
        split <;> simp <;> omega
    | released e w =>
      obtain ⟨h1, h2⟩ := OnKeyReleased_flags s e w
      have h1' : (s.handle (.released e w)).m_Fullscreen = s.m_Fullscreen := h1
      rw [if_pos h1']
      rcases h2 with h2 | ⟨-, hk, -⟩
      · have h2' : (s.handle (.released e w)).m_AllowFullscreenToggle =
            s.m_AllowFullscreenToggle := h2
        rw [h2'] at hrest
        omega
      · have : isFullscreenKey e = false := hev
        rw [this] at hk
        cases hk

/-- C27: from a state in which the fullscreen toggle is allowed, a sequence of key events
that has no key-released event for F11 or Alt+Enter (key-pressed events of any key, key
repeats included, and key-released events of other keys) changes `m_Fullscreen` at most once.
And when the toggle is not allowed before an event and is allowed after it, the event is the
key-released event of F11 or Alt+Enter (handled while the GUI does not capture the
keyboard). -/
theorem fullscreen_toggles_at_most_once (s : DirectX12Engine) (evs : List KeyEvent)
    (hallow : s.m_AllowFullscreenToggle = true)
    (hevs : ∀ ev ∈ evs, isFullscreenKeyReleased ev = false) :
    fullscreenChanges s evs ≤ 1 ∧
    (∀ (s0 : DirectX12Engine) (ev : KeyEvent), s0.m_AllowFullscreenToggle = false →
      (s0.handle ev).m_AllowFullscreenToggle = true →
      ∃ e, ev = .released e false ∧ isFullscreenKey e = true) := by
  constructor
  · have := fullscreenChanges_le evs s hevs
    rw [hallow] at this
    simpa using this
  · intro s0 ev h0 h1
    cases ev with
    | pressed e w =>
      rcases OnKeyPressed_flags s0 e w with ⟨-, h2⟩ | ⟨h2, -⟩
      · have h2' : (s0.handle (.pressed e w)).m_AllowFullscreenToggle =
            s0.m_AllowFullscreenToggle := h2
        rw [h2', h0] at h1
        cases h1
      · rw [h0] at h2
        cases h2
    | released e w =>
      rcases (OnKeyReleased_flags s0 e w).2 with h2 | ⟨hw, hk, -⟩
      · have h2' : (s0.handle (.released e w)).m_AllowFullscreenToggle =
            s0.m_AllowFullscreenToggle := h2
        rw [h2', h0] at h1
        cases h1
      · exact ⟨e, by rw [hw], hk⟩

theorem fullscreen_toggles_at_most_once_witness :
    fullscreenChanges exampleEngine
      [.pressed ⟨.F11, false, false⟩ false, .pressed ⟨.F11, false, false⟩ false,
        .pressed ⟨.Enter, true, false⟩ false, .released ⟨.V, false, false⟩ false] ≤ 1 ∧
    (∀ (s0 : DirectX12Engine) (ev : KeyEvent), s0.m_AllowFullscreenToggle = false →
      (s0.handle ev).m_AllowFullscreenToggle = true →
      ∃ e, ev = .released e false ∧ isFullscreenKey e = true) :=
  fullscreen_toggles_at_most_once exampleEngine
    [.pressed ⟨.F11, false, false⟩ false, .pressed ⟨.F11, false, false⟩ false,
      .pressed ⟨.Enter, true, false⟩ false, .released ⟨.V, false, false⟩ false]
    rfl (by decide)

/-- C28, the code at the failing input: with a model selected and the GUI not capturing the
keyboard, the handler of NumPad6 multiplies the local transform of the model by two
rotations, the rotation about the Y axis by +45 degrees and then the rotation about the X
axis by -45 degrees (`case KeyCode::NumPad6` has no `break` and runs on into
`case KeyCode::NumPad7`); the handler of NumPad4 multiplies it by one rotation, about the Y
axis by -45 degrees. -/
theorem OnKeyPressed_NumPad6_rotates_about_Y_and_X :
    (exampleEngine.OnKeyPressed ⟨.NumPad6, false, false⟩ false).selectedLocalTransform =
      some (.mul (.mul (.given 0) (.XMMatrixRotationY 45)) (.XMMatrixRotationX (-45))) ∧
    (exampleEngine.OnKeyPressed ⟨.NumPad4, false, false⟩ false).selectedLocalTransform =
      some (.mul (.given 0) (.XMMatrixRotationY (-45))) ∧
    (exampleEngine.OnKeyPressed ⟨.NumPad6, false, false⟩ false).selectedLocalTransform ≠
      some (.mul (.given 0) (.XMMatrixRotationY 45)) := by
  refine ⟨rfl, rfl, ?_⟩
  show some (XMMATRIX.mul (.mul (.given 0) (.XMMatrixRotationY 45)) (.XMMatrixRotationX (-45)))
    ≠ some (.mul (.given 0) (.XMMatrixRotationY 45))
  intro h
  cases h

/-- C29, the code at the failing input: with a model selected, `OnRotateZ(amount)` multiplies
the local transform of the model by `XMMatrixRotationX` of `amount * 45` degrees, a rotation
about the X axis; so do the handlers of NumPad8 (by -45 degrees) and NumPad2 (by +45
degrees), which gives what the handlers of NumPad7 and NumPad9 give. -/
theorem OnRotateZ_rotates_about_X :
    (exampleEngine.OnRotateZ 1).selectedLocalTransform =
      some (.mul (.given 0) (.XMMatrixRotationX 45)) ∧
    (exampleEngine.OnKeyPressed ⟨.NumPad8, false, false⟩ false).selectedLocalTransform =
      some (.mul (.given 0) (.XMMatrixRotationX (-45))) ∧
    (exampleEngine.OnKeyPressed ⟨.NumPad2, false, false⟩ false).selectedLocalTransform =
      some (.mul (.given 0) (.XMMatrixRotationX 45)) ∧
    (exampleEngine.OnKeyPressed ⟨.NumPad8, false, false⟩ false).selectedLocalTransform ≠
      some (.mul (.given 0) (.XMMatrixRotationZ (-45))) ∧
    exampleEngine.OnKeyPressed ⟨.NumPad8, false, false⟩ false =
      exampleEngine.OnKeyPressed ⟨.NumPad7, false, false⟩ false ∧
    exampleEngine.OnKeyPressed ⟨.NumPad2, false, false⟩ false =
      exampleEngine.OnKeyPressed ⟨.NumPad9, false, false⟩ false := by
  refine ⟨rfl, rfl, rfl, ?_, rfl, rfl⟩
  show some (XMMATRIX.mul (.given 0) (.XMMatrixRotationX (-45)))
    ≠ some (.mul (.given 0) (.XMMatrixRotationZ (-45)))
  intro h
  cases h

end DirectX12Engine
